import Mathlib

/-!
# Retrieval core of the search engine: tokenizer, inverted index, hybrid ranker

A shallow embedding of `internal/index` (tokenize.go, index.go, snapshot.go),
`internal/search` (service.go), `internal/semantic` (index.go) and of the
link resolution of `internal/crawler` (parser.go).

Modelling conventions

* A Go `string` is a Lean `String`: the sequence of runes its bytes decode to.
  ASCII alphanumerics are single bytes in UTF-8, so matching `[a-zA-Z0-9]+`
  on runes and on bytes agrees.
* A Go `map[string]V` is an association list `GoMap V`.  Lookup returns the
  first entry with the key, assignment replaces it in place or appends a new
  entry, `delete` removes the key.  The list order plays no part in lookups.
* Go leaves the order of `range` over a map unspecified.  Every such loop
  whose body is order sensitive takes a `RangeOrder`, an arbitrary
  rearrangement of the entries, so the theorems hold for every order the
  runtime may pick.
* Go `int` is `Int`, read as a 64-bit integer.  Lengths and counts stay far
  below 2^63.  The one product of a caller's argument, `5*topK` in the
  fallback scan of `Query`, wraps around as in Go (`wrapInt`).
* `Posting.TF` is `float64(count)` for an `int` count.  The embedding keeps
  the integer and `Search` promotes it when scoring.
* The index mutex is not modelled: `AddDocument` holds the write lock for
  its whole critical section, so every call is one atomic state transition.
* `float64` is an arbitrary linearly ordered field `F`, with `math.Log` a
  parameter: scores are exact, without rounding, infinities or NaN.
* A run-time panic is the result `none`.  The only one `Search` can raise is
  the slice expression of `buildSnippet`.
* The semantic index enters `Search` through its `Query` method alone, which
  `Search` calls once.  `Query` ranges over Go maps, so it may answer the
  same call on the same state differently from run to run: the field
  `Semantic` of a `Service` holds the answers of one run, and two runs of
  `Search` are two `Service` values (`Service.during`).
* In the semantic index `math.Sqrt` and the hyperplanes `NewIndex` draws are
  parameters.  The index mutex is not modelled there either.  `NewIndex`
  takes the clock and the values of `rng.NormFloat64()` as parameters, and
  the conversion `uint32(h.dimension)` is the remainder modulo 2^32.
* Go compares strings byte by byte.  On the UTF-8 encoding of rune sequences
  that is the lexicographic order by code point, the order `<` of `String`
  (`bytesLess_iff_lt`).
* Of the snapshot, the conversions between documents and snapshot entries
  are modelled; the file system and `encoding/json` are not: `LoadSnapshot`
  reads the value `WriteSnapshot` hands to the encoder.
* `resolveLink` and `joinPath` work on the bytes of their arguments.
-/

namespace GoogleSearch

set_option linter.unusedSectionVars false

/-! ## Go maps -/

/-- A Go `map[string]V`, as an association list. -/
abbrev GoMap (V : Type) := List (String × V)

namespace GoMap

variable {V : Type}

/-- The lookup `v, ok := m[k]`. -/
def get? : GoMap V → String → Option V
  | [], _ => none
  | (k', v) :: rest, k => if k' = k then some v else get? rest k

/-- The assignment `m[k] = v`. -/
def set : GoMap V → String → V → GoMap V
  | [], k, v => [(k, v)]
  | (k', v') :: rest, k, v => if k' = k then (k, v) :: rest else (k', v') :: set rest k v

/-- The builtin `delete(m, k)`. -/
def delete (m : GoMap V) (k : String) : GoMap V :=
  m.filter (fun e => decide (e.1 ≠ k))

/-- The builtin `len(m)`. -/
def len (m : GoMap V) : Int := (m.length : Int)

/-- The keys of the map, in list order. -/
def keys (m : GoMap V) : List String := m.map Prod.fst

/-- The values of the map, in list order. -/
def values (m : GoMap V) : List V := m.map Prod.snd

end GoMap

/-- One order in which `range` may visit the entries of a map: any
rearrangement of them. -/
structure RangeOrder (α : Type) where
  /-- The entries in visiting order. -/
  pick : List α → List α
  /-- Each entry is visited exactly once. -/
  perm : ∀ l, (pick l).Perm l

/-- The order in which the entries are stored. -/
def RangeOrder.stored (α : Type) : RangeOrder α := ⟨fun l => l, fun l => List.Perm.refl l⟩

/-- The reverse of the stored order. -/
def RangeOrder.backwards (α : Type) : RangeOrder α :=
  ⟨fun l => l.reverse, fun l => List.reverse_perm l⟩

/-! ## tokenize.go -/

/-- The character class `[a-zA-Z0-9]` of `tokenRegexp`. -/
def isTokenChar (c : Char) : Bool :=
  (decide ('a' ≤ c) && decide (c ≤ 'z')) || (decide ('A' ≤ c) && decide (c ≤ 'Z')) ||
    (decide ('0' ≤ c) && decide (c ≤ '9'))

/-- The scan behind `tokenRegexp.FindAllString(text, -1)` for the pattern
`[a-zA-Z0-9]+`: successive leftmost matches, each extended greedily.  `cur`
is the match in progress. -/
def findAllFrom : List Char → List Char → List (List Char)
  | cur, [] => if cur.isEmpty then [] else [cur]
  | cur, c :: cs =>
    if isTokenChar c then findAllFrom (cur ++ [c]) cs
    else if cur.isEmpty then findAllFrom [] cs
    else cur :: findAllFrom [] cs

/-- The call `tokenRegexp.FindAllString(text, -1)`. -/
def FindAllString (text : String) : List String :=
  (findAllFrom [] text.data).map String.mk

/-- The call `strings.ToLower` on a match of `tokenRegexp`.  A match is pure
ASCII, where `ToLower` maps `A`..`Z` to `a`..`z` and keeps every other byte. -/
def ToLower (m : String) : String := String.mk (m.data.map Char.toLower)

/-- Tokenize lowercases the input and returns word tokens suitable for indexing. -/
def Tokenize (text : String) : List String :=
  let matches_ := FindAllString text
  if matches_.length = 0 then []
  else matches_.foldl (fun tokens m => tokens ++ [ToLower m]) []

/-! ## document.go, index.go -/

/-- Document represents a crawled web page that can be indexed. -/
structure Document where
  ID : String
  URL : String
  Title : String
  Content : String
  Tokens : List String
  FetchedAt : Int
deriving DecidableEq, Repr

/-- Posting represents a term occurrence in a document. -/
structure Posting where
  DocID : String
  TF : Int
deriving DecidableEq, Repr

/-- InvertedIndex stores postings lists and document statistics. -/
structure InvertedIndex where
  documents : GoMap Document
  postings : GoMap (GoMap Posting)
  docLengths : GoMap Int
  docTerms : GoMap (List String)
  totalTokens : Int
deriving DecidableEq, Repr

/-- NewInvertedIndex constructs an empty index. -/
def NewInvertedIndex : InvertedIndex :=
  { documents := [], postings := [], docLengths := [], docTerms := [], totalTokens := 0 }

/-- The token sequence `AddDocument` indexes: the cached `Tokens` when there
are any, otherwise `Tokenize(doc.Content)`. -/
def indexedTokens (doc : Document) : List String :=
  if doc.Tokens.length = 0 then Tokenize doc.Content else doc.Tokens

/-- The loop `for _, token := range tokens { termCounts[token]++ }`. -/
def countTerms (tokens : List String) : GoMap Int :=
  tokens.foldl (fun termCounts token => termCounts.set token ((termCounts.get? token).getD 0 + 1)) []

/-- One round of the loop over `existingTerms`: drop the posting of `id`
under `term`, and the term itself when its posting list becomes empty. -/
def retractTerm (id : String) (postings : GoMap (GoMap Posting)) (term : String) :
    GoMap (GoMap Posting) :=
  match postings.get? term with
  | some postingList =>
    let postingList := postingList.delete id
    if postingList.len = 0 then postings.delete term else postings.set term postingList
  | none => postings

/-- The state of the insertion loop of `AddDocument`. -/
structure InsertAcc where
  totalTerms : Int
  termsOrdered : List String
  postings : GoMap (GoMap Posting)

/-- One round of the loop `for term, count := range termCounts`. -/
def insertTerm (id : String) (acc : InsertAcc) (e : String × Int) : InsertAcc :=
  let postingList := match acc.postings.get? e.1 with
    | some postingList => postingList
    | none => []
  { totalTerms := acc.totalTerms + e.2
    termsOrdered := acc.termsOrdered ++ [e.1]
    postings := acc.postings.set e.1 (postingList.set id { DocID := id, TF := e.2 }) }

/-- AddDocument tokenizes and inserts the document into the index.  `ord` is
the order in which the runtime ranges over `termCounts`. -/
def AddDocument (ord : RangeOrder (String × Int)) (idx : InvertedIndex) (doc : Document) :
    InvertedIndex :=
  let tokens := indexedTokens doc
  let doc : Document := { doc with Tokens := tokens }
  let termCounts := countTerms tokens
  let retracted : GoMap (GoMap Posting) × Int :=
    match idx.docTerms.get? doc.ID with
    | some existingTerms =>
      (existingTerms.foldl (retractTerm doc.ID) idx.postings,
        match idx.docLengths.get? doc.ID with
        | some length => idx.totalTokens - length
        | none => idx.totalTokens)
    | none => (idx.postings, idx.totalTokens)
  let acc := (ord.pick termCounts).foldl (insertTerm doc.ID)
    { totalTerms := 0, termsOrdered := [], postings := retracted.1 }
  { documents := idx.documents.set doc.ID doc
    postings := acc.postings
    docLengths := idx.docLengths.set doc.ID (tokens.length : Int)
    docTerms := idx.docTerms.set doc.ID acc.termsOrdered
    totalTokens := retracted.2 + acc.totalTerms }

/-- Document retrieves a stored document by ID. -/
def InvertedIndex.Document (idx : InvertedIndex) (id : String) : Option Document :=
  idx.documents.get? id

/-- Postings returns a copy of the postings list for a term.  `ord` is the
order in which the runtime ranges over the posting map of the term. -/
def InvertedIndex.Postings (ord : RangeOrder (String × Posting)) (idx : InvertedIndex)
    (term : String) : List Posting :=
  match idx.postings.get? term with
  | none => []
  | some entry => (ord.pick entry).foldl (fun results e => results ++ [e.2]) []

/-- The value `len(idx.postings[term])`. -/
def InvertedIndex.DocumentFrequency (idx : InvertedIndex) (term : String) : Int :=
  match idx.postings.get? term with
  | none => 0
  | some entry => entry.len

/-- DocumentCount returns the number of indexed documents. -/
def InvertedIndex.DocumentCount (idx : InvertedIndex) : Int := idx.documents.len

/-- One call of `AddDocument`: the document and the order in which the
runtime ranged over its term counts. -/
structure AddCall where
  order : RangeOrder (String × Int)
  doc : Document

/-- The index after a sequence of `AddDocument` calls on an empty index. -/
def runAdds (calls : List AddCall) : InvertedIndex :=
  calls.foldl (fun idx c => AddDocument c.order idx c.doc) NewInvertedIndex

/-- The last document added with the given id, if any. -/
def lastAdded (calls : List AddCall) (id : String) : Option Document :=
  (calls.reverse.find? (fun c => decide (c.doc.ID = id))).map AddCall.doc

/-! ## Auxiliary definitions: the index -/

/-- The loop body of `countTerms`. -/
abbrev countStep (termCounts : GoMap Int) (token : String) : GoMap Int :=
  termCounts.set token ((termCounts.get? token).getD 0 + 1)

/-- The posting stored for a term and a document id, if any:
`postings[term][id]`. -/
def lookup2 (ps : GoMap (GoMap Posting)) (term id : String) : Option Posting :=
  (ps.get? term).bind (fun postingList => postingList.get? id)

/-- Well-formedness of the postings map: distinct terms, and under each term a
non-empty posting list with distinct ids whose postings carry their own id. -/
def PostingsWF (ps : GoMap (GoMap Posting)) : Prop :=
  ps.keys.Nodup ∧ ∀ t pl, ps.get? t = some pl →
    pl ≠ [] ∧ pl.keys.Nodup ∧ ∀ e ∈ pl, e.2.DocID = e.1

/-! ## Reachable states -/

/-- The document as `AddDocument` stores it: with its token cache filled in. -/
def storedForm (doc : Document) : Document := { doc with Tokens := indexedTokens doc }

/-- What a reachable state holds, in terms of the last document added under
each id. -/
structure Reflects (calls : List AddCall) (idx : InvertedIndex) : Prop where
  docs : ∀ d, idx.documents.get? d = (lastAdded calls d).map storedForm
  lens : ∀ d, idx.docLengths.get? d =
    (lastAdded calls d).map (fun doc => ((indexedTokens doc).length : Int))
  termsSome : ∀ d, (idx.docTerms.get? d).isSome = (lastAdded calls d).isSome
  terms : ∀ d ts doc, idx.docTerms.get? d = some ts → lastAdded calls d = some doc →
    ts.Nodup ∧ ∀ t, t ∈ ts ↔ t ∈ indexedTokens doc
  posts : ∀ t d, lookup2 idx.postings t d =
    (lastAdded calls d).bind (fun doc =>
      if t ∈ indexedTokens doc then
        some { DocID := d, TF := ((indexedTokens doc).count t : Int) }
      else none)
  wf : PostingsWF idx.postings
  nodupDocs : idx.documents.keys.Nodup
  nodupLens : idx.docLengths.keys.Nodup
  nodupTerms : idx.docTerms.keys.Nodup
  total : idx.totalTokens = idx.docLengths.values.sum

/-- Two index states hold the same data: the same documents, the same
postings with the same term frequencies under the same terms, the same
document lengths, the same total, and for every id the same set of terms. -/
structure StateEquiv (a b : InvertedIndex) : Prop where
  documents : ∀ d, a.documents.get? d = b.documents.get? d
  postings : ∀ t d, lookup2 a.postings t d = lookup2 b.postings t d
  postingKeys : ∀ t, t ∈ a.postings.keys ↔ t ∈ b.postings.keys
  docLengths : ∀ d, a.docLengths.get? d = b.docLengths.get? d
  totalTokens : a.totalTokens = b.totalTokens
  docTermKeys : ∀ d, d ∈ a.docTerms.keys ↔ d ∈ b.docTerms.keys
  docTerms : ∀ d t, t ∈ (a.docTerms.get? d).getD [] ↔ t ∈ (b.docTerms.get? d).getD []

/-! ## Auxiliary definitions: the tokenizer -/

/-- The character class `[a-z0-9]`. -/
def isLowerAlnum (c : Char) : Bool :=
  (decide ('a' ≤ c) && decide (c ≤ 'z')) || (decide ('0' ≤ c) && decide (c ≤ '9'))

/-- The spec's "maximal substring of ASCII alphanumeric characters": `text`
splits as `pre ++ run ++ post`, where `run` is a non-empty stretch of
characters of `[A-Za-z0-9]` that can be extended neither to the left (`pre`
is empty or ends in another character) nor to the right (`post` is empty or
starts with another character). -/
def IsMaximalRun (text pre run post : List Char) : Prop :=
  text = pre ++ run ++ post ∧ run ≠ [] ∧ (∀ c ∈ run, isTokenChar c = true) ∧
    (∀ c, pre.getLast? = some c → isTokenChar c = false) ∧
    (∀ c, post.head? = some c → isTokenChar c = false)

/-- The scan of `findAllFrom`, keeping with every match the text before and
after it.  `pre` is the text already passed. -/
def occsFrom : List Char → List Char → List Char → List (List Char × List Char × List Char)
  | pre, cur, [] => if cur.isEmpty then [] else [(pre, cur, [])]
  | pre, cur, c :: cs =>
    if isTokenChar c then occsFrom pre (cur ++ [c]) cs
    else if cur.isEmpty then occsFrom (pre ++ [c]) [] cs
    else (pre, cur, c :: cs) :: occsFrom (pre ++ cur ++ [c]) [] cs

/-- The scan state is sound: the match in progress holds token characters
only, and the text passed before it does not end in one. -/
def ScanInv (pre cur : List Char) : Prop :=
  (∀ c ∈ cur, isTokenChar c = true) ∧ (∀ c, pre.getLast? = some c → isTokenChar c = false)

/-! ## service.go -/

section

variable {F : Type} [LinearOrderedField F]

/-- AverageDocumentLength returns the average token length across indexed documents. -/
def InvertedIndex.AverageDocumentLength (F : Type) [LinearOrderedField F]
    (idx : InvertedIndex) : F :=
  if idx.docLengths.len = 0 then 0
  else (idx.totalTokens : F) / (idx.docLengths.len : F)

/-- The bytes of a Go string. -/
def utf8Bytes (s : String) : List UInt8 := s.data.flatMap String.utf8EncodeChar

/-- The call `strings.Index(s, substr)`: the byte offset of the first
occurrence of `substr` in `s`, or -1. -/
def stringsIndex : List UInt8 → List UInt8 → Int
  | [], substr => if substr.isEmpty then 0 else -1
  | b :: rest, substr =>
    if substr.isPrefixOf (b :: rest) then 0
    else
      let r := stringsIndex rest substr
      if r < 0 then -1 else r + 1

/-- The slice expression `content[start:end]`; `none` is the run-time panic
"slice bounds out of range". -/
def sliceBytes (content : List UInt8) (start end_ : Int) : Option (List UInt8) :=
  if 0 ≤ start ∧ start ≤ end_ ∧ end_ ≤ (content.length : Int) then
    some ((content.drop start.toNat).take (end_ - start).toNat)
  else none

/-- The loop over the query tokens in `buildSnippet`, with the fall-through
after it. -/
def snippetLoop (content lower : List UInt8) : List String → Option (List UInt8)
  | [] => if (content.length : Int) > 80 then sliceBytes content 0 80 else some content
  | token :: rest =>
    let pos := stringsIndex lower (utf8Bytes token)
    if pos ≥ 0 then
      let start := if pos - 40 < 0 then 0 else pos - 40
      let end_ := if pos + 40 > (content.length : Int) then (content.length : Int) else pos + 40
      sliceBytes content start end_
    else snippetLoop content lower rest

/-- The function `buildSnippet`.  `toLower` is `strings.ToLower` on arbitrary
text, whose case tables belong to the Go library.  The result is a byte
string; `none` is a run-time panic. -/
def buildSnippet (toLower : String → String) (content : String) (tokens : List String) :
    Option (List UInt8) :=
  if (utf8Bytes content).length = 0 then some []
  else snippetLoop (utf8Bytes content) (utf8Bytes (toLower content)) tokens

/-- Result represents a ranked document for a query. -/
structure Result (F : Type) where
  DocID : String
  Score : F
  Title : String
  Snippet : List UInt8
  URL : String
deriving DecidableEq

/-- A semantic retrieval candidate (`semantic.Result`). -/
structure Candidate (F : Type) where
  DocID : String
  Score : F
deriving DecidableEq

/-- Service executes ranked search queries against the inverted index.  The
semantic index is seen through its `Query` method: the field `Semantic` holds
the answers `Query` gives during one run of `Search`, which calls it once.
The answers of the modelled `Query` under a given runtime are put into the
field by `Service.during`. -/
structure Service (F : Type) where
  Index : Option InvertedIndex
  Semantic : Option (String → Int → List (Candidate F))
  K1 : F
  B : F
  LexicalWeight : F
  SemanticWeight : F

/-- What `Search` takes from the Go runtime and library: the natural
logarithm `math.Log`, `strings.ToLower`, and the order of each `range` over a
map. -/
structure SearchEnv (F : Type) where
  ln : F → F
  toLower : String → String
  postingsOrder : RangeOrder (String × Posting)
  lexicalOrder : RangeOrder (String × F)
  semanticOrder : RangeOrder (String × F)
  combinedOrder : RangeOrder (String × F)

/-- The statement `m[k] += v` on a `map[string]float64`. -/
def GoMap.addTo (m : GoMap F) (k : String) (v : F) : GoMap F :=
  m.set k ((m.get? k).getD 0 + v)

/-- The inner loop of the lexical pass: one posting of one query term. -/
def scorePosting (s : Service F) (idx : InvertedIndex) (avgDocLen idf : F)
    (lexicalScores : GoMap F) (posting : Posting) : GoMap F :=
  match idx.Document posting.DocID with
  | none => lexicalScores
  | some doc =>
    let docLen : F := if ((doc.Tokens.length : Int) : F) = 0 then avgDocLen
      else ((doc.Tokens.length : Int) : F)
    let numerator := (posting.TF : F) * (s.K1 + 1)
    let denominator := (posting.TF : F) + s.K1 * (1 - s.B + s.B * (docLen / avgDocLen))
    let score := idf * (numerator / denominator)
    lexicalScores.addTo posting.DocID score

/-- The inverse document frequency of a term, clamped at 0. -/
def termIdf (ln : F → F) (docCount df : F) : F :=
  let idf := ln ((docCount - df + 0.5) / (df + 0.5))
  if idf < 0 then 0 else idf

/-- The outer loop of the lexical pass: one query term. -/
def scoreTerm (env : SearchEnv F) (s : Service F) (idx : InvertedIndex) (docCount avgDocLen : F)
    (lexicalScores : GoMap F) (term : String) : GoMap F :=
  let postings := idx.Postings env.postingsOrder term
  if postings.length = 0 then lexicalScores
  else
    let df : F := (idx.DocumentFrequency term : F)
    if df = 0 then lexicalScores
    else postings.foldl (scorePosting s idx avgDocLen (termIdf env.ln docCount df)) lexicalScores

/-- The loop that materializes the results; `none` is a panic in `buildSnippet`. -/
def materialize (env : SearchEnv F) (idx : InvertedIndex) (tokens : List String) :
    List (String × F) → Option (List (Result F))
  | [] => some []
  | (docID, score) :: rest =>
    match idx.Document docID with
    | none => materialize env idx tokens rest
    | some doc =>
      match buildSnippet env.toLower doc.Content tokens with
      | none => none
      | some snippet =>
        (materialize env idx tokens rest).map (fun results =>
          { DocID := docID, Score := score, Title := doc.Title, URL := doc.URL,
            Snippet := snippet } :: results)

/-- The comparison passed to `sort.Slice`: higher score first, ties by
ascending document id. -/
def resultLess (a b : Result F) : Bool :=
  if a.Score = b.Score then decide (a.DocID < b.DocID) else decide (a.Score > b.Score)

/-- Insertion of one element into a sorted slice, before the first element
that is not less than it. -/
def insertSorted {α : Type} (less : α → α → Bool) (x : α) : List α → List α
  | [] => [x]
  | y :: ys => if less y x then y :: insertSorted less x ys else x :: y :: ys

/-- The call `sort.Slice(results, less)`, as an insertion sort.  The library
sort is not stable, which plays no part here: no two results share a document
id, so `less` never leaves two of them unordered. -/
def sortSlice {α : Type} (less : α → α → Bool) (l : List α) : List α :=
  l.foldr (insertSorted less) []

/-- Search tokenizes the query, scores documents, and returns the topK results.
`none` is a run-time panic. -/
def Service.Search (env : SearchEnv F) (s : Service F) (query : String) (topK : Int) :
    Option (List (Result F)) :=
  match s.Index with
  | none => some []
  | some idx =>
    let tokens := Tokenize query
    if tokens.length = 0 then some []
    else
      let docCount : F := (idx.DocumentCount : F)
      let avgDocLen : F :=
        if InvertedIndex.AverageDocumentLength F idx = 0 then 1
        else InvertedIndex.AverageDocumentLength F idx
      let lexicalScores : GoMap F := tokens.foldl (scoreTerm env s idx docCount avgDocLen) []
      let semanticScores : GoMap F :=
        match s.Semantic with
        | none => []
        | some semanticQuery =>
          let semanticLimit := if topK < 10 then 10 else topK
          (semanticQuery query semanticLimit).foldl
            (fun scores candidate => scores.set candidate.DocID candidate.Score) []
      let combined : GoMap F := (env.lexicalOrder.pick lexicalScores).foldl
        (fun combined e => combined.addTo e.1 (s.LexicalWeight * e.2)) []
      let combined : GoMap F := (env.semanticOrder.pick semanticScores).foldl
        (fun combined e => combined.addTo e.1 (s.SemanticWeight * e.2)) combined
      match materialize env idx tokens (env.combinedOrder.pick combined) with
      | none => none
      | some results =>
        let results := sortSlice resultLess results
        if topK > 0 ∧ (results.length : Int) > topK then some (results.take topK.toNat)
        else some results

/-- NewService creates a search Service with BM25 defaults. -/
def NewService (idx : Option InvertedIndex)
    (semanticIdx : Option (String → Int → List (Candidate F))) : Service F :=
  { Index := idx, Semantic := semanticIdx, K1 := 1.5, B := 0.75, LexicalWeight := 1.0,
    SemanticWeight := 0.65 }

end

/-! ## Sample data -/

/-- A runtime for trying `Search` out: a stand-in for the logarithm, ASCII
lowercasing, stored orders. -/
def demoEnv : SearchEnv ℚ :=
  { ln := fun x => x - 1, toLower := fun s => String.mk (s.data.map Char.toLower),
    postingsOrder := RangeOrder.stored _, lexicalOrder := RangeOrder.stored _,
    semanticOrder := RangeOrder.backwards _, combinedOrder := RangeOrder.backwards _ }

/-- Three documents added in turn, the first one twice. -/
def demoCalls : List AddCall :=
  [⟨RangeOrder.stored _, ⟨"b", "u1", "T1", "Vector search uses vector math", [], 0⟩⟩,
    ⟨RangeOrder.backwards _, ⟨"a", "u2", "T2", "Circuit breakers", [], 0⟩⟩,
    ⟨RangeOrder.stored _, ⟨"c", "u3", "T3", "search engines", [], 0⟩⟩,
    ⟨RangeOrder.backwards _, ⟨"b", "u1", "T1", "Vector search uses vector maths", [], 0⟩⟩]

/-- The index after `demoCalls`. -/
def demoIndex : InvertedIndex := runAdds demoCalls

/-! ## The scoring formula as the specification words it -/

section

variable {F : Type} [LinearOrderedField F]

/-- Spec: `avg_len = AverageDocumentLength()`, treated as 1 when it is 0. -/
def specAvgLen (idx : InvertedIndex) : F :=
  if InvertedIndex.AverageDocumentLength F idx = 0 then 1
  else InvertedIndex.AverageDocumentLength F idx

/-- Spec: `L_d = len(tokens)` of the stored document, falling back to
`avg_len` when the document has no cached tokens. -/
def specDocLen (idx : InvertedIndex) (d : String) : F :=
  match idx.Document d with
  | some doc =>
    if ((doc.Tokens.length : Int) : F) = 0 then specAvgLen idx
    else ((doc.Tokens.length : Int) : F)
  | none => specAvgLen idx

/-- Spec: `idf = max(0, ln((N − df + 0.5) / (df + 0.5)))`. -/
def specIdf (ln : F → F) (idx : InvertedIndex) (t : String) : F :=
  max 0 (ln (((idx.DocumentCount : F) - (idx.DocumentFrequency t : F) + 0.5) /
    ((idx.DocumentFrequency t : F) + 0.5)))

/-- Spec: the BM25 term `idf · (tf · (k1 + 1)) / (tf + k1 · (1 − b + b · L_d / avg_len))`. -/
def specTermScore (ln : F → F) (s : Service F) (idx : InvertedIndex) (t d : String) (tf : F) :
    F :=
  specIdf ln idx t * (tf * (s.K1 + 1)) /
    (tf + s.K1 * (1 - s.B + s.B * specDocLen idx d / specAvgLen idx))

/-- Spec: `lexical[d]`, the sum of the BM25 terms over the query tokens, taken
with repetition, whose postings contain `d`. -/
def specLexical (ln : F → F) (s : Service F) (idx : InvertedIndex) (tokens : List String)
    (d : String) : F :=
  (tokens.filterMap (fun t =>
    (lookup2 idx.postings t d).map (fun p => specTermScore ln s idx t d (p.TF : F)))).sum

/-- Spec: `semantic[d]`, the score the semantic index reported for `d` when
asked for `max(top_k, 10)` candidates (the last one, should it report `d`
twice), and 0 when the index is absent or did not report `d`. -/
def specSemantic (s : Service F) (query : String) (topK : Int) (d : String) : F :=
  match s.Semantic with
  | none => 0
  | some semanticQuery =>
    match (semanticQuery query (max topK 10)).reverse.find? (fun c => decide (c.DocID = d)) with
    | some c => c.Score
    | none => 0

end

/-! ## Auxiliary definitions: the passes of `Search` -/

section

variable {F : Type} [LinearOrderedField F]

/-- The score `scorePosting` adds for a posting of a stored document. -/
def postingScore (s : Service F) (avgDocLen idf : F) (posting : Posting) (doc : Document) : F :=
  let docLen : F := if ((doc.Tokens.length : Int) : F) = 0 then avgDocLen
    else ((doc.Tokens.length : Int) : F)
  idf * ((posting.TF : F) * (s.K1 + 1) /
    ((posting.TF : F) + s.K1 * (1 - s.B + s.B * (docLen / avgDocLen))))

/-- What one posting adds to `lexicalScores`, if its document is stored. -/
def postingContrib (s : Service F) (idx : InvertedIndex) (avgDocLen idf : F) (p : Posting) :
    Option (String × F) :=
  (idx.Document p.DocID).map (fun doc => (p.DocID, postingScore s avgDocLen idf p doc))

/-- What one query term adds to `lexicalScores`, in order. -/
def termContribs (env : SearchEnv F) (s : Service F) (idx : InvertedIndex)
    (docCount avgDocLen : F) (term : String) : List (String × F) :=
  if (idx.Postings env.postingsOrder term).length = 0 then []
  else if (idx.DocumentFrequency term : F) = 0 then []
  else (idx.Postings env.postingsOrder term).filterMap
    (postingContrib s idx avgDocLen (termIdf env.ln docCount (idx.DocumentFrequency term : F)))

/-- The map `lexicalScores` of `Search`. -/
def lexicalScoresOf (env : SearchEnv F) (s : Service F) (idx : InvertedIndex)
    (query : String) : GoMap F :=
  (Tokenize query).foldl (scoreTerm env s idx (idx.DocumentCount : F) (specAvgLen idx)) []

/-- The map `semanticScores` of `Search`. -/
def semanticScoresOf (s : Service F) (query : String) (topK : Int) : GoMap F :=
  match s.Semantic with
  | none => []
  | some semanticQuery =>
    (semanticQuery query (if topK < 10 then 10 else topK)).foldl
      (fun scores candidate => scores.set candidate.DocID candidate.Score) []

/-- The map `combined` of `Search`. -/
def combinedOf (env : SearchEnv F) (s : Service F) (idx : InvertedIndex) (query : String)
    (topK : Int) : GoMap F :=
  (env.semanticOrder.pick (semanticScoresOf s query topK)).foldl
    (fun combined e => combined.addTo e.1 (s.SemanticWeight * e.2))
    ((env.lexicalOrder.pick (lexicalScoresOf env s idx query)).foldl
      (fun combined e => combined.addTo e.1 (s.LexicalWeight * e.2)) [])

end

/-- A service over `demoIndex` with the default weights and no semantic index. -/
def demoService : Service ℚ := NewService (some demoIndex) none

/-- A service over `demoIndex` whose semantic index reports two candidates. -/
def demoHybrid : Service ℚ :=
  NewService (some demoIndex) (some (fun _ _ => [⟨"a", 1 / 2⟩, ⟨"zz", 1⟩]))

/-- The best result of both demo services for the query "vector search". -/
def demoTop : Result ℚ :=
  { DocID := "b", Score := 40 / 51, Title := "T1", URL := "u1",
    Snippet := utf8Bytes "Vector search uses vector maths" }

/-- The second result of `demoService` for the query "vector search". -/
def demoSecond : Result ℚ :=
  { DocID := "c", Score := 0, Title := "T3", URL := "u3",
    Snippet := utf8Bytes "search engines" }

/-! ## semantic/index.go -/

namespace Semantic

section

variable {F : Type} [LinearOrderedField F]

/-- Vector represents an embedding vector. -/
abbrev Vector (F : Type) := List F

/-- dot returns the dot product of two vectors, over their common length. -/
def dot (a b : Vector F) : F :=
  (List.zipWith (fun x y => x * y) a b).foldl (fun sum p => sum + p) 0

/-- The function `magnitude`; `sqrt` is `math.Sqrt`. -/
def magnitude (sqrt : F → F) (a : Vector F) : F :=
  sqrt (a.foldl (fun sum v => sum + v * v) 0)

/-- cosineSimilarity returns cosine similarity between vectors. -/
def cosineSimilarity (sqrt : F → F) (a b : Vector F) : F :=
  let mag := magnitude sqrt a * magnitude sqrt b
  if mag = 0 then 0 else dot a b / mag

/-- The function `hashToken`: the 32-bit FNV-1a hash of the bytes of the token. -/
def hashToken (token : String) : Nat :=
  (utf8Bytes token).foldl (fun h b => (Nat.xor h b.toNat * 16777619) % 2 ^ 32) 2166136261

/-- HashingEmbedder creates embeddings using a hashing trick for fixed-size vectors. -/
structure HashingEmbedder where
  dimension : Int
deriving DecidableEq, Repr

/-- One round of the loop of `EmbedTokens`; `none` is a run-time panic (the
modulus `uint32(h.dimension)` is 0, or the index is out of range). -/
def embedToken (h : HashingEmbedder) (vec : Option (Vector F)) (token : String) :
    Option (Vector F) :=
  match vec with
  | none => none
  | some vec =>
    if h.dimension % 2 ^ 32 = 0 then none
    else
      let i := hashToken token % (h.dimension % 2 ^ 32).toNat
      if i < vec.length then some (vec.set i (vec.getD i 0 + 1)) else none

/-- EmbedTokens converts tokens into a hashed bag-of-words vector; `none` is a
run-time panic (`make` with a negative length, or a panic of the loop). -/
def HashingEmbedder.EmbedTokens (h : HashingEmbedder) (tokens : List String) :
    Option (Vector F) :=
  if h.dimension < 0 then none
  else tokens.foldl (embedToken h) (some (List.replicate h.dimension.toNat 0))

/-- EmbedText tokenizes the text using the index tokenizer and embeds it. -/
def HashingEmbedder.EmbedText (h : HashingEmbedder) (text : String) : Option (Vector F) :=
  h.EmbedTokens (Tokenize text)

/-- Index builds an approximate nearest neighbor lookup using random hyperplanes. -/
structure Index (F : Type) where
  embedder : HashingEmbedder
  hyperplanes : List (Vector F)
  buckets : GoMap (GoMap Unit)
  vectors : GoMap (Vector F)
deriving DecidableEq

/-- The index `NewIndex` returns, for the dimension it settled on and the
hyperplanes it drew. -/
def Index.fresh (dimension : Int) (hyperplanes : List (Vector F)) : Index F :=
  { embedder := { dimension := dimension }, hyperplanes := hyperplanes, buckets := [],
    vectors := [] }

/-- signature computes the random projection signature for ANN bucketing. -/
def Index.signature (i : Index F) (vec : Vector F) : String :=
  String.mk (i.hyperplanes.foldl
    (fun sb plane => if dot vec plane ≥ 0 then sb ++ ['1'] else sb ++ ['0']) [])

/-- AddDocument indexes the document into semantic storage; `none` is a
run-time panic of the embedder. -/
def Index.AddDocument (i : Index F) (doc : Document) : Option (Index F) :=
  match (i.embedder.EmbedText doc.Content : Option (Vector F)) with
  | none => none
  | some vec =>
    if vec.length = 0 then some i
    else
      let sig := i.signature vec
      let bucket := match i.buckets.get? sig with
        | some bucket => bucket
        | none => []
      some { i with
        vectors := i.vectors.set doc.ID vec
        buckets := i.buckets.set sig (bucket.set doc.ID ()) }

/-- What `Query` takes from the Go runtime and library: `math.Sqrt` and the
order of its two `range` loops over maps. -/
structure QueryEnv (F : Type) where
  sqrt : F → F
  bucketOrder : RangeOrder (String × Unit)
  vectorOrder : RangeOrder (String × Vector F)

/-- The value of an integer expression as a Go `int` of 64 bits: arithmetic
wraps around, `5 * 3689348814741910324` is 4. -/
def wrapInt (x : Int) : Int := (x + 2 ^ 63) % 2 ^ 64 - 2 ^ 63

/-- The fallback scan of `Query` over `i.vectors`, which stops once the
number of candidates reaches `5*topK`, a product of two `int`s. -/
def scanVectors (topK : Int) : List String → List (String × Vector F) → List String
  | candidates, [] => candidates
  | candidates, (docID, _) :: rest =>
    let candidates := candidates ++ [docID]
    if (candidates.length : Int) ≥ wrapInt (5 * topK) ∧ topK > 0 then candidates
    else scanVectors topK candidates rest

/-- The loop of `Query` that drops repeated candidates, keeping the first
occurrence. -/
def uniqueLoop : GoMap Unit → List String → List String → List String
  | _, unique, [] => unique
  | seen, unique, id :: rest =>
    match seen.get? id with
    | some _ => uniqueLoop seen unique rest
    | none => uniqueLoop (seen.set id ()) (unique ++ [id]) rest

/-- The part of `Query` under the read lock, after the guard on the query
vector: gather the candidates, drop repetitions, score them. -/
def Index.scoreCandidates (env : QueryEnv F) (i : Index F) (vec : Vector F) (topK : Int) :
    List (Candidate F) :=
  let sig := i.signature vec
  let candidates : List String :=
    (env.bucketOrder.pick ((i.buckets.get? sig).getD [])).foldl
      (fun candidates e => candidates ++ [e.1]) []
  let candidates :=
    if (candidates.length : Int) < topK then
      scanVectors topK candidates (env.vectorOrder.pick i.vectors)
    else candidates
  let unique := uniqueLoop [] [] candidates
  unique.foldl (fun scores id =>
    match i.vectors.get? id with
    | none => scores
    | some vecDoc => scores ++ [{ DocID := id, Score := cosineSimilarity env.sqrt vec vecDoc }])
    []

/-- The comparison `Query` passes to `sort.Slice`: higher score first, ties by
ascending document id. -/
def candidateLess (a b : Candidate F) : Bool :=
  if a.Score = b.Score then decide (a.DocID < b.DocID) else decide (a.Score > b.Score)

/-- Query returns approximate nearest neighbors for the provided query text;
`none` is a run-time panic of the embedder. -/
def Index.Query (env : QueryEnv F) (i : Index F) (query : String) (topK : Int) :
    Option (List (Candidate F)) :=
  match (i.embedder.EmbedText query : Option (Vector F)) with
  | none => none
  | some vec =>
    if vec.length = 0 then some []
    else
      let scores := sortSlice candidateLess (i.scoreCandidates env vec topK)
      if topK > 0 ∧ (scores.length : Int) > topK then some (scores.take topK.toNat)
      else some scores

/-- The index after a sequence of `AddDocument` calls; `none` once a call
panicked. -/
def Index.addAll (i : Index F) (docs : List Document) : Option (Index F) :=
  docs.foldl (fun idx doc => idx.bind (fun idx => idx.AddDocument doc)) (some i)

/-- The `Query` method as `Service` holds it.  A panic of `Query` is a panic
of `Search`; it cannot happen for a dimension between 1 and 2^32 - 1. -/
def Index.queryMethod (env : QueryEnv F) (i : Index F) : String → Int → List (Candidate F) :=
  fun query topK => (i.Query env query topK).getD []

end

end Semantic

/-! ## Sample data for `buildSnippet` -/

/-- The behaviour of `strings.ToLower` on text made of ASCII characters and
of U+023A, whose lower case U+2C65 takes three bytes instead of two. -/
def sampleLower (s : String) : String :=
  String.mk (s.data.map (fun c => if c = 'Ⱥ' then 'ⱥ' else c.toLower))

/-- The Go string `strings.Repeat("Ⱥ", 44) + "abc"`: 91 bytes, and 135 bytes
in lower case. -/
def longContent : String := String.mk (List.replicate 44 'Ⱥ' ++ ['a', 'b', 'c'])

/-- An index that holds one document, with content `longContent`. -/
def longIndex : InvertedIndex :=
  runAdds [⟨RangeOrder.stored _, ⟨"p", "u", "T", longContent, [], 0⟩⟩]

/-- The runtime `demoEnv` with `sampleLower` for `strings.ToLower`. -/
def sampleEnv : SearchEnv ℚ := { demoEnv with toLower := sampleLower }

/-! ## Auxiliary definitions: the results of `Search` -/

section

variable {F : Type} [LinearOrderedField F]

/-- The result `materialize` builds for one entry of `combined`, if its
document is stored and `buildSnippet` does not panic. -/
def resultOf (toLower : String → String) (idx : InvertedIndex) (tokens : List String)
    (e : String × F) : Option (Result F) :=
  (idx.Document e.1).bind (fun doc =>
    (buildSnippet toLower doc.Content tokens).map (fun snippet =>
      { DocID := e.1, Score := e.2, Title := doc.Title, URL := doc.URL, Snippet := snippet }))

end

/-! ## Sample data for the semantic index -/

/-- A stand-in for `math.Sqrt`, exact on 0, 1 and 4. -/
def sampleSqrt (x : ℚ) : ℚ := if x = 4 then 2 else x

/-- A runtime for trying `Query` out. -/
def sampleQueryEnv : Semantic.QueryEnv ℚ :=
  { sqrt := sampleSqrt, bucketOrder := RangeOrder.backwards _,
    vectorOrder := RangeOrder.stored _ }

/-- An empty semantic index of dimension 2 with the one hyperplane (1, -1).
The token "a" hashes to coordinate 0 and the token "b" to coordinate 1. -/
def planeIndex : Semantic.Index ℚ := Semantic.Index.fresh 2 [[1, -1]]

/-- The document "d" with content "a". -/
def docDa : Document := ⟨"d", "", "", "a", [], 0⟩

/-- The document "d" again, now with content "b". -/
def docDb : Document := ⟨"d", "", "", "b", [], 0⟩

/-- The document "e" with content "a a b". -/
def docE : Document := ⟨"e", "", "", "a a b", [], 0⟩

/-- The state of `planeIndex` after adding `docDa`, `docDb` and `docE`. -/
def planeIndexFilled : Semantic.Index ℚ :=
  { embedder := { dimension := 2 }, hyperplanes := [[1, -1]],
    buckets := [("1", [("d", ()), ("e", ())]), ("0", [("d", ())])],
    vectors := [("d", [0, 1]), ("e", [2, 1])] }

/-- Eleven documents: "d01" to "d10" with content "w", and "x" with content
"w r". -/
def rankDocs : List Document :=
  (["d01", "d02", "d03", "d04", "d05", "d06", "d07", "d08", "d09", "d10"].map
    (fun id => (⟨id, "", "", "w", [], 0⟩ : Document))) ++ [⟨"x", "", "", "w r", [], 0⟩]

/-- The inverted index after adding `rankDocs`. -/
def rankIndex : InvertedIndex :=
  runAdds (rankDocs.map (fun doc => ⟨RangeOrder.stored _, doc⟩))

/-- The semantic index of dimension 1 with the hyperplane (1) after adding
`rankDocs`: every vector is a multiple of (1), all ids share the bucket "1". -/
def rankSemantic : Semantic.Index ℚ :=
  ((Semantic.Index.fresh 1 [[1]]).addAll rankDocs).getD (Semantic.Index.fresh 1 [[1]])

/-- A service over `rankIndex` and `rankSemantic` with the weights of
`TestSemanticBoostsNonLexicalDocument`. -/
def rankService : Service ℚ :=
  { NewService (some rankIndex) (some (rankSemantic.queryMethod sampleQueryEnv)) with
    LexicalWeight := 0.2, SemanticWeight := 1.0 }

/-- A result for one of `rankDocs`. -/
def rankResult (id content : String) (score : ℚ) : Result ℚ :=
  { DocID := id, Score := score, Title := "", URL := "", Snippet := utf8Bytes content }

/-- The results of `rankService` for "w r" and `top_k = 10`. -/
def rankTop10 : List (Result ℚ) :=
  ["d01", "d02", "d03", "d04", "d05", "d06", "d07", "d08", "d09", "d10"].map
    (fun id => rankResult id "w" 1)

/-- The results of `rankService` for "w r" and `top_k = 11`. -/
def rankTop11 : List (Result ℚ) := rankResult "x" "w r" (103 / 55) :: rankTop10

/-! ## Auxiliary definitions: the semantic index -/

section

variable {F : Type} [LinearOrderedField F]

/-- A candidate as a result without document data, to compare candidates with
the comparison of `Search`. -/
def candidateResult (c : Candidate F) : Result F :=
  { DocID := c.DocID, Score := c.Score, Title := "", URL := "", Snippet := [] }

/-- The score `Query` gives a candidate id, if it has a stored vector. -/
def scoredCandidate (sqrt : F → F) (i : Semantic.Index F) (vec : Semantic.Vector F)
    (id : String) : Option (Candidate F) :=
  (i.vectors.get? id).map (fun vecDoc =>
    { DocID := id, Score := Semantic.cosineSimilarity sqrt vec vecDoc })

/-- The document id is in the bucket of the signature: `buckets[sig][id]` is set. -/
def inBucket (i : Semantic.Index F) (sig id : String) : Prop :=
  ∃ bucket, i.buckets.get? sig = some bucket ∧ id ∈ bucket.keys

end

/-- The runtime `demoEnv` with every `range` in another order. -/
def demoEnvReordered : SearchEnv ℚ :=
  { demoEnv with
    postingsOrder := RangeOrder.backwards _, lexicalOrder := RangeOrder.backwards _,
    semanticOrder := RangeOrder.stored _, combinedOrder := RangeOrder.stored _ }

/-! ## index.go: `Documents`; snapshot.go -/

/-- Documents returns all documents sorted by ID for deterministic ordering.
`ord` is the order in which the runtime ranges over `idx.documents`; the ids
are sorted by `sort.Strings`, that is by `<` on strings; an entry `none` of
the result is a nil pointer. -/
def InvertedIndex.Documents (ord : RangeOrder (String × GoogleSearch.Document))
    (idx : InvertedIndex) : List (Option GoogleSearch.Document) :=
  let ids := (ord.pick idx.documents).foldl (fun ids e => ids ++ [e.1]) []
  let ids := sortSlice (fun a b => decide (a < b)) ids
  ids.foldl (fun result id => result ++ [idx.documents.get? id]) []

/-- SnapshotDocument is a lightweight representation persisted to disk. -/
structure SnapshotDocument where
  ID : String
  URL : String
  Title : String
  Tokens : List String
  Content : String
deriving DecidableEq, Repr

/-- Snapshot contains a serializable view of the inverted index. -/
structure Snapshot where
  Documents : List SnapshotDocument
deriving DecidableEq, Repr

/-- The loop of `WriteSnapshot` over `idx.Documents()`: the snapshot value
handed to the JSON encoder.  `none` is a run-time panic (a nil document).
The file system and the encoder are not part of the model. -/
def WriteSnapshot (ord : RangeOrder (String × Document)) (idx : InvertedIndex) :
    Option Snapshot :=
  (idx.Documents ord).foldl (fun snapshot doc =>
    match snapshot, doc with
    | some snapshot, some doc =>
      some { Documents := snapshot.Documents ++
        [{ ID := doc.ID, URL := doc.URL, Title := doc.Title, Tokens := doc.Tokens,
           Content := doc.Content }] }
    | _, _ => none) (some { Documents := [] })

/-- The loop of `LoadSnapshot` over the decoded snapshot: the documents it
returns, with the zero `FetchedAt`. -/
def LoadSnapshot (snapshot : Snapshot) : List Document :=
  snapshot.Documents.foldl (fun docsOut entry =>
    docsOut ++ [{ ID := entry.ID, URL := entry.URL, Title := entry.Title,
                  Tokens := entry.Tokens, Content := entry.Content, FetchedAt := 0 }]) []

/-- The `FetchedAt` field does not reach the snapshot: the document as it
comes back from `LoadSnapshot`. -/
def reloadedForm (doc : Document) : Document := { doc with FetchedAt := 0 }

/-! ## semantic/index.go: `NewIndex` -/

namespace Semantic

section

variable {F : Type} [LinearOrderedField F]

/-- Options controls semantic index construction. -/
structure Options where
  Dimension : Int
  HyperplaneCount : Int
  Seed : Int
deriving DecidableEq, Repr

/-- The first lines of `NewIndex`: zero options are replaced by the defaults;
`now` is `time.Now().UnixNano()`. -/
def Options.withDefaults (now : Int) (opts : Options) : Options :=
  let opts := if opts.Dimension = 0 then { opts with Dimension := 128 } else opts
  let opts := if opts.HyperplaneCount = 0 then { opts with HyperplaneCount := 24 } else opts
  if opts.Seed = 0 then { opts with Seed := now } else opts

/-- One round of the loop `for i := range hyperplanes` of `NewIndex`;
`normFloat64 seed n` is the `n`-th value of `rng.NormFloat64()` for a
generator seeded with `seed`, and `none` is a run-time panic (`make` with a
negative length). -/
def drawPlane (normFloat64 : Int → Nat → F) (opts : Options)
    (hyperplanes : Option (List (Vector F))) (i : Nat) : Option (List (Vector F)) :=
  match hyperplanes with
  | none => none
  | some hyperplanes =>
    if opts.Dimension < 0 then none
    else
      let plane := (List.range opts.Dimension.toNat).map
        (fun j => normFloat64 opts.Seed (i * opts.Dimension.toNat + j))
      some (hyperplanes ++ [plane])

/-- NewIndex constructs a semantic index using hashing embeddings and random
projections; `none` is a run-time panic (`make` with a negative length). -/
def NewIndex (now : Int) (normFloat64 : Int → Nat → F) (opts : Options) : Option (Index F) :=
  let opts := opts.withDefaults now
  let embedder : HashingEmbedder := { dimension := opts.Dimension }
  if opts.HyperplaneCount < 0 then none
  else
    match (List.range opts.HyperplaneCount.toNat).foldl (drawPlane normFloat64 opts)
        (some []) with
    | none => none
    | some hyperplanes =>
      some { embedder := embedder, hyperplanes := hyperplanes, buckets := [], vectors := [] }

end

end Semantic

/-- The last document passed to the semantic `AddDocument` with the given id,
if any. -/
def lastDoc (docs : List Document) (id : String) : Option Document :=
  docs.reverse.find? (fun doc => decide (doc.ID = id))

/-- What a state of the semantic index holds after the calls `AddDocument` of
`docs` on the index `i₀`: the embedder and hyperplanes of `i₀`, under each id
the vector of the last document added with it, each id with a vector in the
bucket of the signature of that vector, and in the buckets only ids with a
vector. -/
structure SemReflects {F : Type} [LinearOrderedField F] (docs : List Document)
    (i₀ i : Semantic.Index F) : Prop where
  embedder : i.embedder = i₀.embedder
  hyperplanes : i.hyperplanes = i₀.hyperplanes
  vectors : ∀ d, i.vectors.get? d =
    (lastDoc docs d).bind (fun doc => i₀.embedder.EmbedText doc.Content)
  buckets : ∀ d vec, i.vectors.get? d = some vec → inBucket i (i.signature vec) d
  bucketIds : ∀ sig bucket d, i.buckets.get? sig = some bucket → d ∈ bucket.keys →
    d ∈ i.vectors.keys
  nodupVectors : i.vectors.keys.Nodup
  nodupBucket : ∀ sig bucket, i.buckets.get? sig = some bucket → bucket.keys.Nodup

/-- The bag-of-words vector as the specification words it: coordinate `i` is
the number of tokens, counted with repetition, whose hash modulo `D` is `i`. -/
def specEmbedTokens {F : Type} [LinearOrderedField F] (D : Nat) (tokens : List String) :
    Semantic.Vector F :=
  (List.range D).map (fun i =>
    ((tokens.countP (fun t => decide (Semantic.hashToken t % D = i)) : Nat) : F))

/-- A stand-in for the random source of `NewIndex`: 1 at the even draws and
-1 at the odd ones, for every seed. -/
def sampleNormFloat64 (_seed : Int) (n : Nat) : ℚ := if n % 2 = 0 then 1 else -1

/-! ## crawler/parser.go -/

/-- The call `strings.HasPrefix(s, prefix)`, on the bytes of the strings. -/
def stringsHasPrefix (s pre : List UInt8) : Bool := pre.isPrefixOf s

/-- The call `strings.LastIndex(s, substr)`: the byte offset of the last
occurrence of `substr` in `s`, or -1. -/
def stringsLastIndex : List UInt8 → List UInt8 → Int
  | [], substr => if substr.isEmpty then 0 else -1
  | b :: rest, substr =>
    let r := stringsLastIndex rest substr
    if r ≥ 0 then r + 1
    else if substr.isPrefixOf (b :: rest) then 0 else -1

/-- The call `strings.TrimRight(s, cutset)` for a cutset of the one byte `c`. -/
def stringsTrimRight (s : List UInt8) (c : UInt8) : List UInt8 :=
  (s.reverse.dropWhile (fun b => b == c)).reverse

/-- The call `strings.TrimLeft(s, cutset)` for a cutset of the one byte `c`. -/
def stringsTrimLeft (s : List UInt8) (c : UInt8) : List UInt8 :=
  s.dropWhile (fun b => b == c)

/-- The function `joinPath`, on the bytes of the strings; `none` is a
run-time panic of the slice expression `base[:index+1]`. -/
def joinPath (base link : List UInt8) : Option (List UInt8) :=
  if base = [] then some link
  else if stringsHasPrefix base (utf8Bytes "file://") then
    let index := stringsLastIndex base (utf8Bytes "/")
    if index = -1 then some (base ++ utf8Bytes "/" ++ link)
    else (sliceBytes base 0 (index + 1)).map (fun head => head ++ link)
  else some (stringsTrimRight base 47 ++ utf8Bytes "/" ++ stringsTrimLeft link 47)

/-- The function `resolveLink`, on the bytes of the strings. -/
def resolveLink (base href : List UInt8) : Option (List UInt8) :=
  if stringsHasPrefix href (utf8Bytes "http://") || stringsHasPrefix href (utf8Bytes "https://")
      || stringsHasPrefix href (utf8Bytes "file://") then some href
  else joinPath base href

/-- The two documents of `TestSemanticIndexQueryReturnsNearestDocument`. -/
def nearestDocs : List Document :=
  [⟨"1", "", "", "Vector embeddings enable semantic search.", [], 0⟩,
    ⟨"2", "", "", "Caching strategies reduce tail latency.", [], 0⟩]

/-- The coordinates of the bag-of-words vector as natural numbers. -/
def countEmbedding (D : Nat) (tokens : List String) : List Nat :=
  (List.range D).map (fun i => tokens.countP (fun t => decide (Semantic.hashToken t % D = i)))

/-! ## The comparison of Go strings -/

/-- The comparison `a < b` of Go strings: lexicographic on their bytes. -/
def bytesLess (a b : String) : Prop :=
  List.Lex (fun x y : UInt8 => x < y) (utf8Bytes a) (utf8Bytes b)

/-- The values of the bytes of the UTF-8 encoding of the code point `n`. -/
def utf8Values (n : Nat) : List Nat :=
  if n ≤ 127 then [n]
  else if n ≤ 2047 then [192 + n / 64, 128 + n % 64]
  else if n ≤ 65535 then [224 + n / 4096, 128 + n / 64 % 64, 128 + n % 64]
  else [240 + n / 262144, 128 + n / 4096 % 64, 128 + n / 64 % 64, 128 + n % 64]

/-! ## Auxiliary definitions: the fallback scan of `Query` -/

section

variable {F : Type} [LinearOrderedField F]

/-- The bucket `Query` reads for a query vector: `i.buckets[sig]`, empty when
there is none. -/
def queryBucket (i : Semantic.Index F) (vec : Semantic.Vector F) : GoMap Unit :=
  (i.buckets.get? (i.signature vec)).getD []

/-- The ids at the head of the scan order over `i.vectors` that bring a
candidate list which starts with the ids of the bucket to `5*topK` entries. -/
def scannedIds (env : Semantic.QueryEnv F) (i : Semantic.Index F) (vec : Semantic.Vector F)
    (topK : Int) : List String :=
  ((env.vectorOrder.pick i.vectors).take (5 * topK - (queryBucket i vec).len).toNat).map Prod.fst

end

/-- Ten documents: "d0" with content "b", and "x1" to "x9" with content "a". -/
def scanDocs : List Document :=
  (⟨"d0", "", "", "b", [], 0⟩ : Document) ::
    (["x1", "x2", "x3", "x4", "x5", "x6", "x7", "x8", "x9"].map
      (fun id => (⟨id, "", "", "a", [], 0⟩ : Document)))

/-- The state of `planeIndex` after adding `scanDocs`: "d0" is alone in the
bucket "0", the other nine ids share the bucket "1". -/
def scanIndex : Semantic.Index ℚ := (planeIndex.addAll scanDocs).getD planeIndex

/-- The service as one run of `Search` sees it.  `Search` calls the `Query`
method of the semantic index once.  `Query` ranges over Go maps, so its answer
depends on the orders the runtime picks while it runs, and two runs of
`Search` over the same semantic index may receive different answers: each run
is a `Service` value of its own, which holds the answers `Query` gives under
the runtime `qenv` of that run. -/
def Service.during {F : Type} [LinearOrderedField F] (s : Service F)
    (sem : Option (Semantic.Index F)) (qenv : Semantic.QueryEnv F) : Service F :=
  { s with Semantic := sem.map (fun i => i.queryMethod qenv) }

/-- The runtime `sampleQueryEnv` with both `range` loops in the other order. -/
def sampleQueryEnvReordered : Semantic.QueryEnv ℚ :=
  { sampleQueryEnv with
    bucketOrder := RangeOrder.stored _, vectorOrder := RangeOrder.backwards _ }

/-- Fifty documents "x00" to "x49" with content "a", then the document "z"
with content "a a a a b b b". -/
def fanDocs : List Document :=
  (["0", "1", "2", "3", "4"].flatMap (fun a =>
    ["0", "1", "2", "3", "4", "5", "6", "7", "8", "9"].map
      (fun b => (⟨"x" ++ a ++ b, "", "", "a", [], 0⟩ : Document)))) ++
    [⟨"z", "", "", "a a a a b b b", [], 0⟩]

/-- The inverted index after adding `fanDocs`. -/
def fanIndex : InvertedIndex :=
  runAdds (fanDocs.map (fun doc => ⟨RangeOrder.stored _, doc⟩))

/-- The semantic index `planeIndex` after adding `fanDocs`: the vectors (1, 0)
of "x00" to "x49" and (4, 3) of "z", all in the bucket "1"; the query "b" has
the vector (0, 1) and the signature "0", whose bucket does not exist. -/
def fanSemantic : Semantic.Index ℚ := (planeIndex.addAll fanDocs).getD planeIndex

/-- A stand-in for `math.Sqrt`, exact on 0, 1 and 25. -/
def fanSqrt (x : ℚ) : ℚ := if x = 25 then 5 else x

/-- A runtime for `Query` that scans the vectors in the order they were stored. -/
def fanQueryEnv : Semantic.QueryEnv ℚ :=
  { sqrt := fanSqrt, bucketOrder := RangeOrder.stored _, vectorOrder := RangeOrder.stored _ }

/-- A runtime for `Query` that scans the vectors in the opposite order. -/
def fanQueryEnvBackwards : Semantic.QueryEnv ℚ :=
  { fanQueryEnv with vectorOrder := RangeOrder.backwards _ }

/-- A service over `fanIndex` with the default weights. -/
def fanService : Service ℚ := NewService (some fanIndex) none

/-! ## Facts about Go maps -/

namespace GoMap

variable {V : Type}

theorem get?_set_self (m : GoMap V) (k : String) (v : V) : (m.set k v).get? k = some v := by
  induction m with
  | nil => simp [set, get?]
  | cons e rest ih =>
    obtain ⟨k', v'⟩ := e
    by_cases h : k' = k <;> simp [set, get?, h, ih]

theorem get?_set_of_ne (m : GoMap V) {k k' : String} (v : V) (h : k' ≠ k) :
    (m.set k v).get? k' = m.get? k' := by
  induction m with
  | nil => simp [set, get?, Ne.symm h]
  | cons e rest ih =>
    obtain ⟨k₀, v₀⟩ := e
    by_cases h₀ : k₀ = k
    · subst h₀
      simp [set, get?, Ne.symm h]
    · by_cases h₁ : k₀ = k'
      · subst h₁
        simp [set, get?, h₀]
      · simp [set, get?, h₀, h₁, ih]

theorem get?_set (m : GoMap V) (k k' : String) (v : V) :
    (m.set k v).get? k' = if k' = k then some v else m.get? k' := by
  by_cases h : k' = k
  · subst h
    simp [get?_set_self]
  · simp [h, get?_set_of_ne m v h]

theorem get?_delete_self (m : GoMap V) (k : String) : (m.delete k).get? k = none := by
  induction m with
  | nil => simp [delete, get?]
  | cons e rest ih =>
    obtain ⟨k', v'⟩ := e
    by_cases h : k' = k
    · simpa [delete, h] using ih
    · simpa [delete, List.filter_cons, h, get?] using ih

theorem get?_delete_of_ne (m : GoMap V) {k k' : String} (h : k' ≠ k) :
    (m.delete k).get? k' = m.get? k' := by
  induction m with
  | nil => simp [delete, get?]
  | cons e rest ih =>
    obtain ⟨k₀, v₀⟩ := e
    by_cases h₀ : k₀ = k
    · subst h₀
      simpa [delete, get?, Ne.symm h] using ih
    · by_cases h₁ : k₀ = k'
      · subst h₁
        simp [delete, List.filter_cons, get?, h₀]
      · simpa [delete, List.filter_cons, get?, h₀, h₁] using ih

theorem get?_delete (m : GoMap V) (k k' : String) :
    (m.delete k).get? k' = if k' = k then none else m.get? k' := by
  by_cases h : k' = k
  · subst h
    simp [get?_delete_self]
  · simp [h, get?_delete_of_ne m h]

theorem get?_eq_none_iff (m : GoMap V) (k : String) : m.get? k = none ↔ k ∉ m.keys := by
  induction m with
  | nil => simp [get?, keys]
  | cons e rest ih =>
    obtain ⟨k', v'⟩ := e
    by_cases h : k' = k
    · simp [get?, keys, h]
    · simpa [get?, keys, h, Ne.symm h] using ih

theorem isSome_get?_iff (m : GoMap V) (k : String) : (m.get? k).isSome ↔ k ∈ m.keys := by
  rw [← not_iff_not, ← get?_eq_none_iff]
  cases m.get? k <;> simp

theorem mem_of_get? {m : GoMap V} {k : String} {v : V} (h : m.get? k = some v) : (k, v) ∈ m := by
  induction m with
  | nil => simp [get?] at h
  | cons e rest ih =>
    obtain ⟨k', v'⟩ := e
    by_cases h' : k' = k
    · simp [get?, h'] at h
      simp [h, h']
    · simp [get?, h'] at h
      exact List.mem_cons_of_mem _ (ih h)

theorem get?_of_mem {m : GoMap V} (hm : m.keys.Nodup) {k : String} {v : V} (h : (k, v) ∈ m) :
    m.get? k = some v := by
  induction m with
  | nil => simp at h
  | cons e rest ih =>
    obtain ⟨k', v'⟩ := e
    simp only [keys, List.map_cons, List.nodup_cons] at hm
    rcases List.mem_cons.1 h with h | h
    · simp only [Prod.mk.injEq] at h
      simp [get?, h.1, h.2]
    · have hk : k' ≠ k := by
        rintro rfl
        exact hm.1 (List.mem_map.2 ⟨(k', v), h, rfl⟩)
      simpa [get?, hk] using ih hm.2 h

theorem keys_set (m : GoMap V) (k : String) (v : V) :
    (m.set k v).keys = if k ∈ m.keys then m.keys else m.keys ++ [k] := by
  induction m with
  | nil => simp [set, keys]
  | cons e rest ih =>
    obtain ⟨k', v'⟩ := e
    by_cases h : k' = k
    · simp [set, keys, h]
    · simp only [keys] at ih
      by_cases h' : k ∈ List.map Prod.fst rest <;>
        simp [set, keys, h, Ne.symm h, ih, h']

theorem mem_keys_set (m : GoMap V) (k k' : String) (v : V) :
    k' ∈ (m.set k v).keys ↔ k' = k ∨ k' ∈ m.keys := by
  rw [← isSome_get?_iff, ← isSome_get?_iff, get?_set]
  by_cases h : k' = k <;> simp [h]

theorem nodup_keys_set {m : GoMap V} (hm : m.keys.Nodup) (k : String) (v : V) :
    (m.set k v).keys.Nodup := by
  rw [keys_set]
  by_cases h : k ∈ m.keys
  · simpa [h] using hm
  · simp only [h, if_false]
    exact List.Nodup.append hm (List.nodup_singleton k) (by simpa using h)

theorem nodup_keys_delete {m : GoMap V} (hm : m.keys.Nodup) (k : String) :
    (m.delete k).keys.Nodup := by
  unfold keys delete
  exact (List.Nodup.sublist (List.Sublist.map _ (List.filter_sublist _)) hm)

theorem mem_keys_delete (m : GoMap V) (k k' : String) :
    k' ∈ (m.delete k).keys ↔ k' ≠ k ∧ k' ∈ m.keys := by
  rw [← isSome_get?_iff, ← isSome_get?_iff, get?_delete]
  by_cases h : k' = k <;> simp [h]

theorem eq_nil_iff (m : GoMap V) : m = [] ↔ ∀ k, m.get? k = none := by
  cases m with
  | nil => simp [get?]
  | cons e rest =>
    simp only [reduceCtorEq, false_iff, not_forall]
    exact ⟨e.1, by simp [get?]⟩

theorem len_eq_zero_iff (m : GoMap V) : m.len = 0 ↔ m = [] := by
  simp [len]

theorem mem_set {m : GoMap V} {k : String} {v : V} {e : String × V} (h : e ∈ m.set k v) :
    e = (k, v) ∨ e ∈ m := by
  induction m with
  | nil => simpa [set] using h
  | cons e' rest ih =>
    obtain ⟨k', v'⟩ := e'
    by_cases h' : k' = k
    · simp only [set, h', if_true, List.mem_cons] at h
      rcases h with h | h
      · exact Or.inl h
      · exact Or.inr (List.mem_cons_of_mem _ h)
    · simp only [set, h', if_false, List.mem_cons] at h
      rcases h with h | h
      · exact Or.inr (by simp [h])
      · rcases ih h with h | h
        · exact Or.inl h
        · exact Or.inr (List.mem_cons_of_mem _ h)

theorem mem_delete {m : GoMap V} {k : String} {e : String × V} (h : e ∈ m.delete k) : e ∈ m :=
  List.mem_of_mem_filter h

theorem sum_values_set (m : GoMap Int) (k : String) (v : Int) :
    (m.set k v).values.sum = m.values.sum - (m.get? k).getD 0 + v := by
  induction m with
  | nil => simp [set, values, get?]
  | cons e rest ih =>
    obtain ⟨k', v'⟩ := e
    by_cases h : k' = k
    · simp [set, values, get?, h]
      ring
    · simp only [values] at ih
      simp [set, values, get?, h, ih]
      ring

/-- Two maps with distinct keys and the same lookups hold the same entries. -/
theorem perm_of_get?_eq {m₁ m₂ : GoMap V} (h₁ : m₁.keys.Nodup) (h₂ : m₂.keys.Nodup)
    (h : ∀ k, m₁.get? k = m₂.get? k) : m₁.Perm m₂ := by
  classical
  have n₁ : m₁.Nodup := List.Nodup.of_map _ h₁
  have n₂ : m₂.Nodup := List.Nodup.of_map _ h₂
  refine (List.perm_ext_iff_of_nodup n₁ n₂).2 ?_
  rintro ⟨k, v⟩
  constructor
  · intro hm
    exact mem_of_get? ((h k) ▸ get?_of_mem h₁ hm)
  · intro hm
    exact mem_of_get? ((h k).symm ▸ get?_of_mem h₂ hm)

theorem get?_perm {m₁ m₂ : GoMap V} (h₁ : m₁.keys.Nodup) (hp : m₁.Perm m₂) (k : String) :
    m₁.get? k = m₂.get? k := by
  have h₂ : m₂.keys.Nodup := (List.Perm.nodup_iff (hp.map Prod.fst)).1 h₁
  cases h : m₂.get? k with
  | none =>
    rw [get?_eq_none_iff] at h ⊢
    intro hmem
    exact h ((hp.map Prod.fst).mem_iff.1 hmem)
  | some v => exact get?_of_mem h₁ (hp.mem_iff.2 (mem_of_get? h))

end GoMap

/-! ## Facts about `countTerms` and the two loops of `AddDocument` -/

theorem countFold_get? (ts : List String) (m : GoMap Int) (t : String) :
    (ts.foldl countStep m).get? t =
      if t ∈ ts then some ((m.get? t).getD 0 + (ts.count t : Int)) else m.get? t := by
  induction ts generalizing m with
  | nil => simp
  | cons a r ih =>
    rw [List.foldl_cons, ih, GoMap.get?_set]
    by_cases hta : t = a
    · subst hta
      by_cases hr : t ∈ r
      · simp [hr]
        ring
      · simp [hr, List.count_eq_zero_of_not_mem hr]
    · have hat : ¬ a = t := fun h => hta h.symm
      by_cases hr : t ∈ r
      · simp [hta, hr, List.count_cons, hat]
      · simp [hta, hr]

theorem countFold_nodup (ts : List String) (m : GoMap Int) (hm : m.keys.Nodup) :
    (ts.foldl countStep m).keys.Nodup := by
  induction ts generalizing m with
  | nil => simpa using hm
  | cons a r ih => exact ih _ (GoMap.nodup_keys_set hm _ _)

theorem countFold_sum (ts : List String) (m : GoMap Int) :
    (ts.foldl countStep m).values.sum = m.values.sum + (ts.length : Int) := by
  induction ts generalizing m with
  | nil => simp
  | cons a r ih =>
    rw [List.foldl_cons, ih, GoMap.sum_values_set]
    simp only [List.length_cons, Nat.cast_add, Nat.cast_one]
    ring

theorem countTerms_get? (tokens : List String) (t : String) :
    (countTerms tokens).get? t = if t ∈ tokens then some (tokens.count t : Int) else none := by
  have h := countFold_get? tokens [] t
  simpa [countTerms, countStep, GoMap.get?] using h

theorem countTerms_nodup (tokens : List String) : (countTerms tokens).keys.Nodup :=
  countFold_nodup tokens [] (by simp [GoMap.keys])

theorem countTerms_sum (tokens : List String) :
    (countTerms tokens).values.sum = (tokens.length : Int) := by
  have h := countFold_sum tokens []
  simpa [countTerms, countStep, GoMap.values] using h

theorem mem_keys_countTerms (tokens : List String) (t : String) :
    t ∈ (countTerms tokens).keys ↔ t ∈ tokens := by
  rw [← GoMap.isSome_get?_iff, countTerms_get?]
  by_cases h : t ∈ tokens <;> simp [h]

theorem retractTerm_lookup2 (id : String) (ps : GoMap (GoMap Posting)) (term t d : String) :
    lookup2 (retractTerm id ps term) t d =
      if t = term ∧ d = id then none else lookup2 ps t d := by
  unfold retractTerm lookup2
  cases hps : ps.get? term with
  | none =>
    by_cases h : t = term ∧ d = id
    · simp [h, hps]
    · simp [h]
  | some pl =>
    by_cases hlen : (pl.delete id).len = 0
    · have hnil := (GoMap.eq_nil_iff _).1 ((GoMap.len_eq_zero_iff _).1 hlen)
      simp only [hlen, if_true, GoMap.get?_delete]
      by_cases ht : t = term
      · subst ht
        by_cases hd : d = id
        · simp [hd]
        · have := hnil d
          rw [GoMap.get?_delete_of_ne _ hd] at this
          simp [hd, hps, this]
      · simp [ht]
    · simp only [hlen, if_false, GoMap.get?_set]
      by_cases ht : t = term
      · subst ht
        by_cases hd : d = id
        · simp [hd, GoMap.get?_delete_self]
        · simp [hd, hps, GoMap.get?_delete_of_ne _ hd]
      · simp [ht]

theorem retractFold_lookup2 (id : String) (terms : List String) (ps : GoMap (GoMap Posting))
    (t d : String) :
    lookup2 (terms.foldl (retractTerm id) ps) t d =
      if t ∈ terms ∧ d = id then none else lookup2 ps t d := by
  induction terms generalizing ps with
  | nil => simp
  | cons a r ih =>
    rw [List.foldl_cons, ih, retractTerm_lookup2]
    by_cases hd : d = id
    · by_cases hr : t ∈ r
      · simp [hr, hd]
      · by_cases ha : t = a <;> simp [hr, hd, ha]
    · simp [hd]

theorem retractTerm_wf (id : String) (ps : GoMap (GoMap Posting)) (term : String)
    (h : PostingsWF ps) : PostingsWF (retractTerm id ps term) := by
  unfold retractTerm
  cases hps : ps.get? term with
  | none => simpa using h
  | some pl =>
    obtain ⟨hne, hnd, hid⟩ := h.2 term pl hps
    by_cases hlen : (pl.delete id).len = 0
    · simp only [hlen, if_true]
      refine ⟨GoMap.nodup_keys_delete h.1 _, ?_⟩
      intro t q hq
      rw [GoMap.get?_delete] at hq
      by_cases ht : t = term
      · simp [ht] at hq
      · simp only [ht, if_false] at hq
        exact h.2 t q hq
    · simp only [hlen, if_false]
      refine ⟨GoMap.nodup_keys_set h.1 _ _, ?_⟩
      intro t q hq
      rw [GoMap.get?_set] at hq
      by_cases ht : t = term
      · simp only [ht, if_true, Option.some.injEq] at hq
        subst hq
        refine ⟨?_, GoMap.nodup_keys_delete hnd _, fun e he => hid e (GoMap.mem_delete he)⟩
        intro hnil
        exact hlen ((GoMap.len_eq_zero_iff _).2 hnil)
      · simp only [ht, if_false] at hq
        exact h.2 t q hq

theorem retractFold_wf (id : String) (terms : List String) (ps : GoMap (GoMap Posting))
    (h : PostingsWF ps) : PostingsWF (terms.foldl (retractTerm id) ps) := by
  induction terms generalizing ps with
  | nil => simpa using h
  | cons a r ih => exact ih _ (retractTerm_wf id ps a h)

theorem insertTerm_lookup2 (id : String) (acc : InsertAcc) (e : String × Int) (t d : String) :
    lookup2 (insertTerm id acc e).postings t d =
      if t = e.1 ∧ d = id then some { DocID := id, TF := e.2 } else lookup2 acc.postings t d := by
  unfold insertTerm lookup2
  simp only [GoMap.get?_set]
  by_cases ht : t = e.1
  · subst ht
    by_cases hd : d = id
    · simp [hd, GoMap.get?_set_self]
    · cases hps : acc.postings.get? e.1 with
      | none => simp [hd, GoMap.get?_set_of_ne _ _ hd, GoMap.get?, GoMap.set, Ne.symm hd]
      | some pl => simp [hd, GoMap.get?_set_of_ne _ _ hd]
  · simp [ht]

theorem insertTerm_wf (id : String) (acc : InsertAcc) (e : String × Int)
    (h : PostingsWF acc.postings) : PostingsWF (insertTerm id acc e).postings := by
  unfold insertTerm
  refine ⟨GoMap.nodup_keys_set h.1 _ _, ?_⟩
  intro t q hq
  simp only [GoMap.get?_set] at hq
  by_cases ht : t = e.1
  · simp only [ht, if_true, Option.some.injEq] at hq
    subst hq
    have hbase : (match acc.postings.get? e.1 with
        | some postingList => postingList
        | none => ([] : GoMap Posting)).keys.Nodup ∧
        ∀ x ∈ (match acc.postings.get? e.1 with
        | some postingList => postingList
        | none => ([] : GoMap Posting)), x.2.DocID = x.1 := by
      cases hps : acc.postings.get? e.1 with
      | none => simp [GoMap.keys]
      | some pl => exact (h.2 e.1 pl hps).2
    refine ⟨?_, GoMap.nodup_keys_set hbase.1 _ _, ?_⟩
    · intro hnil
      have := GoMap.get?_set_self (match acc.postings.get? e.1 with
        | some postingList => postingList
        | none => ([] : GoMap Posting)) id { DocID := id, TF := e.2 }
      rw [hnil] at this
      simp [GoMap.get?] at this
    · intro x hx
      rcases GoMap.mem_set hx with hx | hx
      · simp [hx]
      · exact hbase.2 x hx
  · simp only [ht, if_false] at hq
    exact h.2 t q hq

theorem insertFold_wf (id : String) (l : List (String × Int)) (acc : InsertAcc)
    (h : PostingsWF acc.postings) : PostingsWF (l.foldl (insertTerm id) acc).postings := by
  induction l generalizing acc with
  | nil => simpa using h
  | cons a r ih => exact ih _ (insertTerm_wf id acc a h)

theorem insertFold_totalTerms (id : String) (l : List (String × Int)) (acc : InsertAcc) :
    (l.foldl (insertTerm id) acc).totalTerms = acc.totalTerms + (l.map Prod.snd).sum := by
  induction l generalizing acc with
  | nil => simp
  | cons a r ih =>
    rw [List.foldl_cons, ih]
    simp [insertTerm]
    ring

theorem insertFold_termsOrdered (id : String) (l : List (String × Int)) (acc : InsertAcc) :
    (l.foldl (insertTerm id) acc).termsOrdered = acc.termsOrdered ++ l.map Prod.fst := by
  induction l generalizing acc with
  | nil => simp
  | cons a r ih =>
    rw [List.foldl_cons, ih]
    simp [insertTerm]

theorem insertFold_lookup2 (id : String) (l : GoMap Int) (hl : l.keys.Nodup) (acc : InsertAcc)
    (t d : String) :
    lookup2 (l.foldl (insertTerm id) acc).postings t d =
      if d = id then
        match l.get? t with
        | some c => some { DocID := id, TF := c }
        | none => lookup2 acc.postings t d
      else lookup2 acc.postings t d := by
  induction l generalizing acc with
  | nil => simp [GoMap.get?]
  | cons a r ih =>
    obtain ⟨k, c⟩ := a
    simp only [GoMap.keys, List.map_cons, List.nodup_cons] at hl
    rw [List.foldl_cons, ih hl.2, insertTerm_lookup2]
    by_cases hd : d = id
    · by_cases hk : k = t
      · subst hk
        have : GoMap.get? r k = none := (GoMap.get?_eq_none_iff _ _).2 hl.1
        simp [hd, GoMap.get?, this]
      · have hk' : ¬ t = k := fun h => hk h.symm
        simp [hd, GoMap.get?, hk, hk']
    · simp [hd]

/-! ## One `AddDocument` call -/

theorem AddDocument_documents (ord : RangeOrder (String × Int)) (idx : InvertedIndex)
    (doc : Document) :
    (AddDocument ord idx doc).documents =
      idx.documents.set doc.ID { doc with Tokens := indexedTokens doc } := rfl

theorem AddDocument_docLengths (ord : RangeOrder (String × Int)) (idx : InvertedIndex)
    (doc : Document) :
    (AddDocument ord idx doc).docLengths =
      idx.docLengths.set doc.ID ((indexedTokens doc).length : Int) := rfl

theorem AddDocument_docTerms (ord : RangeOrder (String × Int)) (idx : InvertedIndex)
    (doc : Document) :
    (AddDocument ord idx doc).docTerms =
      idx.docTerms.set doc.ID ((ord.pick (countTerms (indexedTokens doc))).map Prod.fst) := by
  simp [AddDocument, insertFold_termsOrdered]

theorem AddDocument_totalTokens (ord : RangeOrder (String × Int)) (idx : InvertedIndex)
    (doc : Document) :
    (AddDocument ord idx doc).totalTokens =
      (match idx.docTerms.get? doc.ID with
        | some _ =>
          match idx.docLengths.get? doc.ID with
          | some length => idx.totalTokens - length
          | none => idx.totalTokens
        | none => idx.totalTokens) + ((indexedTokens doc).length : Int) := by
  have hsum : ((ord.pick (countTerms (indexedTokens doc))).map Prod.snd).sum =
      ((indexedTokens doc).length : Int) := by
    rw [((ord.perm _).map Prod.snd).sum_eq]
    exact countTerms_sum _
  simp only [AddDocument, insertFold_totalTerms, hsum, zero_add]
  cases idx.docTerms.get? doc.ID <;> rfl

theorem AddDocument_postings_wf (ord : RangeOrder (String × Int)) (idx : InvertedIndex)
    (doc : Document) (h : PostingsWF idx.postings) :
    PostingsWF (AddDocument ord idx doc).postings := by
  simp only [AddDocument]
  apply insertFold_wf
  cases idx.docTerms.get? doc.ID with
  | none => exact h
  | some terms => exact retractFold_wf _ _ _ h

theorem pick_countTerms_get? (ord : RangeOrder (String × Int)) (tokens : List String)
    (t : String) :
    GoMap.get? (ord.pick (countTerms tokens)) t =
      if t ∈ tokens then some (tokens.count t : Int) else none := by
  have hnd : GoMap.keys (ord.pick (countTerms tokens)) |>.Nodup :=
    (List.Perm.nodup_iff ((ord.perm _).map Prod.fst)).2 (countTerms_nodup tokens)
  rw [GoMap.get?_perm hnd (ord.perm _), countTerms_get?]

theorem pick_countTerms_nodup (ord : RangeOrder (String × Int)) (tokens : List String) :
    (GoMap.keys (ord.pick (countTerms tokens))).Nodup :=
  (List.Perm.nodup_iff ((ord.perm _).map Prod.fst)).2 (countTerms_nodup tokens)

/-- The postings after one call: the postings of `doc.ID` are exactly those of
the new token sequence, and every other posting is untouched.  It needs every
posting of `doc.ID` in the old state to be listed in `docTerms[doc.ID]`. -/
theorem AddDocument_lookup2 (ord : RangeOrder (String × Int)) (idx : InvertedIndex)
    (doc : Document)
    (h : ∀ t p, lookup2 idx.postings t doc.ID = some p →
      ∃ terms, idx.docTerms.get? doc.ID = some terms ∧ t ∈ terms)
    (t d : String) :
    lookup2 (AddDocument ord idx doc).postings t d =
      if d = doc.ID then
        if t ∈ indexedTokens doc then
          some { DocID := doc.ID, TF := ((indexedTokens doc).count t : Int) }
        else none
      else lookup2 idx.postings t d := by
  simp only [AddDocument]
  rw [insertFold_lookup2 _ _ (pick_countTerms_nodup ord _), pick_countTerms_get?]
  by_cases hd : d = doc.ID
  · subst hd
    by_cases ht : t ∈ indexedTokens doc
    · simp [ht]
    · simp only [ht, if_false, if_true]
      cases hterms : idx.docTerms.get? doc.ID with
      | none =>
        cases hl : lookup2 idx.postings t doc.ID with
        | none => rfl
        | some p =>
          obtain ⟨terms, h1, _⟩ := h t p hl
          rw [hterms] at h1
          exact absurd h1 (by simp)
      | some terms =>
        simp only [retractFold_lookup2]
        by_cases hmem : t ∈ terms
        · simp [hmem]
        · cases hl : lookup2 idx.postings t doc.ID with
          | none => simp [hmem]
          | some p =>
            obtain ⟨terms', h1, h2⟩ := h t p hl
            rw [hterms] at h1
            simp only [Option.some.injEq] at h1
            subst h1
            exact absurd h2 hmem
  · simp only [hd, if_false]
    cases hterms : idx.docTerms.get? doc.ID with
    | none => rfl
    | some terms => simp [retractFold_lookup2, hd]

theorem lastAdded_nil (d : String) : lastAdded [] d = none := rfl

theorem lastAdded_append (calls : List AddCall) (c : AddCall) (d : String) :
    lastAdded (calls ++ [c]) d = if c.doc.ID = d then some c.doc else lastAdded calls d := by
  unfold lastAdded
  rw [List.reverse_append]
  by_cases h : c.doc.ID = d <;> simp [List.find?_cons, h]

theorem runAdds_append (calls : List AddCall) (c : AddCall) :
    runAdds (calls ++ [c]) = AddDocument c.order (runAdds calls) c.doc := by
  simp [runAdds, List.foldl_append]

theorem lastAdded_isSome (calls : List AddCall) (d : String) :
    (lastAdded calls d).isSome ↔ d ∈ calls.map (fun c => c.doc.ID) := by
  induction calls using List.reverseRecOn with
  | nil => simp [lastAdded_nil]
  | append_singleton calls c ih =>
    rw [lastAdded_append]
    by_cases h : c.doc.ID = d
    · simp [h]
    · simp [h, ih, Ne.symm h]

theorem lastAdded_ID {calls : List AddCall} {d : String} {doc : Document}
    (h : lastAdded calls d = some doc) : doc.ID = d := by
  unfold lastAdded at h
  simp only [Option.map_eq_some'] at h
  obtain ⟨c, hc, rfl⟩ := h
  simpa using List.find?_some hc

theorem reflects_new : Reflects [] NewInvertedIndex where
  docs := fun d => by simp [NewInvertedIndex, GoMap.get?, lastAdded_nil]
  lens := fun d => by simp [NewInvertedIndex, GoMap.get?, lastAdded_nil]
  termsSome := fun d => by simp [NewInvertedIndex, GoMap.get?, lastAdded_nil]
  terms := fun d ts doc h => by simp [NewInvertedIndex, GoMap.get?] at h
  posts := fun t d => by simp [NewInvertedIndex, GoMap.get?, lastAdded_nil, lookup2]
  wf := ⟨by simp [NewInvertedIndex, GoMap.keys], fun t pl h => by
    simp [NewInvertedIndex, GoMap.get?] at h⟩
  nodupDocs := by simp [NewInvertedIndex, GoMap.keys]
  nodupLens := by simp [NewInvertedIndex, GoMap.keys]
  nodupTerms := by simp [NewInvertedIndex, GoMap.keys]
  total := by simp [NewInvertedIndex, GoMap.values]

theorem reflects_add {calls : List AddCall} {idx : InvertedIndex} (h : Reflects calls idx)
    (c : AddCall) : Reflects (calls ++ [c]) (AddDocument c.order idx c.doc) := by
  have hcover : ∀ t p, lookup2 idx.postings t c.doc.ID = some p →
      ∃ terms, idx.docTerms.get? c.doc.ID = some terms ∧ t ∈ terms := by
    intro t p hp
    rw [h.posts] at hp
    cases hl : lastAdded calls c.doc.ID with
    | none => simp [hl] at hp
    | some doc0 =>
      have hsome := h.termsSome c.doc.ID
      rw [hl] at hsome
      cases hts : idx.docTerms.get? c.doc.ID with
      | none => simp [hts] at hsome
      | some ts =>
        refine ⟨ts, rfl, ?_⟩
        rw [(h.terms _ ts doc0 hts hl).2]
        by_contra hmem
        simp [hl, hmem] at hp
  constructor
  · intro d
    rw [AddDocument_documents, GoMap.get?_set, lastAdded_append, h.docs]
    by_cases hd : d = c.doc.ID
    · simp [hd, storedForm]
    · simp [hd, Ne.symm hd]
  · intro d
    rw [AddDocument_docLengths, GoMap.get?_set, lastAdded_append, h.lens]
    by_cases hd : d = c.doc.ID
    · simp [hd]
    · simp [hd, Ne.symm hd]
  · intro d
    rw [AddDocument_docTerms, GoMap.get?_set, lastAdded_append]
    by_cases hd : d = c.doc.ID
    · simp [hd]
    · simp [hd, Ne.symm hd, h.termsSome]
  · intro d ts doc hts hdoc
    rw [AddDocument_docTerms, GoMap.get?_set] at hts
    rw [lastAdded_append] at hdoc
    by_cases hd : d = c.doc.ID
    · simp only [hd, if_true, Option.some.injEq] at hts hdoc
      subst hts hdoc
      refine ⟨pick_countTerms_nodup _ _, fun t => ?_⟩
      have := GoMap.isSome_get?_iff (c.order.pick (countTerms (indexedTokens c.doc))) t
      rw [pick_countTerms_get?] at this
      rw [← GoMap.keys, ← this]
      by_cases ht : t ∈ indexedTokens c.doc <;> simp [ht]
    · simp only [hd, Ne.symm hd, if_false] at hts hdoc
      exact h.terms d ts doc hts hdoc
  · intro t d
    rw [AddDocument_lookup2 _ _ _ hcover, lastAdded_append, h.posts]
    by_cases hd : d = c.doc.ID
    · simp [hd]
    · simp [hd, Ne.symm hd]
  · exact AddDocument_postings_wf _ _ _ h.wf
  · rw [AddDocument_documents]
    exact GoMap.nodup_keys_set h.nodupDocs _ _
  · rw [AddDocument_docLengths]
    exact GoMap.nodup_keys_set h.nodupLens _ _
  · rw [AddDocument_docTerms]
    exact GoMap.nodup_keys_set h.nodupTerms _ _
  · rw [AddDocument_totalTokens, AddDocument_docLengths, GoMap.sum_values_set, h.total]
    have hsome := h.termsSome c.doc.ID
    have hlen := h.lens c.doc.ID
    cases hl : lastAdded calls c.doc.ID with
    | none =>
      rw [hl] at hsome hlen
      cases hts : idx.docTerms.get? c.doc.ID with
      | some ts => simp [hts] at hsome
      | none =>
        simp only [Option.map_none'] at hlen
        simp [hlen]
    | some doc0 =>
      rw [hl] at hsome hlen
      cases hts : idx.docTerms.get? c.doc.ID with
      | none => simp [hts] at hsome
      | some ts =>
        simp only [Option.map_some'] at hlen
        simp [hlen]

theorem reflects_runAdds (calls : List AddCall) : Reflects calls (runAdds calls) := by
  induction calls using List.reverseRecOn with
  | nil => exact reflects_new
  | append_singleton calls c ih =>
    rw [runAdds_append]
    exact reflects_add ih c

/-! ## Reading the index -/

theorem foldl_append_snd {α β : Type} (l : List (α × β)) (init : List β) :
    l.foldl (fun results e => results ++ [e.2]) init = init ++ l.map Prod.snd := by
  induction l generalizing init with
  | nil => simp
  | cons a r ih => simp [ih]

theorem Postings_eq (ord : RangeOrder (String × Posting)) (idx : InvertedIndex) (term : String) :
    idx.Postings ord term =
      match idx.postings.get? term with
      | none => []
      | some entry => (ord.pick entry).map Prod.snd := by
  unfold InvertedIndex.Postings
  cases idx.postings.get? term with
  | none => rfl
  | some entry => simp [foldl_append_snd]

/-- In a posting list with distinct ids whose postings carry their own id, the
postings of one id are the one looked up under it. -/
theorem filter_docID_values (m : GoMap Posting) (hnd : m.keys.Nodup)
    (hid : ∀ e ∈ m, e.2.DocID = e.1) (d : String) :
    (m.map Prod.snd).filter (fun p => decide (p.DocID = d)) = (m.get? d).toList := by
  induction m with
  | nil => simp [GoMap.get?]
  | cons e rest ih =>
    obtain ⟨k, p⟩ := e
    simp only [GoMap.keys, List.map_cons, List.nodup_cons] at hnd
    have hp : p.DocID = k := hid (k, p) (List.mem_cons_self _ _)
    have ih' := ih hnd.2 (fun e he => hid e (List.mem_cons_of_mem _ he))
    by_cases hk : k = d
    · subst hk
      have hnone : GoMap.get? rest k = none := (GoMap.get?_eq_none_iff _ _).2 hnd.1
      rw [hnone] at ih'
      simp [List.filter_cons, hp, GoMap.get?, ih']
    · simp [List.filter_cons, hp, hk, GoMap.get?, ih']

theorem filter_Postings (ord : RangeOrder (String × Posting)) (idx : InvertedIndex)
    (h : PostingsWF idx.postings) (t d : String) :
    (idx.Postings ord t).filter (fun p => decide (p.DocID = d)) =
      (lookup2 idx.postings t d).toList := by
  rw [Postings_eq]
  unfold lookup2
  cases hps : idx.postings.get? t with
  | none => simp
  | some entry =>
    obtain ⟨_, hnd, hid⟩ := h.2 t entry hps
    have hnd' : (GoMap.keys (ord.pick entry)).Nodup :=
      (List.Perm.nodup_iff ((ord.perm _).map Prod.fst)).2 hnd
    have hid' : ∀ e ∈ ord.pick entry, e.2.DocID = e.1 :=
      fun e he => hid e ((ord.perm _).mem_iff.1 he)
    show List.filter _ (List.map Prod.snd (ord.pick entry)) = (entry.get? d).toList
    rw [filter_docID_values _ hnd' hid', GoMap.get?_perm hnd' (ord.perm _)]

theorem mem_Postings {ord : RangeOrder (String × Posting)} {idx : InvertedIndex}
    (h : PostingsWF idx.postings) {t : String} {p : Posting} (hp : p ∈ idx.Postings ord t) :
    lookup2 idx.postings t p.DocID = some p := by
  rw [Postings_eq] at hp
  unfold lookup2
  cases hps : idx.postings.get? t with
  | none => simp [hps] at hp
  | some entry =>
    obtain ⟨_, hnd, hid⟩ := h.2 t entry hps
    simp only [hps, List.mem_map] at hp
    obtain ⟨e, he, rfl⟩ := hp
    have he' : e ∈ entry := (ord.perm _).mem_iff.1 he
    have hk := hid e he'
    show entry.get? e.2.DocID = some e.2
    rw [hk]
    exact GoMap.get?_of_mem hnd he'

theorem sum_values_eq_sum_keys (m : GoMap Int) (h : m.keys.Nodup) :
    m.values.sum = ∑ d in m.keys.toFinset, (m.get? d).getD 0 := by
  rw [List.sum_toFinset _ h]
  unfold GoMap.values GoMap.keys
  rw [List.map_map]
  congr 1
  apply List.map_congr_left
  intro e he
  have := GoMap.get?_of_mem h (show (e.1, e.2) ∈ m from he)
  simp [this]

theorem mem_postingKeys_iff {idx : InvertedIndex} (h : PostingsWF idx.postings) (t : String) :
    t ∈ idx.postings.keys ↔ ∃ d p, lookup2 idx.postings t d = some p := by
  rw [← GoMap.isSome_get?_iff]
  unfold lookup2
  cases hps : idx.postings.get? t with
  | none => simp
  | some pl =>
    obtain ⟨hne, _, _⟩ := h.2 t pl hps
    simp only [Option.isSome_some, Option.bind_some, true_iff]
    cases pl with
    | nil => exact absurd rfl hne
    | cons e rest => exact ⟨e.1, e.2, by simp [GoMap.get?]⟩

theorem stateEquiv_of_reflects {calls₁ calls₂ : List AddCall} {a b : InvertedIndex}
    (ha : Reflects calls₁ a) (hb : Reflects calls₂ b)
    (h : ∀ d, lastAdded calls₁ d = lastAdded calls₂ d) : StateEquiv a b := by
  have hposts : ∀ t d, lookup2 a.postings t d = lookup2 b.postings t d := by
    intro t d
    rw [ha.posts, hb.posts, h]
  have hlens : ∀ d, a.docLengths.get? d = b.docLengths.get? d := by
    intro d
    rw [ha.lens, hb.lens, h]
  refine ⟨?_, hposts, ?_, hlens, ?_, ?_, ?_⟩
  · intro d
    rw [ha.docs, hb.docs, h]
  · intro t
    rw [mem_postingKeys_iff ha.wf, mem_postingKeys_iff hb.wf]
    simp only [hposts]
  · rw [ha.total, hb.total]
    exact ((GoMap.perm_of_get?_eq ha.nodupLens hb.nodupLens hlens).map Prod.snd).sum_eq
  · intro d
    rw [← GoMap.isSome_get?_iff, ← GoMap.isSome_get?_iff, ha.termsSome, hb.termsSome, h]
  · intro d t
    have h1 := ha.termsSome d
    have h2 := hb.termsSome d
    have ht1 := ha.terms d
    have ht2 := hb.terms d
    rw [h] at h1 ht1
    cases hl : lastAdded calls₂ d with
    | none =>
      rw [hl] at h1 h2
      cases hx : a.docTerms.get? d with
      | some _ => simp [hx] at h1
      | none =>
        cases hy : b.docTerms.get? d with
        | some _ => simp [hy] at h2
        | none => simp
    | some doc =>
      rw [hl] at h1 h2
      cases hx : a.docTerms.get? d with
      | none => simp [hx] at h1
      | some ts₁ =>
        cases hy : b.docTerms.get? d with
        | none => simp [hy] at h2
        | some ts₂ =>
          simp only [Option.getD_some]
          rw [(ht1 ts₁ doc hx hl).2, (ht2 ts₂ doc hy hl).2]

/-! ## The claims about the inverted index -/

/-- C1: after any sequence of `AddDocument` calls on an empty index, for every
term `t`, document id `d` and order of ranging over the posting map, the
entries of `Postings(t)` for `d` are: exactly one, with TF the number of
occurrences of `t`, when `t` occurs in the token sequence of the last document
added with id `d`, and none otherwise; every TF returned is at least 1. -/
theorem C1_postings_reflect_last_added (calls : List AddCall)
    (ord : RangeOrder (String × Posting)) (t d : String) :
    (((runAdds calls).Postings ord t).filter (fun p => decide (p.DocID = d)) =
      match lastAdded calls d with
      | some doc =>
        if t ∈ indexedTokens doc then
          [{ DocID := d, TF := ((indexedTokens doc).count t : Int) }]
        else []
      | none => []) ∧
    (((runAdds calls).Postings ord t).all (fun p => decide (1 ≤ p.TF))) = true := by
  have hr := reflects_runAdds calls
  constructor
  · rw [filter_Postings ord _ hr.wf, hr.posts]
    cases lastAdded calls d with
    | none => rfl
    | some doc => by_cases ht : t ∈ indexedTokens doc <;> simp [ht]
  · rw [List.all_eq_true]
    intro p hp
    have := mem_Postings hr.wf hp
    rw [hr.posts] at this
    cases hl : lastAdded calls p.DocID with
    | none => simp [hl] at this
    | some doc =>
      by_cases ht : t ∈ indexedTokens doc
      · have hc := List.count_pos_iff.2 ht
        have htf : p.TF = ((indexedTokens doc).count t : Int) := by
          have h' : some ({ DocID := p.DocID, TF := ((indexedTokens doc).count t : Int) } :
              Posting) = some p := by
            rw [hl] at this
            simpa [ht] using this
          rw [← Option.some.inj h']
        simp only [decide_eq_true_eq, htf]
        exact_mod_cast hc
      · simp [hl, ht] at this

/-- C2: in every state reachable from `NewInvertedIndex` by `AddDocument`
calls, `totalTokens` is the sum of `docLengths[d]` over the stored document
ids `d` (each id is stored once). -/
theorem C2_totalTokens_is_sum_of_docLengths (calls : List AddCall) :
    (runAdds calls).totalTokens =
      ∑ d in (runAdds calls).docLengths.keys.toFinset,
        ((runAdds calls).docLengths.get? d).getD 0 ∧
    (runAdds calls).docLengths.keys.Nodup := by
  have hr := reflects_runAdds calls
  exact ⟨by rw [hr.total, sum_values_eq_sum_keys _ hr.nodupLens], hr.nodupLens⟩

/-- C3: re-indexing is last-writer-wins.  For every reachable state, adding
`d` and then `d'` with the same id leaves the same data as adding `d'` alone,
whatever orders the runtime ranges in. -/
theorem C3_last_writer_wins (calls : List AddCall) (o₁ o₂ o₃ : RangeOrder (String × Int))
    (d d' : Document) (hid : d.ID = d'.ID) :
    StateEquiv (AddDocument o₂ (AddDocument o₁ (runAdds calls) d) d')
      (AddDocument o₃ (runAdds calls) d') := by
  have h1 : Reflects ((calls ++ [⟨o₁, d⟩]) ++ [⟨o₂, d'⟩])
      (AddDocument o₂ (AddDocument o₁ (runAdds calls) d) d') :=
    reflects_add (reflects_add (reflects_runAdds calls) ⟨o₁, d⟩) ⟨o₂, d'⟩
  have h2 : Reflects (calls ++ [⟨o₃, d'⟩]) (AddDocument o₃ (runAdds calls) d') :=
    reflects_add (reflects_runAdds calls) ⟨o₃, d'⟩
  refine stateEquiv_of_reflects h1 h2 ?_
  intro k
  simp only [lastAdded_append]
  by_cases hk : d'.ID = k
  · simp [hk]
  · simp [hk, hid]

/-- C4: in every reachable state `docTerms` and `postings` agree in both
directions: `t` is listed in `docTerms[d]` exactly when `d` is a key of
`postings[t]`. -/
theorem C4_docTerms_agree_with_postings (calls : List AddCall) (t d : String) :
    (∃ terms, (runAdds calls).docTerms.get? d = some terms ∧ t ∈ terms) ↔
      (∃ postingList, (runAdds calls).postings.get? t = some postingList ∧
        d ∈ postingList.keys) := by
  have hr := reflects_runAdds calls
  have hposts := hr.posts t d
  have hsome := hr.termsSome d
  have hterms := hr.terms d
  have hright : (∃ postingList, (runAdds calls).postings.get? t = some postingList ∧
      d ∈ postingList.keys) ↔ (lookup2 (runAdds calls).postings t d).isSome := by
    unfold lookup2
    cases (runAdds calls).postings.get? t with
    | none => simp
    | some pl => simp [GoMap.isSome_get?_iff]
  rw [hright, hposts]
  cases hl : lastAdded calls d with
  | none =>
    rw [hl] at hsome
    cases hx : (runAdds calls).docTerms.get? d with
    | some _ => simp [hx] at hsome
    | none => simp
  | some doc =>
    rw [hl] at hsome
    cases hx : (runAdds calls).docTerms.get? d with
    | none => simp [hx] at hsome
    | some ts =>
      have := (hterms ts doc hx hl).2 t
      by_cases ht : t ∈ indexedTokens doc <;> simp [ht, this]

/-- C5: in every reachable state no term maps to an empty posting list, and a
term is a key of `postings` exactly when some document id is present in its
inner map. -/
theorem C5_no_empty_posting_list (calls : List AddCall) (t : String) :
    (runAdds calls).postings.get? t ≠ some [] ∧
    ([] : GoMap Posting) ∉ (runAdds calls).postings.values ∧
    (t ∈ (runAdds calls).postings.keys ↔
      ∃ d, d ∈ (((runAdds calls).postings.get? t).getD []).keys) := by
  have hr := reflects_runAdds calls
  refine ⟨?_, ?_, ?_⟩
  · intro h
    exact (hr.wf.2 t [] h).1 rfl
  · intro h
    obtain ⟨e, he, hnil⟩ := List.mem_map.1 h
    have := GoMap.get?_of_mem hr.wf.1 (show (e.1, e.2) ∈ (runAdds calls).postings from he)
    rw [hnil] at this
    exact (hr.wf.2 e.1 [] this).1 rfl
  · rw [mem_postingKeys_iff hr.wf]
    unfold lookup2
    cases (runAdds calls).postings.get? t with
    | none => simp [GoMap.keys]
    | some pl =>
      show (∃ d p, pl.get? d = some p) ↔ ∃ d, d ∈ GoMap.keys pl
      constructor
      · rintro ⟨d, p, h⟩
        exact ⟨d, (GoMap.isSome_get?_iff _ _).1 (by simp [h])⟩
      · rintro ⟨d, h⟩
        have := (GoMap.isSome_get?_iff _ _).2 h
        exact ⟨d, Option.isSome_iff_exists.1 this⟩

/-- C6: in every reachable state `documents`, `docLengths` and `docTerms` have
the same key set, namely the ids passed to `AddDocument` so far, and
`DocumentCount()` is the number of distinct ids added. -/
theorem C6_key_sets_are_added_ids (calls : List AddCall) (d : String) :
    (d ∈ (runAdds calls).documents.keys ↔ d ∈ calls.map (fun c => c.doc.ID)) ∧
    (d ∈ (runAdds calls).docLengths.keys ↔ d ∈ calls.map (fun c => c.doc.ID)) ∧
    (d ∈ (runAdds calls).docTerms.keys ↔ d ∈ calls.map (fun c => c.doc.ID)) ∧
    (runAdds calls).DocumentCount =
      (((calls.map (fun c => c.doc.ID)).toFinset.card : Nat) : Int) := by
  have hr := reflects_runAdds calls
  have hdocs : ∀ k, k ∈ (runAdds calls).documents.keys ↔ k ∈ calls.map (fun c => c.doc.ID) := by
    intro k
    rw [← GoMap.isSome_get?_iff, hr.docs, ← lastAdded_isSome]
    simp
  refine ⟨hdocs d, ?_, ?_, ?_⟩
  · rw [← GoMap.isSome_get?_iff, hr.lens, ← lastAdded_isSome]
    simp
  · rw [← GoMap.isSome_get?_iff, hr.termsSome, ← lastAdded_isSome]
  · have hfin : (runAdds calls).documents.keys.toFinset =
        (calls.map (fun c => c.doc.ID)).toFinset := by
      ext k
      simp only [List.mem_toFinset]
      exact hdocs k
    rw [← hfin, List.toFinset_card_of_nodup hr.nodupDocs]
    simp [InvertedIndex.DocumentCount, GoMap.len, GoMap.keys]

/-! ## The claims about the tokenizer -/

theorem findAllFrom_eq_occsFrom (pre cur cs : List Char) :
    findAllFrom cur cs = (occsFrom pre cur cs).map (fun o => o.2.1) := by
  induction cs generalizing pre cur with
  | nil => by_cases h : cur.isEmpty <;> simp [findAllFrom, occsFrom, h]
  | cons c cs ih =>
    by_cases hc : isTokenChar c
    · simp only [findAllFrom, occsFrom, hc, if_true]
      exact ih _ _
    · by_cases h : cur.isEmpty
      · simp only [findAllFrom, occsFrom, hc, h, if_true]
        exact ih _ _
      · simp only [findAllFrom, occsFrom, hc, h, List.map_cons]
        simp only [Bool.false_eq_true, if_false, List.map_cons]
        rw [ih (pre ++ cur ++ [c]) []]

theorem occsFrom_length_le (pre cur cs : List Char) :
    ∀ o ∈ occsFrom pre cur cs, pre.length ≤ o.1.length := by
  induction cs generalizing pre cur with
  | nil =>
    intro o ho
    by_cases h : cur.isEmpty
    · simp [occsFrom, h] at ho
    · simp only [occsFrom, h, Bool.false_eq_true, if_false, List.mem_singleton] at ho
      simp [ho]
  | cons c cs ih =>
    intro o ho
    by_cases hc : isTokenChar c
    · simp only [occsFrom, hc, if_true] at ho
      exact ih _ _ o ho
    · by_cases h : cur.isEmpty
      · simp only [occsFrom, hc, h, if_true, Bool.false_eq_true, if_false] at ho
        have := ih _ _ o ho
        simp only [List.length_append, List.length_singleton] at this
        omega
      · simp only [occsFrom, hc, h, Bool.false_eq_true, if_false, List.mem_cons] at ho
        rcases ho with ho | ho
        · simp [ho]
        · have := ih _ _ o ho
          simp only [List.length_append, List.length_singleton] at this
          omega

theorem occsFrom_pairwise (pre cur cs : List Char) :
    (occsFrom pre cur cs).Pairwise (fun a b => a.1.length < b.1.length) := by
  induction cs generalizing pre cur with
  | nil => by_cases h : cur.isEmpty <;> simp [occsFrom, h]
  | cons c cs ih =>
    by_cases hc : isTokenChar c
    · simp only [occsFrom, hc, if_true]
      exact ih _ _
    · by_cases h : cur.isEmpty
      · simp only [occsFrom, hc, h, if_true, Bool.false_eq_true, if_false]
        exact ih _ _
      · simp only [occsFrom, hc, h, Bool.false_eq_true, if_false, List.pairwise_cons]
        refine ⟨?_, ih _ _⟩
        intro o ho
        have := occsFrom_length_le _ _ _ o ho
        simp only [List.length_append, List.length_singleton] at this
        show pre.length < o.1.length
        omega

theorem scanInv_snoc_cur {pre cur : List Char} {c : Char} (h : ScanInv pre cur)
    (hc : isTokenChar c = true) : ScanInv pre (cur ++ [c]) := by
  refine ⟨?_, h.2⟩
  intro x hx
  rcases List.mem_append.1 hx with hx | hx
  · exact h.1 x hx
  · simp only [List.mem_singleton] at hx
    rw [hx]
    exact hc

theorem scanInv_snoc_pre (p : List Char) {c : Char} (hc : ¬ isTokenChar c = true) :
    ScanInv (p ++ [c]) [] := by
  refine ⟨by simp, ?_⟩
  intro x hx
  have hx' : c = x := by simpa [List.getLast?_append] using hx
  rw [← hx']
  simpa using hc

theorem occsFrom_sound (pre cur cs : List Char) (h : ScanInv pre cur) :
    ∀ o ∈ occsFrom pre cur cs, IsMaximalRun (pre ++ cur ++ cs) o.1 o.2.1 o.2.2 := by
  induction cs generalizing pre cur with
  | nil =>
    intro o ho
    by_cases hcur : cur.isEmpty
    · simp [occsFrom, hcur] at ho
    · simp only [occsFrom, hcur, Bool.false_eq_true, if_false, List.mem_singleton] at ho
      subst ho
      refine ⟨rfl, ?_, h.1, h.2, by simp⟩
      intro hnil
      exact hcur (by simpa using hnil)
  | cons c cs ih =>
    intro o ho
    by_cases hc : isTokenChar c
    · simp only [occsFrom, hc, if_true] at ho
      have := ih pre (cur ++ [c]) (scanInv_snoc_cur h hc) o ho
      simpa using this
    · by_cases hcur : cur.isEmpty
      · simp only [occsFrom, hc, hcur, if_true, Bool.false_eq_true, if_false] at ho
        have := ih (pre ++ [c]) [] (scanInv_snoc_pre pre hc) o ho
        have hnil : cur = [] := by simpa using hcur
        simpa [hnil] using this
      · simp only [occsFrom, hc, hcur, Bool.false_eq_true, if_false, List.mem_cons] at ho
        rcases ho with ho | ho
        · subst ho
          refine ⟨rfl, ?_, h.1, h.2, ?_⟩
          · intro hnil
            exact hcur (by simpa using hnil)
          · intro x hx
            simp only [List.head?_cons, Option.some.injEq] at hx
            rw [← hx]
            simpa using hc
        · have := ih (pre ++ cur ++ [c]) [] (scanInv_snoc_pre (pre ++ cur) hc) o ho
          simpa using this

theorem append_split {α : Type} {a b c d : List α} (h : a ++ b = c ++ d)
    (hl : a.length ≤ c.length) : ∃ t, c = a ++ t ∧ b = t ++ d := by
  rcases List.append_eq_append_iff.1 h with ⟨t, h1, h2⟩ | ⟨t, h1, h2⟩
  · exact ⟨t, h1, h2⟩
  · have ht : t = [] := by
      have := congrArg List.length h1
      simp only [List.length_append] at this
      exact List.length_eq_zero.1 (by omega)
    subst ht
    exact ⟨[], by simpa using h1.symm, by simpa using h2.symm⟩

theorem exists_getLast?_mem {α : Type} {t : List α} (h : t ≠ []) :
    ∃ x, t.getLast? = some x ∧ x ∈ t :=
  ⟨t.getLast h, List.getLast?_eq_getLast t h, List.getLast_mem h⟩

theorem exists_head?_mem {α : Type} {t : List α} (h : t ≠ []) :
    ∃ x, t.head? = some x ∧ x ∈ t :=
  ⟨t.head h, List.head?_eq_head h, List.head_mem h⟩

theorem occsFrom_complete (pre cur cs : List Char) (h : ScanInv pre cur)
    (p r q : List Char) (hm : IsMaximalRun (pre ++ cur ++ cs) p r q)
    (hl : pre.length ≤ p.length) : (p, r, q) ∈ occsFrom pre cur cs := by
  induction cs generalizing pre cur with
  | nil =>
    obtain ⟨htext, hr, hrun, hleft, hright⟩ := hm
    have htext' : pre ++ cur = p ++ (r ++ q) := by simpa using htext
    obtain ⟨p', hp, hcur⟩ := append_split htext' hl
    have hp' : p' = [] := by
      by_contra hne
      obtain ⟨x, hx, hxm⟩ := exists_getLast?_mem hne
      have h1 : isTokenChar x = true := h.1 x (by rw [hcur]; exact List.mem_append_left _ hxm)
      have h2 := hleft x (by rw [hp, List.getLast?_append_of_ne_nil _ hne]; exact hx)
      rw [h1] at h2
      exact absurd h2 (by simp)
    subst hp'
    simp only [List.append_nil, List.nil_append] at hp hcur
    have hq : q = [] := by
      by_contra hne
      obtain ⟨x, hx, hxm⟩ := exists_head?_mem hne
      have h1 : isTokenChar x = true :=
        h.1 x (by rw [hcur]; exact List.mem_append_right _ hxm)
      have h2 := hright x hx
      rw [h1] at h2
      exact absurd h2 (by simp)
    subst hq
    simp only [List.append_nil] at hcur
    subst hcur hp
    have : ¬ cur.isEmpty = true := by simpa using hr
    simp [occsFrom, this]
  | cons c cs ih =>
    by_cases hc : isTokenChar c = true
    · simp only [occsFrom, hc, if_true]
      refine ih pre (cur ++ [c]) (scanInv_snoc_cur h hc) ?_ hl
      obtain ⟨htext, hrest⟩ := hm
      exact ⟨by simpa using htext, hrest⟩
    · obtain ⟨htext, hr, hrun, hleft, hright⟩ := hm
      have htext' : pre ++ (cur ++ c :: cs) = p ++ (r ++ q) := by simpa using htext
      obtain ⟨p', hp, hrest⟩ := append_split htext' hl
      by_cases hp' : p' = []
      · subst hp'
        simp only [List.append_nil, List.nil_append] at hp hrest
        subst hp
        by_cases hlen : cur.length ≤ r.length
        · obtain ⟨t, hrt, hct⟩ := append_split hrest hlen
          have ht : t = [] := by
            by_contra hne
            cases t with
            | nil => exact hne rfl
            | cons x t' =>
              simp only [List.cons_append, List.cons.injEq] at hct
              have h1 := hrun c (by rw [hrt, hct.1]; simp)
              exact hc h1
          subst ht
          simp only [List.append_nil, List.nil_append] at hrt hct
          subst hrt hct
          have hne : ¬ r.isEmpty = true := by simpa using hr
          simp [occsFrom, hc, hne]
        · exfalso
          obtain ⟨t, hct, hqt⟩ := append_split hrest.symm (by omega : r.length ≤ cur.length)
          have htne : t ≠ [] := by
            intro ht
            subst ht
            simp only [List.append_nil] at hct
            rw [hct] at hlen
            exact hlen (le_refl _)
          obtain ⟨x, hx, hxm⟩ := exists_head?_mem htne
          have h1 : isTokenChar x = true :=
            h.1 x (by rw [hct]; exact List.mem_append_right _ hxm)
          have h2 := hright x (by rw [hqt, List.head?_append_of_ne_nil _ htne]; exact hx)
          rw [h1] at h2
          exact absurd h2 (by simp)
      · have hlong : cur.length < p'.length := by
          by_contra hle
          obtain ⟨t, hct, _⟩ := append_split hrest.symm (by omega : p'.length ≤ cur.length)
          obtain ⟨x, hx, hxm⟩ := exists_getLast?_mem hp'
          have h1 : isTokenChar x = true :=
            h.1 x (by rw [hct]; exact List.mem_append_left _ hxm)
          have h2 := hleft x (by rw [hp, List.getLast?_append_of_ne_nil _ hp']; exact hx)
          rw [h1] at h2
          exact absurd h2 (by simp)
        have hplen : p.length = pre.length + p'.length := by
          rw [hp, List.length_append]
        by_cases hcur : cur.isEmpty = true
        · have hnil : cur = [] := by simpa using hcur
          subst hnil
          simp only [occsFrom, hc, hcur, if_true, Bool.false_eq_true, if_false]
          refine ih (pre ++ [c]) [] (scanInv_snoc_pre pre hc)
            ⟨by simpa using htext, hr, hrun, hleft, hright⟩ ?_
          have : 0 < p'.length := List.length_pos.2 hp'
          simp only [List.length_append, List.length_singleton]
          omega
        · simp only [occsFrom, hc, hcur, Bool.false_eq_true, if_false]
          refine List.mem_cons_of_mem _ ?_
          refine ih (pre ++ cur ++ [c]) [] (scanInv_snoc_pre (pre ++ cur) hc)
            ⟨by simpa using htext, hr, hrun, hleft, hright⟩ ?_
          simp only [List.length_append, List.length_singleton]
          omega

theorem foldl_append_ToLower (l : List String) (init : List String) :
    l.foldl (fun tokens m => tokens ++ [ToLower m]) init = init ++ l.map ToLower := by
  induction l generalizing init with
  | nil => simp
  | cons a r ih => simp [ih]

theorem Tokenize_eq (text : String) :
    Tokenize text = (findAllFrom [] text.data).map (fun r => String.mk (r.map Char.toLower)) := by
  unfold Tokenize FindAllString
  simp only [foldl_append_ToLower, List.nil_append, List.length_map, List.map_map]
  by_cases h : (findAllFrom [] text.data).length = 0
  · have := List.length_eq_zero.1 h
    simp [this]
  · simp only [h, if_false]
    apply List.map_congr_left
    intro r _
    simp [ToLower]

theorem findAllFrom_eq_nil_iff (cur cs : List Char) :
    findAllFrom cur cs = [] ↔ cur = [] ∧ ∀ c ∈ cs, isTokenChar c = false := by
  induction cs generalizing cur with
  | nil => by_cases h : cur.isEmpty <;> simp [findAllFrom, h] <;> simpa using h
  | cons c cs ih =>
    by_cases hc : isTokenChar c = true
    · simp only [findAllFrom, hc, if_true, ih]
      simp [hc]
    · by_cases h : cur.isEmpty = true
      · have hnil : cur = [] := by simpa using h
        simp only [findAllFrom, hc, h, if_true, Bool.false_eq_true, if_false, ih]
        simp [hc, hnil]
      · have hnil : ¬ cur = [] := by simpa using h
        simp [findAllFrom, hc, h, hnil]

theorem findAllFrom_runs (cur cs : List Char) (hcur : ∀ c ∈ cur, isTokenChar c = true) :
    ∀ r ∈ findAllFrom cur cs, r ≠ [] ∧ ∀ c ∈ r, isTokenChar c = true := by
  intro r hr
  rw [findAllFrom_eq_occsFrom [] cur cs] at hr
  obtain ⟨o, ho, rfl⟩ := List.mem_map.1 hr
  have := occsFrom_sound [] cur cs ⟨hcur, by simp⟩ o ho
  exact ⟨this.2.1, this.2.2.1⟩

theorem toLower_isLowerAlnum_small :
    ∀ n : Fin 128, isTokenChar (Char.ofNat n) = true →
      isLowerAlnum (Char.ofNat n).toLower = true := by
  decide

theorem isTokenChar_toNat_lt (c : Char) (h : isTokenChar c = true) : c.toNat < 128 := by
  simp only [isTokenChar, Bool.or_eq_true, Bool.and_eq_true, decide_eq_true_eq,
    Char.le_def] at h
  have : c.toNat = c.val.toNat := rfl
  rw [this]
  rcases h with (h | h) | h
  · have h2 : c.val.toNat ≤ 122 := h.2
    omega
  · have h2 : c.val.toNat ≤ 90 := h.2
    omega
  · have h2 : c.val.toNat ≤ 57 := h.2
    omega

theorem toLower_isLowerAlnum (c : Char) (h : isTokenChar c = true) :
    isLowerAlnum c.toLower = true := by
  have := toLower_isLowerAlnum_small ⟨c.toNat, isTokenChar_toNat_lt c h⟩
  simp only [Char.ofNat_toNat] at this
  exact this h

/-- C7: for every string `s`, `Tokenize(s)` lists, in left-to-right order of
occurrence and with duplicates kept, the maximal substrings of `s` made of
characters of `[A-Za-z0-9]`, each lowercased; it is empty exactly when `s`
holds no such character.  The occurrences are given with the text before and
after them, and they are ordered by where they start. -/
theorem C7_Tokenize_lists_maximal_runs (s : String) :
    (∃ occs : List (List Char × List Char × List Char),
      Tokenize s = occs.map (fun o => String.mk (o.2.1.map Char.toLower)) ∧
      (∀ pre run post, (pre, run, post) ∈ occs ↔ IsMaximalRun s.data pre run post) ∧
      occs.Pairwise (fun a b => a.1.length < b.1.length)) ∧
    (Tokenize s = [] ↔ ∀ c ∈ s.data, isTokenChar c = false) := by
  constructor
  · refine ⟨occsFrom [] [] s.data, ?_, ?_, occsFrom_pairwise _ _ _⟩
    · rw [Tokenize_eq, findAllFrom_eq_occsFrom [] [] s.data, List.map_map]
      rfl
    · intro pre run post
      constructor
      · intro hmem
        have := occsFrom_sound [] [] s.data ⟨by simp, by simp⟩ _ hmem
        simpa using this
      · intro hm
        exact occsFrom_complete [] [] s.data ⟨by simp, by simp⟩ pre run post
          (by simpa using hm) (by simp)
  · rw [Tokenize_eq, List.map_eq_nil_iff, findAllFrom_eq_nil_iff]
    simp

/-- C8: for every string `s`, every token of `Tokenize(s)` is non-empty and
made of characters of `[a-z0-9]` only. -/
theorem C8_tokens_lowercase_alnum (s : String) (tok : String) (h : tok ∈ Tokenize s) :
    tok.data ≠ [] ∧ ∀ c ∈ tok.data, isLowerAlnum c = true := by
  rw [Tokenize_eq] at h
  obtain ⟨r, hr, rfl⟩ := List.mem_map.1 h
  obtain ⟨hne, hall⟩ := findAllFrom_runs [] s.data (by simp) r hr
  refine ⟨by simpa using hne, ?_⟩
  intro c hc
  simp only [List.mem_map] at hc
  obtain ⟨x, hx, rfl⟩ := hc
  exact toLower_isLowerAlnum x (hall x hx)

/-! ## Facts about score maps -/

section

variable {F : Type} [LinearOrderedField F]

theorem filter_key_eq {V : Type} (m : GoMap V) (hnd : m.keys.Nodup) (d : String) :
    m.filter (fun e => decide (e.1 = d)) = ((m.get? d).map (fun v => (d, v))).toList := by
  induction m with
  | nil => simp [GoMap.get?]
  | cons e rest ih =>
    obtain ⟨k, v⟩ := e
    simp only [GoMap.keys, List.map_cons, List.nodup_cons] at hnd
    have ih' := ih hnd.2
    by_cases hk : k = d
    · subst hk
      have hnone : GoMap.get? rest k = none := (GoMap.get?_eq_none_iff _ _).2 hnd.1
      rw [hnone] at ih'
      simp [List.filter_cons, GoMap.get?, ih']
    · simp [List.filter_cons, hk, GoMap.get?, ih']

theorem addTo_get? (m : GoMap F) (k d : String) (v : F) :
    (m.addTo k v).get? d = if d = k then some ((m.get? k).getD 0 + v) else m.get? d := by
  unfold GoMap.addTo
  rw [GoMap.get?_set]

/-- A loop of `m[k] += v` statements: every key met ends up with its old value
(0 when absent) plus the sum of what was added under it. -/
theorem addFold_get? {α : Type} (key : α → String) (val : α → F) (l : List α) (m : GoMap F)
    (d : String) :
    (l.foldl (fun m e => m.addTo (key e) (val e)) m).get? d =
      if d ∈ l.map key then
        some ((m.get? d).getD 0 + ((l.filter (fun e => decide (key e = d))).map val).sum)
      else m.get? d := by
  induction l generalizing m with
  | nil => simp
  | cons a r ih =>
    rw [List.foldl_cons, ih, addTo_get?]
    by_cases hk : key a = d
    · subst hk
      by_cases hr : key a ∈ r.map key
      · simp [hr, List.filter_cons, add_assoc]
      · have hfil : r.filter (fun e => decide (key e = key a)) = [] := by
          rw [List.filter_eq_nil_iff]
          intro e he
          simp only [decide_eq_true_eq]
          intro h
          exact hr (List.mem_map.2 ⟨e, he, h⟩)
        simp [hr, List.filter_cons, hfil]
    · have hk' : ¬ d = key a := fun h => hk h.symm
      by_cases hr : d ∈ r.map key
      · simp [hr, hk, hk', List.filter_cons]
      · simp [hr, hk, hk', List.filter_cons]

theorem addFold_nodup {α : Type} (key : α → String) (val : α → F) (l : List α) (m : GoMap F)
    (hm : m.keys.Nodup) : (l.foldl (fun m e => m.addTo (key e) (val e)) m).keys.Nodup := by
  induction l generalizing m with
  | nil => simpa using hm
  | cons a r ih => exact ih _ (GoMap.nodup_keys_set hm _ _)

theorem setFold_nodup {α V : Type} (key : α → String) (val : α → V) (l : List α) (m : GoMap V)
    (hm : m.keys.Nodup) : (l.foldl (fun m e => m.set (key e) (val e)) m).keys.Nodup := by
  induction l generalizing m with
  | nil => simpa using hm
  | cons a r ih => exact ih _ (GoMap.nodup_keys_set hm _ _)

/-- A loop of `m[k] = v` statements: the last assignment to a key wins. -/
theorem setFold_get? {α V : Type} (key : α → String) (val : α → V) (l : List α) (m : GoMap V)
    (d : String) :
    (l.foldl (fun m e => m.set (key e) (val e)) m).get? d =
      match l.reverse.find? (fun e => decide (key e = d)) with
      | some e => some (val e)
      | none => m.get? d := by
  induction l generalizing m with
  | nil => simp
  | cons a r ih =>
    rw [List.foldl_cons, ih, List.reverse_cons, List.find?_append]
    cases hfind : r.reverse.find? (fun e => decide (key e = d)) with
    | some e => simp
    | none =>
      by_cases hk : key a = d
      · subst hk
        simp [GoMap.get?_set_self]
      · have hk' : d ≠ key a := fun h => hk h.symm
        simp [hk, GoMap.get?_set_of_ne _ _ hk']

/-! ## The lexical pass -/

theorem scorePosting_fold (s : Service F) (idx : InvertedIndex) (avgDocLen idf : F)
    (postings : List Posting) (m : GoMap F) :
    postings.foldl (scorePosting s idx avgDocLen idf) m =
      (postings.filterMap (postingContrib s idx avgDocLen idf)).foldl
        (fun m e => m.addTo e.1 e.2) m := by
  induction postings generalizing m with
  | nil => rfl
  | cons p r ih =>
    rw [List.foldl_cons, ih]
    unfold scorePosting postingContrib
    cases hdoc : idx.Document p.DocID with
    | none => simp [List.filterMap_cons, hdoc]
    | some doc => simp [List.filterMap_cons, hdoc, postingScore]

theorem scoreTerm_eq (env : SearchEnv F) (s : Service F) (idx : InvertedIndex)
    (docCount avgDocLen : F) (m : GoMap F) (term : String) :
    scoreTerm env s idx docCount avgDocLen m term =
      (termContribs env s idx docCount avgDocLen term).foldl (fun m e => m.addTo e.1 e.2) m := by
  unfold scoreTerm termContribs
  by_cases h1 : (idx.Postings env.postingsOrder term).length = 0
  · simp [h1]
  · by_cases h2 : (idx.DocumentFrequency term : F) = 0
    · simp [h1, h2]
    · simp only [h1, h2, if_false]
      exact scorePosting_fold _ _ _ _ _ _

theorem scoreTerm_fold (env : SearchEnv F) (s : Service F) (idx : InvertedIndex)
    (docCount avgDocLen : F) (tokens : List String) (m : GoMap F) :
    tokens.foldl (scoreTerm env s idx docCount avgDocLen) m =
      (tokens.flatMap (termContribs env s idx docCount avgDocLen)).foldl
        (fun m e => m.addTo e.1 e.2) m := by
  induction tokens generalizing m with
  | nil => rfl
  | cons t r ih =>
    rw [List.foldl_cons, ih, scoreTerm_eq, List.flatMap_cons, List.foldl_append]

theorem sum_filter_flatMap {α : Type} (f : α → List (String × F)) (l : List α) (d : String) :
    (((l.flatMap f).filter (fun e => decide (e.1 = d))).map Prod.snd).sum =
      (l.map (fun a => (((f a).filter (fun e => decide (e.1 = d))).map Prod.snd).sum)).sum := by
  induction l with
  | nil => simp
  | cons a r ih => simp [List.flatMap_cons, List.filter_append, ih]

/-- The value of `lexicalScores[d]` after the lexical pass, 0 when absent. -/
theorem lexicalScores_getD (env : SearchEnv F) (s : Service F) (idx : InvertedIndex)
    (docCount avgDocLen : F) (tokens : List String) (d : String) :
    ((tokens.foldl (scoreTerm env s idx docCount avgDocLen) []).get? d).getD 0 =
      (tokens.map (fun t => (((termContribs env s idx docCount avgDocLen t).filter
        (fun e => decide (e.1 = d))).map Prod.snd).sum)).sum := by
  rw [scoreTerm_fold, addFold_get? Prod.fst Prod.snd, ← sum_filter_flatMap]
  by_cases h : d ∈ (tokens.flatMap (termContribs env s idx docCount avgDocLen)).map Prod.fst
  · simp [h, GoMap.get?]
  · have hfil : (tokens.flatMap (termContribs env s idx docCount avgDocLen)).filter
        (fun e => decide (e.1 = d)) = [] := by
      rw [List.filter_eq_nil_iff]
      intro e he
      simp only [decide_eq_true_eq]
      intro heq
      exact h (List.mem_map.2 ⟨e, he, heq⟩)
    simp [h, GoMap.get?, hfil]

theorem termIdf_eq_specIdf (ln : F → F) (idx : InvertedIndex) (t : String) :
    termIdf ln (idx.DocumentCount : F) (idx.DocumentFrequency t : F) = specIdf ln idx t := by
  unfold termIdf specIdf
  simp only
  rw [max_def]
  by_cases h : ln (((idx.DocumentCount : F) - (idx.DocumentFrequency t : F) + 0.5) /
      ((idx.DocumentFrequency t : F) + 0.5)) < 0
  · simp [h, not_le.2 h]
  · simp [h, not_lt.1 h]

theorem filter_filterMap_contrib (s : Service F) (idx : InvertedIndex) (avgDocLen idf : F)
    (postings : List Posting) (d : String) :
    (postings.filterMap (postingContrib s idx avgDocLen idf)).filter
        (fun e => decide (e.1 = d)) =
      (postings.filter (fun p => decide (p.DocID = d))).filterMap
        (postingContrib s idx avgDocLen idf) := by
  induction postings with
  | nil => rfl
  | cons p r ih =>
    unfold postingContrib at ih ⊢
    cases hdoc : idx.Document p.DocID with
    | none =>
      by_cases hp : p.DocID = d
      · subst hp
        simp [List.filterMap_cons, List.filter_cons, hdoc, ih]
      · simp [List.filterMap_cons, List.filter_cons, hdoc, hp, ih]
    | some doc =>
      by_cases hp : p.DocID = d
      · subst hp
        simp [List.filterMap_cons, List.filter_cons, hdoc, ih]
      · simp [List.filterMap_cons, List.filter_cons, hdoc, hp, ih]

/-- In a well-formed index, what one query term adds under a stored document
`d` is the spec's BM25 term when the postings of the term contain `d`, and
nothing otherwise. -/
theorem termContribs_sum (env : SearchEnv F) (s : Service F) (idx : InvertedIndex)
    (hwf : PostingsWF idx.postings) (t d : String) (doc : Document)
    (hdoc : idx.Document d = some doc) :
    (((termContribs env s idx (idx.DocumentCount : F) (specAvgLen idx) t).filter
        (fun e => decide (e.1 = d))).map Prod.snd).sum =
      ((lookup2 idx.postings t d).map
        (fun p => specTermScore env.ln s idx t d (p.TF : F))).getD 0 := by
  have hfilter := filter_Postings env.postingsOrder idx hwf t d
  unfold termContribs
  by_cases h1 : (idx.Postings env.postingsOrder t).length = 0
  · have hnil := List.length_eq_zero.1 h1
    rw [hnil] at hfilter
    cases hl : lookup2 idx.postings t d with
    | none => simp [h1]
    | some p => simp [hl] at hfilter
  · by_cases h2 : (idx.DocumentFrequency t : F) = 0
    · have hdf : idx.DocumentFrequency t = 0 := by exact_mod_cast h2
      have hl : lookup2 idx.postings t d = none := by
        unfold lookup2
        unfold InvertedIndex.DocumentFrequency at hdf
        cases hps : idx.postings.get? t with
        | none => rfl
        | some entry =>
          rw [hps] at hdf
          have := (GoMap.len_eq_zero_iff _).1 hdf
          simp [this, GoMap.get?]
      simp [h1, h2, hl]
    · simp only [h1, h2, if_false]
      rw [filter_filterMap_contrib, hfilter]
      cases hl : lookup2 idx.postings t d with
      | none => simp
      | some p =>
        have hpid : p.DocID = d := by
          unfold lookup2 at hl
          cases hps : idx.postings.get? t with
          | none => simp [hps] at hl
          | some entry =>
            rw [hps] at hl
            exact (hwf.2 t entry hps).2.2 (d, p) (GoMap.mem_of_get? hl)
        have hdoc' : idx.Document p.DocID = some doc := by rw [hpid]; exact hdoc
        simp only [Option.toList_some, List.filterMap_cons, List.filterMap_nil, postingContrib,
          hdoc', Option.map_some', List.filter_cons, List.map_cons, List.map_nil,
          List.sum_cons, List.sum_nil, add_zero, Option.getD_some]
        unfold postingScore specTermScore specDocLen
        rw [termIdf_eq_specIdf, hdoc]
        simp only [mul_div_assoc]

theorem specLexical_eq_sum (ln : F → F) (s : Service F) (idx : InvertedIndex)
    (tokens : List String) (d : String) :
    specLexical ln s idx tokens d =
      (tokens.map (fun t => ((lookup2 idx.postings t d).map
        (fun p => specTermScore ln s idx t d (p.TF : F))).getD 0)).sum := by
  unfold specLexical
  induction tokens with
  | nil => rfl
  | cons t r ih =>
    cases hl : lookup2 idx.postings t d with
    | none => simpa [List.filterMap_cons, hl] using ih
    | some p => simp [List.filterMap_cons, hl, ih]

end

/-! ## Fusion, materialization and ordering -/

section

variable {F : Type} [LinearOrderedField F]

theorem pickFold_get? (o : RangeOrder (String × F)) (m : GoMap F) (hm : m.keys.Nodup) (w : F)
    (base : GoMap F) (d : String) :
    ((o.pick m).foldl (fun c e => c.addTo e.1 (w * e.2)) base).get? d =
      match m.get? d with
      | some v => some ((base.get? d).getD 0 + w * v)
      | none => base.get? d := by
  have hnd : (GoMap.keys (o.pick m)).Nodup :=
    (List.Perm.nodup_iff ((o.perm _).map Prod.fst)).2 hm
  have hget : GoMap.get? (o.pick m) d = m.get? d := GoMap.get?_perm hnd (o.perm _) d
  rw [addFold_get? Prod.fst (fun e => w * e.2), filter_key_eq _ hnd, hget]
  have hmem : d ∈ (o.pick m).map Prod.fst ↔ (m.get? d).isSome := by
    rw [← hget, GoMap.isSome_get?_iff]
    rfl
  cases hv : m.get? d with
  | none =>
    rw [hv] at hmem
    simp at hmem
    simp [hmem]
  | some v =>
    rw [hv] at hmem
    simp at hmem
    have : d ∈ List.map Prod.fst (o.pick m) := by
      obtain ⟨x, hx⟩ := hmem
      exact List.mem_map.2 ⟨(d, x), hx, rfl⟩
    simp [this]

theorem lexicalScoresOf_nodup (env : SearchEnv F) (s : Service F) (idx : InvertedIndex)
    (query : String) : (lexicalScoresOf env s idx query).keys.Nodup := by
  unfold lexicalScoresOf
  rw [scoreTerm_fold]
  exact addFold_nodup _ _ _ _ (by simp [GoMap.keys])

theorem semanticScoresOf_nodup (s : Service F) (query : String) (topK : Int) :
    (semanticScoresOf s query topK).keys.Nodup := by
  unfold semanticScoresOf
  cases s.Semantic with
  | none => simp [GoMap.keys]
  | some q => exact setFold_nodup _ _ _ _ (by simp [GoMap.keys])

theorem combinedOf_nodup (env : SearchEnv F) (s : Service F) (idx : InvertedIndex)
    (query : String) (topK : Int) : (combinedOf env s idx query topK).keys.Nodup := by
  unfold combinedOf
  exact addFold_nodup _ _ _ _ (addFold_nodup _ _ _ _ (by simp [GoMap.keys]))

theorem semanticScoresOf_getD (s : Service F) (query : String) (topK : Int) (d : String) :
    ((semanticScoresOf s query topK).get? d).getD 0 = specSemantic s query topK d := by
  unfold semanticScoresOf specSemantic
  have hmax : max topK 10 = if topK < 10 then 10 else topK := by
    rw [max_def]
    by_cases h : topK < 10
    · simp [h, le_of_lt h]
    · have h' : ¬ topK ≤ 10 ∨ topK = 10 := by omega
      rcases h' with h' | h'
      · simp [h, h']
      · simp [h']
  cases s.Semantic with
  | none => simp [GoMap.get?]
  | some q =>
    simp only [hmax]
    rw [setFold_get? (fun c : Candidate F => c.DocID) (fun c => c.Score)]
    cases (q query (if topK < 10 then 10 else topK)).reverse.find?
        (fun c => decide (c.DocID = d)) with
    | none => simp [GoMap.get?]
    | some c => simp

/-- The fused score of a document in `combined`. -/
theorem combinedOf_get? (env : SearchEnv F) (s : Service F) (idx : InvertedIndex)
    (query : String) (topK : Int) (d : String) (score : F)
    (h : (combinedOf env s idx query topK).get? d = some score) :
    score = s.LexicalWeight * ((lexicalScoresOf env s idx query).get? d).getD 0 +
      s.SemanticWeight * ((semanticScoresOf s query topK).get? d).getD 0 := by
  unfold combinedOf at h
  rw [pickFold_get? _ _ (semanticScoresOf_nodup s query topK),
    pickFold_get? _ _ (lexicalScoresOf_nodup env s idx query)] at h
  cases hl : (lexicalScoresOf env s idx query).get? d with
  | none =>
    cases hs : (semanticScoresOf s query topK).get? d with
    | none => simp [hl, hs, GoMap.get?] at h
    | some v =>
      simp only [hl, hs, GoMap.get?, Option.getD_none, Option.some.injEq] at h
      rw [← h]
      simp
  | some l =>
    cases hs : (semanticScoresOf s query topK).get? d with
    | none =>
      simp only [hl, hs, GoMap.get?, Option.getD_none, Option.some.injEq] at h
      rw [← h]
      simp
    | some v =>
      simp only [hl, hs, GoMap.get?, Option.getD_none, Option.getD_some,
        Option.some.injEq] at h
      rw [← h]
      simp

theorem materialize_pairs (env : SearchEnv F) (idx : InvertedIndex) (tokens : List String)
    (l : List (String × F)) (results : List (Result F))
    (h : materialize env idx tokens l = some results) :
    results.map (fun r => (r.DocID, r.Score)) =
      l.filter (fun e => (idx.Document e.1).isSome) := by
  induction l generalizing results with
  | nil =>
    simp only [materialize, Option.some.injEq] at h
    subst h
    rfl
  | cons e rest ih =>
    obtain ⟨docID, score⟩ := e
    unfold materialize at h
    cases hdoc : idx.Document docID with
    | none =>
      simp only [hdoc] at h
      simp [List.filter_cons, hdoc, ih results h]
    | some doc =>
      simp only [hdoc] at h
      cases hsn : buildSnippet env.toLower doc.Content tokens with
      | none => simp [hsn] at h
      | some snippet =>
        simp only [hsn] at h
        cases hrest : materialize env idx tokens rest with
        | none => simp [hrest] at h
        | some rs =>
          simp only [hrest, Option.map_some', Option.some.injEq] at h
          subst h
          simp [List.filter_cons, hdoc, ih rs hrest]

theorem insertSorted_perm {α : Type} (less : α → α → Bool) (x : α) (l : List α) :
    (insertSorted less x l).Perm (x :: l) := by
  induction l with
  | nil => exact List.Perm.refl _
  | cons y ys ih =>
    unfold insertSorted
    by_cases h : less y x = true
    · simp only [h, if_true]
      exact (List.Perm.cons y ih).trans (List.Perm.swap x y ys)
    · simp only [h, Bool.false_eq_true, if_false]
      exact List.Perm.refl _

theorem sortSlice_perm {α : Type} (less : α → α → Bool) (l : List α) :
    (sortSlice less l).Perm l := by
  induction l with
  | nil => exact List.Perm.refl _
  | cons x xs ih =>
    show (insertSorted less x (sortSlice less xs)).Perm (x :: xs)
    exact (insertSorted_perm less x _).trans (List.Perm.cons x ih)

theorem insertSorted_sorted {α : Type} (less : α → α → Bool)
    (hasym : ∀ a b, less a b = true → less b a = false)
    (htrans : ∀ a b c, less b a = false → less c b = false → less c a = false)
    (x : α) (l : List α) (hl : l.Pairwise (fun a b => less b a = false)) :
    (insertSorted less x l).Pairwise (fun a b => less b a = false) := by
  induction l with
  | nil => simp [insertSorted]
  | cons y ys ih =>
    rw [List.pairwise_cons] at hl
    unfold insertSorted
    by_cases h : less y x = true
    · simp only [h, if_true, List.pairwise_cons]
      refine ⟨?_, ih hl.2⟩
      intro z hz
      rcases (List.mem_cons.1 ((insertSorted_perm less x ys).mem_iff.1 hz)) with hz | hz
      · rw [hz]
        exact hasym y x h
      · exact hl.1 z hz
    · have h' : less y x = false := by simpa using h
      simp only [h, Bool.false_eq_true, if_false, List.pairwise_cons]
      refine ⟨?_, hl.1, hl.2⟩
      intro z hz
      rcases List.mem_cons.1 hz with hz | hz
      · rw [hz]
        exact h'
      · exact htrans x y z h' (hl.1 z hz)

theorem sortSlice_sorted {α : Type} (less : α → α → Bool)
    (hasym : ∀ a b, less a b = true → less b a = false)
    (htrans : ∀ a b c, less b a = false → less c b = false → less c a = false)
    (l : List α) : (sortSlice less l).Pairwise (fun a b => less b a = false) := by
  induction l with
  | nil => exact List.Pairwise.nil
  | cons x xs ih => exact insertSorted_sorted less hasym htrans x _ ih

theorem resultLess_iff (a b : Result F) :
    resultLess a b = true ↔ a.Score > b.Score ∨ (a.Score = b.Score ∧ a.DocID < b.DocID) := by
  unfold resultLess
  by_cases h : a.Score = b.Score
  · simp [h]
  · simp [h]

theorem resultLess_asymm (a b : Result F) (h : resultLess a b = true) :
    resultLess b a = false := by
  rw [← Bool.not_eq_true, resultLess_iff]
  rw [resultLess_iff] at h
  rintro (h' | ⟨h1, h2⟩)
  · rcases h with h | ⟨h, _⟩
    · exact lt_asymm h h'
    · rw [h] at h'
      exact lt_irrefl _ h'
  · rcases h with h | ⟨_, h⟩
    · rw [h1] at h
      exact lt_irrefl _ h
    · exact lt_asymm h h2

theorem resultLess_false_iff (a b : Result F) :
    resultLess b a = false ↔ a.Score > b.Score ∨ (a.Score = b.Score ∧ a.DocID ≤ b.DocID) := by
  rw [← Bool.not_eq_true, resultLess_iff]
  constructor
  · intro h
    rcases lt_trichotomy a.Score b.Score with hlt | heq | hgt
    · exact absurd (Or.inl hlt) h
    · refine Or.inr ⟨heq, ?_⟩
      by_contra hle
      exact h (Or.inr ⟨heq.symm, not_le.1 hle⟩)
    · exact Or.inl hgt
  · rintro (h | ⟨h1, h2⟩) (h' | ⟨h3, h4⟩)
    · exact lt_asymm h h'
    · rw [h3] at h
      exact lt_irrefl _ h
    · rw [h1] at h'
      exact lt_irrefl _ h'
    · exact not_lt.2 h2 h4

theorem resultLess_trans (a b c : Result F) (h1 : resultLess b a = false)
    (h2 : resultLess c b = false) : resultLess c a = false := by
  rw [resultLess_false_iff] at h1 h2 ⊢
  rcases h1 with h1 | ⟨h1, h1'⟩
  · rcases h2 with h2 | ⟨h2, _⟩
    · exact Or.inl (lt_trans h2 h1)
    · exact Or.inl (by rw [← h2]; exact h1)
  · rcases h2 with h2 | ⟨h2, h2'⟩
    · exact Or.inl (by rw [h1]; exact h2)
    · exact Or.inr ⟨h1.trans h2, le_trans h1' h2'⟩

/-- A sorted slice of results with distinct document ids is strictly ordered. -/
theorem sorted_strict (l : List (Result F)) (hnd : (l.map (fun r => r.DocID)).Nodup)
    (hs : l.Pairwise (fun a b => resultLess b a = false)) :
    l.Pairwise (fun a b => a.Score > b.Score ∨ (a.Score = b.Score ∧ a.DocID < b.DocID)) := by
  have hne : l.Pairwise (fun a b => a.DocID ≠ b.DocID) := by
    rw [List.Nodup, List.pairwise_map] at hnd
    exact hnd
  refine (hs.and hne).imp ?_
  rintro a b ⟨h1, h2⟩
  rcases (resultLess_false_iff a b).1 h1 with h | ⟨h, h'⟩
  · exact Or.inl h
  · exact Or.inr ⟨h, lt_of_le_of_ne h' h2⟩

end

/-! ## The claims about `Search` -/

section

variable {F : Type} [LinearOrderedField F]

/-- The body of `Search`, with its three score maps named. -/
theorem Search_eq (env : SearchEnv F) (s : Service F) (query : String) (topK : Int) :
    s.Search env query topK =
      match s.Index with
      | none => some []
      | some idx =>
        if (Tokenize query).length = 0 then some []
        else
          match materialize env idx (Tokenize query)
              (env.combinedOrder.pick (combinedOf env s idx query topK)) with
          | none => none
          | some results =>
            if topK > 0 ∧ ((sortSlice resultLess results).length : Int) > topK then
              some ((sortSlice resultLess results).take topK.toNat)
            else some (sortSlice resultLess results) := by
  unfold Service.Search
  cases s.Index with
  | none => rfl
  | some idx => rfl

/-- Every list `Search` returns is a prefix of the sorted materialized results. -/
theorem Search_some (env : SearchEnv F) (s : Service F) (idx : InvertedIndex) (query : String)
    (topK : Int) (results : List (Result F)) (hidx : s.Index = some idx)
    (h : s.Search env query topK = some results) :
    results = [] ∨ ∃ mat, materialize env idx (Tokenize query)
        (env.combinedOrder.pick (combinedOf env s idx query topK)) = some mat ∧
      (results = sortSlice resultLess mat ∨
        (results = (sortSlice resultLess mat).take topK.toNat ∧ 0 < topK)) := by
  rw [Search_eq, hidx] at h
  simp only at h
  by_cases ht : (Tokenize query).length = 0
  · simp only [ht, if_true, Option.some.injEq] at h
    exact Or.inl h.symm
  · simp only [ht, if_false] at h
    cases hm : materialize env idx (Tokenize query)
        (env.combinedOrder.pick (combinedOf env s idx query topK)) with
    | none => simp [hm] at h
    | some mat =>
      simp only [hm] at h
      refine Or.inr ⟨mat, rfl, ?_⟩
      by_cases hk : topK > 0 ∧ ((sortSlice resultLess mat).length : Int) > topK
      · simp only [hk, and_self, if_true, Option.some.injEq] at h
        exact Or.inr ⟨h.symm, hk.1⟩
      · simp only [hk, if_false, Option.some.injEq] at h
        exact Or.inl h.symm

theorem mem_materialized (env : SearchEnv F) (s : Service F) (idx : InvertedIndex)
    (query : String) (topK : Int) (mat : List (Result F))
    (hm : materialize env idx (Tokenize query)
      (env.combinedOrder.pick (combinedOf env s idx query topK)) = some mat)
    (r : Result F) (hr : r ∈ mat) :
    (combinedOf env s idx query topK).get? r.DocID = some r.Score ∧
      (idx.Document r.DocID).isSome := by
  have hp := materialize_pairs env idx _ _ mat hm
  have hmem : (r.DocID, r.Score) ∈ mat.map (fun r => (r.DocID, r.Score)) :=
    List.mem_map.2 ⟨r, hr, rfl⟩
  rw [hp, List.mem_filter] at hmem
  refine ⟨?_, hmem.2⟩
  exact GoMap.get?_of_mem (combinedOf_nodup env s idx query topK)
    ((env.combinedOrder.perm _).mem_iff.1 hmem.1)

theorem materialized_nodup (env : SearchEnv F) (s : Service F) (idx : InvertedIndex)
    (query : String) (topK : Int) (mat : List (Result F))
    (hm : materialize env idx (Tokenize query)
      (env.combinedOrder.pick (combinedOf env s idx query topK)) = some mat) :
    (mat.map (fun r => r.DocID)).Nodup := by
  have hp := materialize_pairs env idx _ _ mat hm
  have h1 : mat.map (fun r => r.DocID) =
      (mat.map (fun r => (r.DocID, r.Score))).map Prod.fst := by
    rw [List.map_map]
    rfl
  rw [h1, hp]
  have hnd : ((env.combinedOrder.pick (combinedOf env s idx query topK)).map Prod.fst).Nodup :=
    (List.Perm.nodup_iff ((env.combinedOrder.perm _).map Prod.fst)).2
      (combinedOf_nodup env s idx query topK)
  exact List.Nodup.sublist (List.Sublist.map _ (List.filter_sublist _)) hnd

theorem materialize_isSome (env : SearchEnv F) (idx : InvertedIndex) (tokens : List String)
    (hsn : ∀ d doc, idx.Document d = some doc →
      (buildSnippet env.toLower doc.Content tokens).isSome = true)
    (l : List (String × F)) : (materialize env idx tokens l).isSome = true := by
  induction l with
  | nil => rfl
  | cons e rest ih =>
    obtain ⟨docID, score⟩ := e
    unfold materialize
    cases hdoc : idx.Document docID with
    | none => simpa [hdoc] using ih
    | some doc =>
      obtain ⟨snippet, hs⟩ := Option.isSome_iff_exists.1 (hsn docID doc hdoc)
      obtain ⟨rs, hrs⟩ := Option.isSome_iff_exists.1 ih
      simp [hdoc, hs, hrs]

/-- `Search` returns a list whenever `buildSnippet` does not panic on a stored
document. -/
theorem Search_isSome_of_snippets (env : SearchEnv F) (s : Service F) (query : String)
    (topK : Int)
    (hsn : ∀ idx d doc, s.Index = some idx → idx.Document d = some doc →
      (buildSnippet env.toLower doc.Content (Tokenize query)).isSome = true) :
    (s.Search env query topK).isSome = true := by
  rw [Search_eq]
  cases hidx : s.Index with
  | none => rfl
  | some idx =>
    by_cases ht : (Tokenize query).length = 0
    · simp [ht]
    · obtain ⟨mat, hm⟩ := Option.isSome_iff_exists.1
        (materialize_isSome env idx (Tokenize query) (fun d doc h => hsn idx d doc hidx h)
          (env.combinedOrder.pick (combinedOf env s idx query topK)))
      simp only [ht, if_false, hm]
      by_cases hk : topK > 0 ∧ ((sortSlice resultLess mat).length : Int) > topK
      · simp [hk]
      · simp [hk]

/-- C9: for every reachable index state, query and `top_k`, the score of each
result `Search` returns is `lexical_weight · lexical[d] + semantic_weight ·
semantic[d]`, with `lexical[d]` the sum of the BM25 terms over the query
tokens, taken with repetition, whose postings contain `d`, and `semantic[d]`
the score the semantic index reported for `d`, 0 when it is absent or did not
report `d`.  Scores are exact: `float64` is any linearly ordered field. -/
theorem C9_score_is_weighted_sum (env : SearchEnv F) (s : Service F) (calls : List AddCall)
    (query : String) (topK : Int) (results : List (Result F))
    (hidx : s.Index = some (runAdds calls))
    (h : s.Search env query topK = some results) (r : Result F) (hr : r ∈ results) :
    r.Score =
      s.LexicalWeight * specLexical env.ln s (runAdds calls) (Tokenize query) r.DocID +
        s.SemanticWeight * specSemantic s query topK r.DocID := by
  have hwf := (reflects_runAdds calls).wf
  rcases Search_some env s _ query topK results hidx h with hnil | ⟨mat, hm, hres⟩
  · rw [hnil] at hr
    exact absurd hr (List.not_mem_nil _)
  · have hrm : r ∈ mat := by
      rcases hres with hres | ⟨hres, _⟩
      · rw [hres] at hr
        exact (sortSlice_perm resultLess mat).mem_iff.1 hr
      · rw [hres] at hr
        exact (sortSlice_perm resultLess mat).mem_iff.1 (List.mem_of_mem_take hr)
    obtain ⟨hget, hdoc⟩ := mem_materialized env s _ query topK mat hm r hrm
    obtain ⟨doc, hdoc⟩ := Option.isSome_iff_exists.1 hdoc
    rw [combinedOf_get? env s _ query topK r.DocID r.Score hget, semanticScoresOf_getD]
    congr 2
    unfold lexicalScoresOf
    rw [lexicalScores_getD, specLexical_eq_sum]
    congr 1
    apply List.map_congr_left
    intro t _
    exact termContribs_sum env s _ hwf t r.DocID doc hdoc

/-- C10: for every index state, query and `top_k`, the list `Search` returns
is ordered by score descending with ties broken by ascending document id
(any earlier result is strictly before any later one, so consecutive ones
are), holds no document id twice, and has at most `top_k` entries when
`top_k > 0`. -/
theorem C10_results_ordered_distinct_truncated (env : SearchEnv F) (s : Service F)
    (query : String) (topK : Int) (results : List (Result F))
    (h : s.Search env query topK = some results) :
    results.Pairwise
        (fun r r' => r.Score > r'.Score ∨ (r.Score = r'.Score ∧ r.DocID < r'.DocID)) ∧
      (results.map (fun r => r.DocID)).Nodup ∧
      (0 < topK → (results.length : Int) ≤ topK) := by
  cases hidx : s.Index with
  | none =>
    rw [Search_eq, hidx] at h
    simp only [Option.some.injEq] at h
    subst h
    simp only [List.Pairwise.nil, List.map_nil, List.nodup_nil, List.length_nil, true_and]
    intro hk
    exact_mod_cast le_of_lt hk
  | some idx =>
    rcases Search_some env s idx query topK results hidx h with hnil | ⟨mat, hm, hres⟩
    · subst hnil
      simp only [List.Pairwise.nil, List.map_nil, List.nodup_nil, List.length_nil, true_and]
      intro hk
      exact_mod_cast le_of_lt hk
    · have hnd := materialized_nodup env s idx query topK mat hm
      have hnds : ((sortSlice resultLess mat).map (fun r => r.DocID)).Nodup :=
        (List.Perm.nodup_iff ((sortSlice_perm resultLess mat).map _)).2 hnd
      have hsorted := sorted_strict _ hnds
        (sortSlice_sorted resultLess resultLess_asymm resultLess_trans mat)
      rcases hres with hres | ⟨hres, hk⟩
      · subst hres
        refine ⟨hsorted, hnds, ?_⟩
        intro hk
        rw [Search_eq, hidx] at h
        by_contra hlen
        have hgt : topK > 0 ∧ ((sortSlice resultLess mat).length : Int) > topK :=
          ⟨hk, not_le.1 hlen⟩
        by_cases ht : (Tokenize query).length = 0
        · simp only [ht, if_true, Option.some.injEq] at h
          rw [← h] at hlen
          simp at hlen
          omega
        · simp only [ht, if_false, hm, hgt, and_self, if_true, Option.some.injEq] at h
          have := congrArg List.length h
          rw [List.length_take] at this
          omega
      · subst hres
        refine ⟨hsorted.sublist (List.take_sublist _ _),
          List.Nodup.sublist (List.Sublist.map _ (List.take_sublist _ _)) hnds, ?_⟩
        intro _
        rw [List.length_take]
        omega

end

/-! ## The claims at sample data -/

theorem C3_last_writer_wins_witness :
    (⟨"b", "u1", "T1", "x y", [], 0⟩ : Document).ID =
        (⟨"b", "u2", "T2", "y z z", [], 1⟩ : Document).ID ∧
      StateEquiv
        (AddDocument (RangeOrder.backwards _)
          (AddDocument (RangeOrder.stored _) (runAdds demoCalls)
            ⟨"b", "u1", "T1", "x y", [], 0⟩)
          ⟨"b", "u2", "T2", "y z z", [], 1⟩)
        (AddDocument (RangeOrder.stored _) (runAdds demoCalls)
          ⟨"b", "u2", "T2", "y z z", [], 1⟩) :=
  ⟨rfl, C3_last_writer_wins demoCalls (RangeOrder.stored _) (RangeOrder.backwards _)
    (RangeOrder.stored _) ⟨"b", "u1", "T1", "x y", [], 0⟩ ⟨"b", "u2", "T2", "y z z", [], 1⟩ rfl⟩

theorem C8_tokens_lowercase_alnum_witness :
    "tail" ∈ Tokenize "Tail latency hurts Search." ∧
      ("tail".data ≠ [] ∧ ∀ c ∈ "tail".data, isLowerAlnum c = true) :=
  ⟨by decide, C8_tokens_lowercase_alnum "Tail latency hurts Search." "tail" (by decide)⟩

theorem demoService_search :
    demoService.Search demoEnv "vector search" 5 = some [demoTop, demoSecond] := by
  decide!

theorem demoHybrid_search :
    demoHybrid.Search demoEnv "vector search" 1 = some [demoTop] := by
  decide!

theorem C9_score_is_weighted_sum_witness :
    demoService.Index = some (runAdds demoCalls) ∧
      demoService.Search demoEnv "vector search" 5 = some [demoTop, demoSecond] ∧
      demoTop ∈ [demoTop, demoSecond] ∧
      demoTop.Score =
        demoService.LexicalWeight *
            specLexical demoEnv.ln demoService (runAdds demoCalls) (Tokenize "vector search")
              demoTop.DocID +
          demoService.SemanticWeight * specSemantic demoService "vector search" 5 demoTop.DocID :=
  ⟨rfl, demoService_search, List.mem_cons_self _ _,
    C9_score_is_weighted_sum demoEnv demoService demoCalls "vector search" 5
      [demoTop, demoSecond] rfl demoService_search demoTop (List.mem_cons_self _ _)⟩

theorem C10_results_ordered_distinct_truncated_witness :
    demoHybrid.Search demoEnv "vector search" 1 = some [demoTop] ∧ (0 : Int) < 1 ∧
      (([demoTop] : List (Result ℚ)).length : Int) ≤ 1 :=
  ⟨demoHybrid_search, by decide,
    (C10_results_ordered_distinct_truncated demoEnv demoHybrid "vector search" 1 [demoTop]
      demoHybrid_search).2.2 (by decide)⟩

/-! ## `buildSnippet` -/

theorem stringsIndex_ge (hay sub : List UInt8) : -1 ≤ stringsIndex hay sub := by
  induction hay with
  | nil => by_cases h : sub.isEmpty <;> simp [stringsIndex, h]
  | cons b rest ih =>
    unfold stringsIndex
    by_cases hp : sub.isPrefixOf (b :: rest) = true
    · simp [hp]
    · simp only [hp, Bool.false_eq_true, if_false]
      by_cases hr : stringsIndex rest sub < 0
      · simp [hr]
      · simp only [hr, if_false]
        omega

theorem stringsIndex_le (hay sub : List UInt8) : stringsIndex hay sub ≤ (hay.length : Int) := by
  induction hay with
  | nil => by_cases h : sub.isEmpty <;> simp [stringsIndex, h]
  | cons b rest ih =>
    unfold stringsIndex
    by_cases hp : sub.isPrefixOf (b :: rest) = true
    · simp only [hp, if_true, List.length_cons]
      omega
    · simp only [hp, Bool.false_eq_true, if_false, List.length_cons]
      by_cases hr : stringsIndex rest sub < 0
      · simp only [hr, if_true]
        omega
      · simp only [hr, if_false]
        push_cast
        omega

/-- `strings.Index` finds the substring exactly when it occurs. -/
theorem stringsIndex_nonneg_iff (hay sub : List UInt8) :
    0 ≤ stringsIndex hay sub ↔ sub <:+: hay := by
  induction hay with
  | nil =>
    by_cases h : sub.isEmpty
    · have : sub = [] := by simpa using h
      simp [stringsIndex, this]
    · have : sub ≠ [] := by simpa using h
      simp [stringsIndex, this]
  | cons b rest ih =>
    unfold stringsIndex
    rw [List.infix_cons_iff]
    by_cases hp : sub.isPrefixOf (b :: rest) = true
    · simp only [hp, if_true, le_refl, true_iff]
      exact Or.inl (List.isPrefixOf_iff_prefix.1 hp)
    · have hnp : ¬ sub <+: b :: rest := fun h => hp (List.isPrefixOf_iff_prefix.2 h)
      simp only [hp, Bool.false_eq_true, if_false]
      by_cases hr : stringsIndex rest sub < 0
      · simp only [hr, if_true]
        constructor
        · intro h
          omega
        · rintro (h | h)
          · exact absurd h hnp
          · have := ih.2 h
            omega
      · simp only [hr, if_false]
        constructor
        · intro _
          exact Or.inr (ih.1 (by omega))
        · intro _
          omega

/-- `strings.Index` returns the offset of the first occurrence. -/
theorem stringsIndex_first (hay sub : List UInt8) (h : 0 ≤ stringsIndex hay sub) :
    sub <+: hay.drop (stringsIndex hay sub).toNat ∧
      ∀ q : Nat, (q : Int) < stringsIndex hay sub → ¬ sub <+: hay.drop q := by
  induction hay with
  | nil =>
    by_cases he : sub.isEmpty
    · have : sub = [] := by simpa using he
      simp [stringsIndex, this]
    · simp [stringsIndex, he] at h
  | cons b rest ih =>
    unfold stringsIndex at h ⊢
    by_cases hp : sub.isPrefixOf (b :: rest) = true
    · simp only [hp, if_true, Int.toNat_zero, List.drop_zero]
      refine ⟨List.isPrefixOf_iff_prefix.1 hp, ?_⟩
      intro q hq
      omega
    · have hnp : ¬ sub <+: b :: rest := fun h => hp (List.isPrefixOf_iff_prefix.2 h)
      simp only [hp, Bool.false_eq_true, if_false] at h ⊢
      by_cases hr : stringsIndex rest sub < 0
      · simp [hr] at h
      · simp only [hr, if_false] at h ⊢
        have h0 : 0 ≤ stringsIndex rest sub := by omega
        obtain ⟨h1, h2⟩ := ih h0
        have hnat : (stringsIndex rest sub + 1).toNat = (stringsIndex rest sub).toNat + 1 := by
          omega
        refine ⟨by rw [hnat]; simpa using h1, ?_⟩
        intro q hq
        cases q with
        | zero => simpa using hnp
        | succ q =>
          simp only [List.drop_succ_cons]
          apply h2 q
          push_cast at hq
          omega

theorem sliceBytes_prefix (content : List UInt8) (n : Nat) (h : n ≤ content.length) :
    sliceBytes content 0 n = some (content.take n) := by
  unfold sliceBytes
  have : (0 : Int) ≤ 0 ∧ (0 : Int) ≤ (n : Int) ∧ (n : Int) ≤ (content.length : Int) :=
    ⟨le_refl _, by omega, by exact_mod_cast h⟩
  simp [this]

theorem snippetLoop_no_match (content lower : List UInt8) (tokens : List String)
    (h : ∀ t ∈ tokens, stringsIndex lower (utf8Bytes t) < 0) :
    snippetLoop content lower tokens =
      some (if content.length > 80 then content.take 80 else content) := by
  induction tokens with
  | nil =>
    unfold snippetLoop
    by_cases hlen : content.length > 80
    · have h1 : (content.length : Int) > 80 := by exact_mod_cast hlen
      simp only [h1, if_true, hlen]
      exact sliceBytes_prefix content 80 (le_of_lt hlen)
    · have h1 : ¬ (content.length : Int) > 80 := by
        intro h'
        exact hlen (by exact_mod_cast h')
      simp [h1, hlen]
  | cons t rest ih =>
    unfold snippetLoop
    have ht := h t (List.mem_cons_self _ _)
    have : ¬ stringsIndex lower (utf8Bytes t) ≥ 0 := by omega
    simp only [this, if_false]
    exact ih (fun t' ht' => h t' (List.mem_cons_of_mem _ ht'))

/-- The snippet when a token occurs and the slice is in range: the bytes
`[max(0, p-40), min(len(content), p+40))` of the content, for `p` the offset
in the lower-cased content of the first token that occurs there.  The slice
is in range exactly when `p ≤ len(content) + 40`. -/
theorem snippetLoop_first_match (content lower : List UInt8) (before : List String)
    (t : String) (after : List String)
    (hbefore : ∀ t' ∈ before, stringsIndex lower (utf8Bytes t') < 0)
    (ht : 0 ≤ stringsIndex lower (utf8Bytes t)) :
    snippetLoop content lower (before ++ t :: after) =
      if stringsIndex lower (utf8Bytes t) ≤ (content.length : Int) + 40 then
        some ((content.drop (stringsIndex lower (utf8Bytes t) - 40).toNat).take
          ((min (content.length : Int) (stringsIndex lower (utf8Bytes t) + 40)).toNat -
            (stringsIndex lower (utf8Bytes t) - 40).toNat))
      else none := by
  induction before with
  | nil =>
    simp only [List.nil_append]
    unfold snippetLoop
    have hge : stringsIndex lower (utf8Bytes t) ≥ 0 := ht
    simp only [hge, if_true]
    generalize stringsIndex lower (utf8Bytes t) = p at ht hge ⊢
    unfold sliceBytes
    by_cases h1 : p - 40 < 0
    · have hle : p ≤ (content.length : Int) + 40 := by omega
      have hz : (p - 40).toNat = 0 := by omega
      simp only [h1, if_true, hle, hz, List.drop_zero, Nat.sub_zero]
      by_cases h2 : p + 40 > (content.length : Int)
      · have hmin : min (content.length : Int) (p + 40) = (content.length : Int) := by
          rw [min_def]
          simp [le_of_lt h2]
        simp [h2, hmin]
      · have hmin : min (content.length : Int) (p + 40) = p + 40 := by
          rw [min_def]
          have : ¬ (content.length : Int) ≤ p + 40 ∨ (content.length : Int) = p + 40 := by omega
          rcases this with h | h
          · simp [h]
          · simp [h]
        have hb : (0 : Int) ≤ p + 40 ∧ p + 40 ≤ (content.length : Int) := by omega
        simp [h2, hmin, hb]
    · simp only [h1, if_false]
      by_cases h2 : p + 40 > (content.length : Int)
      · have hmin : min (content.length : Int) (p + 40) = (content.length : Int) := by
          rw [min_def]
          simp [le_of_lt h2]
        simp only [h2, if_true, hmin, Int.toNat_ofNat]
        by_cases hle : p ≤ (content.length : Int) + 40
        · have hb : 0 ≤ p - 40 ∧ p - 40 ≤ (content.length : Int) ∧
              (content.length : Int) ≤ (content.length : Int) := by omega
          have hsub : ((content.length : Int) - (p - 40)).toNat =
              content.length - (p - 40).toNat := by omega
          simp [hle, hb, hsub]
        · have hb : ¬ (0 ≤ p - 40 ∧ p - 40 ≤ (content.length : Int) ∧
              (content.length : Int) ≤ (content.length : Int)) := by omega
          simp [hle, hb]
      · have hmin : min (content.length : Int) (p + 40) = p + 40 := by
          rw [min_def]
          have : ¬ (content.length : Int) ≤ p + 40 ∨ (content.length : Int) = p + 40 := by omega
          rcases this with h | h
          · simp [h]
          · simp [h]
        have hle : p ≤ (content.length : Int) + 40 := by omega
        have hb : 0 ≤ p - 40 ∧ p - 40 ≤ p + 40 ∧ p + 40 ≤ (content.length : Int) := by omega
        have hsub : (p + 40 - (p - 40)).toNat = 80 := by omega
        have h80 : (p + 40).toNat - (p - 40).toNat = 80 := by omega
        simp [h2, hmin, hle, hb, hsub, h80]
  | cons t' rest ih =>
    simp only [List.cons_append]
    unfold snippetLoop
    have h' := hbefore t' (List.mem_cons_self _ _)
    have : ¬ stringsIndex lower (utf8Bytes t') ≥ 0 := by omega
    simp only [this, if_false]
    exact ih (fun x hx => hbefore x (List.mem_cons_of_mem _ hx))

/-- The snippet for content in which a token occurs: with `p` the offset,
in the lower-cased content, of the first occurrence of the first token that
occurs there, `buildSnippet` returns the bytes
`[max(0, p-40), min(len(content), p+40))` of the content when
`p ≤ len(content) + 40`, and ends in a run-time panic otherwise. -/
theorem buildSnippet_first_match (toLower : String → String) (content : String)
    (before : List String) (t : String) (after : List String)
    (hne : (utf8Bytes content).length ≠ 0)
    (hbefore : ∀ t' ∈ before, ¬ (utf8Bytes t' <:+: utf8Bytes (toLower content)))
    (ht : utf8Bytes t <:+: utf8Bytes (toLower content)) :
    buildSnippet toLower content (before ++ t :: after) =
      if stringsIndex (utf8Bytes (toLower content)) (utf8Bytes t) ≤
          ((utf8Bytes content).length : Int) + 40 then
        some (((utf8Bytes content).drop
          (stringsIndex (utf8Bytes (toLower content)) (utf8Bytes t) - 40).toNat).take
          ((min ((utf8Bytes content).length : Int)
              (stringsIndex (utf8Bytes (toLower content)) (utf8Bytes t) + 40)).toNat -
            (stringsIndex (utf8Bytes (toLower content)) (utf8Bytes t) - 40).toNat))
      else none := by
  unfold buildSnippet
  simp only [hne, if_false]
  apply snippetLoop_first_match
  · intro t' ht'
    have := hbefore t' ht'
    rw [← stringsIndex_nonneg_iff] at this
    omega
  · exact (stringsIndex_nonneg_iff _ _).2 ht

/-- C12, at the failing input: the index holds one document whose content is
`strings.Repeat("Ⱥ", 44) + "abc"`; `Search("abc", 10)` ends in the run-time
panic of the slice expression of `buildSnippet` instead of returning a result
list. -/
theorem C12_search_panics_on_lengthened_lowercase :
    (NewService (some longIndex) none : Service ℚ).Search sampleEnv "abc" 10 = none := by
  decide!

/-- C15, at the failing input: the token "abc" occurs in the lower-cased
content, first at byte offset 132, the content has 91 bytes, and `buildSnippet`
ends in a run-time panic (the slice `content[92:91]`) instead of returning
the bytes `[92, 91)`. -/
theorem C15_snippet_panics_past_content_end :
    stringsIndex (utf8Bytes (sampleLower longContent)) (utf8Bytes "abc") = 132 ∧
      (utf8Bytes longContent).length = 91 ∧
      buildSnippet sampleLower longContent ["abc"] = none := by
  decide!

/-- C16: for every content and token list in which no token occurs as a
substring of the lower-cased content (an empty token list included),
`buildSnippet` returns the first 80 bytes of the content when it has more
than 80 bytes, and the entire content otherwise. -/
theorem C16_snippet_without_match (toLower : String → String) (content : String)
    (tokens : List String)
    (h : ∀ t ∈ tokens, ¬ (utf8Bytes t <:+: utf8Bytes (toLower content))) :
    buildSnippet toLower content tokens =
      some (if (utf8Bytes content).length > 80 then (utf8Bytes content).take 80
        else utf8Bytes content) := by
  unfold buildSnippet
  by_cases hlen : (utf8Bytes content).length = 0
  · have hnil : utf8Bytes content = [] := List.length_eq_zero.1 hlen
    simp [hnil]
  · simp only [hlen, if_false]
    apply snippetLoop_no_match
    intro t ht
    have := h t ht
    rw [← stringsIndex_nonneg_iff] at this
    omega

theorem C16_snippet_without_match_witness :
    (∀ t ∈ ["zebra", "q"], ¬ (utf8Bytes t <:+: utf8Bytes (sampleLower "Circuit Breakers"))) ∧
      buildSnippet sampleLower "Circuit Breakers" ["zebra", "q"] =
        some (if (utf8Bytes "Circuit Breakers").length > 80 then
          (utf8Bytes "Circuit Breakers").take 80 else utf8Bytes "Circuit Breakers") :=
  ⟨by decide!, C16_snippet_without_match sampleLower "Circuit Breakers" ["zebra", "q"]
    (by decide!)⟩

/-! ## Which documents `Search` returns -/

section SearchMembership

variable {F : Type} [LinearOrderedField F]

theorem materialize_no_documents (env : SearchEnv F) (idx : InvertedIndex)
    (tokens : List String) (hdocs : ∀ d, idx.Document d = none) (l : List (String × F)) :
    materialize env idx tokens l = some [] := by
  induction l with
  | nil => rfl
  | cons e rest ih =>
    obtain ⟨docID, score⟩ := e
    unfold materialize
    simp [hdocs docID, ih]

theorem sortSlice_length {α : Type} (less : α → α → Bool) (l : List α) :
    (sortSlice less l).length = l.length :=
  (sortSlice_perm less l).length_eq

/-- C13: if the inverted index holds no documents, `Search` returns an empty
list for every query and every `top_k`, whatever the semantic index is; and
`Search` returns an empty list whenever `Tokenize(q)` is empty. -/
theorem C13_empty_index_or_empty_query (env : SearchEnv F) (s : Service F) (query : String)
    (topK : Int)
    (h : (∀ idx, s.Index = some idx → idx.DocumentCount = 0) ∨ (Tokenize query).length = 0) :
    s.Search env query topK = some [] := by
  rw [Search_eq]
  cases hidx : s.Index with
  | none => rfl
  | some idx =>
    by_cases ht : (Tokenize query).length = 0
    · simp [ht]
    · rcases h with h | h
      · have hnil : idx.documents = [] := by
          have := h idx hidx
          unfold InvertedIndex.DocumentCount at this
          exact (GoMap.len_eq_zero_iff _).1 this
        have hdocs : ∀ d, idx.Document d = none := by
          intro d
          simp [InvertedIndex.Document, hnil, GoMap.get?]
        simp only [ht, if_false, materialize_no_documents env idx _ hdocs]
        have : ¬ (topK > 0 ∧ ((sortSlice resultLess ([] : List (Result F))).length : Int) > topK) := by
          rintro ⟨h1, h2⟩
          simp only [sortSlice_length, List.length_nil, Nat.cast_zero] at h2
          omega
        simp only [this, if_false]
        rfl
      · exact absurd h ht

theorem mem_materialized_iff (env : SearchEnv F) (s : Service F) (idx : InvertedIndex)
    (query : String) (topK : Int) (mat : List (Result F))
    (hm : materialize env idx (Tokenize query)
      (env.combinedOrder.pick (combinedOf env s idx query topK)) = some mat) (d : String) :
    d ∈ mat.map (fun r => r.DocID) ↔
      ((combinedOf env s idx query topK).get? d).isSome ∧ (idx.Document d).isSome := by
  constructor
  · intro hd
    obtain ⟨r, hr, rfl⟩ := List.mem_map.1 hd
    obtain ⟨h1, h2⟩ := mem_materialized env s idx query topK mat hm r hr
    exact ⟨by simp [h1], h2⟩
  · rintro ⟨h1, h2⟩
    obtain ⟨score, hscore⟩ := Option.isSome_iff_exists.1 h1
    have hp := materialize_pairs env idx _ _ mat hm
    have hmem : (d, score) ∈ (env.combinedOrder.pick (combinedOf env s idx query topK)).filter
        (fun e => (idx.Document e.1).isSome) := by
      rw [List.mem_filter]
      exact ⟨(env.combinedOrder.perm _).mem_iff.2 (GoMap.mem_of_get? hscore), h2⟩
    rw [← hp] at hmem
    obtain ⟨r, hr, hpair⟩ := List.mem_map.1 hmem
    simp only [Prod.mk.injEq] at hpair
    exact List.mem_map.2 ⟨r, hr, hpair.1⟩

theorem materialized_length_le (env : SearchEnv F) (s : Service F) (idx : InvertedIndex)
    (query : String) (topK : Int) (mat : List (Result F))
    (hm : materialize env idx (Tokenize query)
      (env.combinedOrder.pick (combinedOf env s idx query topK)) = some mat) :
    mat.length ≤ idx.documents.length := by
  have hnd := materialized_nodup env s idx query topK mat hm
  have hsub : mat.map (fun r => r.DocID) ⊆ idx.documents.keys := by
    intro d hd
    have := ((mem_materialized_iff env s idx query topK mat hm d).1 hd).2
    exact (GoMap.isSome_get?_iff _ _).1 this
  have := (List.subperm_of_subset hnd hsub).length_le
  simpa [GoMap.keys] using this

theorem lexicalScoresOf_isSome_iff (env : SearchEnv F) (s : Service F) (idx : InvertedIndex)
    (query : String) (d : String) :
    ((lexicalScoresOf env s idx query).get? d).isSome ↔
      ∃ t ∈ Tokenize query,
        ∃ e ∈ termContribs env s idx (idx.DocumentCount : F) (specAvgLen idx) t, e.1 = d := by
  unfold lexicalScoresOf
  rw [scoreTerm_fold, addFold_get? Prod.fst Prod.snd]
  by_cases h : d ∈ ((Tokenize query).flatMap
      (termContribs env s idx (idx.DocumentCount : F) (specAvgLen idx))).map Prod.fst
  · simp only [h, if_true, Option.isSome_some, true_iff]
    obtain ⟨e, he, hed⟩ := List.mem_map.1 h
    obtain ⟨t, ht, het⟩ := List.mem_flatMap.1 he
    exact ⟨t, ht, e, het, hed⟩
  · simp only [h, if_false, GoMap.get?, Option.isSome_none, Bool.false_eq_true, false_iff]
    rintro ⟨t, ht, e, het, hed⟩
    exact h (List.mem_map.2 ⟨e, List.mem_flatMap.2 ⟨t, ht, het⟩, hed⟩)

/-- In a reachable state a query term adds a score for `d` exactly when `d`
is in its postings. -/
theorem termContribs_mem_iff (env : SearchEnv F) (s : Service F) (calls : List AddCall)
    (docCount avgDocLen : F) (t d : String) :
    (∃ e ∈ termContribs env s (runAdds calls) docCount avgDocLen t, e.1 = d) ↔
      (lookup2 (runAdds calls).postings t d).isSome := by
  have hr := reflects_runAdds calls
  have hdocOf : ∀ p, lookup2 (runAdds calls).postings t d = some p →
      ((runAdds calls).Document d).isSome := by
    intro p hp
    rw [hr.posts] at hp
    unfold InvertedIndex.Document
    rw [hr.docs]
    cases hl : lastAdded calls d with
    | none => simp [hl] at hp
    | some doc => simp
  constructor
  · rintro ⟨e, he, hed⟩
    unfold termContribs at he
    by_cases h1 : ((runAdds calls).Postings env.postingsOrder t).length = 0
    · simp [h1] at he
    · by_cases h2 : ((runAdds calls).DocumentFrequency t : F) = 0
      · simp [h1, h2] at he
      · simp only [h1, h2, if_false, List.mem_filterMap] at he
        obtain ⟨p, hp, hpe⟩ := he
        unfold postingContrib at hpe
        cases hdoc : (runAdds calls).Document p.DocID with
        | none => simp [hdoc] at hpe
        | some doc =>
          simp only [hdoc, Option.map_some', Option.some.injEq] at hpe
          have hpd : p.DocID = d := by rw [← hed, ← hpe]
          have := mem_Postings hr.wf hp
          rw [hpd] at this
          simp [this]
  · intro hsome
    obtain ⟨p, hp⟩ := Option.isSome_iff_exists.1 hsome
    obtain ⟨doc, hdoc⟩ := Option.isSome_iff_exists.1 (hdocOf p hp)
    have hfil := filter_Postings env.postingsOrder (runAdds calls) hr.wf t d
    rw [hp] at hfil
    have hpmem : p ∈ (runAdds calls).Postings env.postingsOrder t := by
      have : p ∈ ((runAdds calls).Postings env.postingsOrder t).filter
          (fun p => decide (p.DocID = d)) := by rw [hfil]; simp
      exact List.mem_of_mem_filter this
    have hpd : p.DocID = d := by
      have : p ∈ ((runAdds calls).Postings env.postingsOrder t).filter
          (fun p => decide (p.DocID = d)) := by rw [hfil]; simp
      simpa using (List.mem_filter.1 this).2
    have h1 : ¬ ((runAdds calls).Postings env.postingsOrder t).length = 0 := by
      intro h0
      rw [List.length_eq_zero.1 h0] at hpmem
      exact absurd hpmem (List.not_mem_nil _)
    have h2 : ¬ ((runAdds calls).DocumentFrequency t : F) = 0 := by
      intro h0
      have hdf : (runAdds calls).DocumentFrequency t = 0 := by exact_mod_cast h0
      unfold InvertedIndex.DocumentFrequency at hdf
      unfold lookup2 at hp
      cases hps : (runAdds calls).postings.get? t with
      | none => simp [hps] at hp
      | some entry =>
        rw [hps] at hdf hp
        have := (GoMap.len_eq_zero_iff _).1 hdf
        simp [this, GoMap.get?] at hp
    refine ⟨(d, postingScore s avgDocLen
      (termIdf env.ln docCount ((runAdds calls).DocumentFrequency t : F)) p doc), ?_, rfl⟩
    unfold termContribs
    simp only [h1, h2, if_false, List.mem_filterMap]
    refine ⟨p, hpmem, ?_⟩
    unfold postingContrib
    rw [hpd, hdoc]
    rfl

theorem combinedOf_isSome_of_no_semantic (env : SearchEnv F) (s : Service F)
    (idx : InvertedIndex) (query : String) (topK : Int) (hsem : s.Semantic = none)
    (d : String) :
    ((combinedOf env s idx query topK).get? d).isSome =
      ((lexicalScoresOf env s idx query).get? d).isSome := by
  unfold combinedOf
  have hs : semanticScoresOf s query topK = [] := by
    unfold semanticScoresOf
    rw [hsem]
  rw [pickFold_get? _ _ (semanticScoresOf_nodup s query topK),
    pickFold_get? _ _ (lexicalScoresOf_nodup env s idx query), hs]
  cases (lexicalScoresOf env s idx query).get? d <;> simp [GoMap.get?]

/-- C14: with no semantic index and untruncated output (`top_k ≤ 0`, or
`top_k` at least the number of stored documents), the document ids `Search`
returns are exactly the stored documents whose indexed tokens contain at
least one token of `Tokenize(q)`, whatever their score. -/
theorem C14_results_are_matching_documents (env : SearchEnv F) (s : Service F)
    (calls : List AddCall) (query : String) (topK : Int) (results : List (Result F))
    (hidx : s.Index = some (runAdds calls)) (hsem : s.Semantic = none)
    (hk : topK ≤ 0 ∨ (runAdds calls).DocumentCount ≤ topK)
    (h : s.Search env query topK = some results) (d : String) :
    d ∈ results.map (fun r => r.DocID) ↔
      ∃ doc, lastAdded calls d = some doc ∧
        ∃ t ∈ Tokenize query, t ∈ indexedTokens doc := by
  have hr := reflects_runAdds calls
  have hright : (∃ doc, lastAdded calls d = some doc ∧
      ∃ t ∈ Tokenize query, t ∈ indexedTokens doc) ↔
      ∃ t ∈ Tokenize query, (lookup2 (runAdds calls).postings t d).isSome := by
    constructor
    · rintro ⟨doc, hdoc, t, ht, htd⟩
      refine ⟨t, ht, ?_⟩
      rw [hr.posts, hdoc]
      simp [htd]
    · rintro ⟨t, ht, hsome⟩
      rw [hr.posts] at hsome
      cases hl : lastAdded calls d with
      | none => simp [hl] at hsome
      | some doc =>
        refine ⟨doc, rfl, t, ht, ?_⟩
        by_contra hnot
        simp [hl, hnot] at hsome
  rw [hright]
  rcases Search_some env s _ query topK results hidx h with hnil | ⟨mat, hm, hres⟩
  · -- the query has no tokens, or nothing matched
    subst hnil
    simp only [List.map_nil, List.not_mem_nil, false_iff]
    rintro ⟨t, ht, hsome⟩
    rw [Search_eq, hidx] at h
    have htok : ¬ (Tokenize query).length = 0 := by
      intro h0
      rw [List.length_eq_zero.1 h0] at ht
      exact absurd ht (List.not_mem_nil _)
    simp only [htok, if_false] at h
    cases hm : materialize env (runAdds calls) (Tokenize query)
        (env.combinedOrder.pick (combinedOf env s (runAdds calls) query topK)) with
    | none => simp [hm] at h
    | some mat =>
      have hd : d ∈ mat.map (fun r => r.DocID) := by
        rw [mem_materialized_iff env s _ query topK mat hm,
          combinedOf_isSome_of_no_semantic env s _ query topK hsem,
          lexicalScoresOf_isSome_iff]
        refine ⟨⟨t, ht, (termContribs_mem_iff env s calls _ _ t d).2 hsome⟩, ?_⟩
        rw [hr.posts] at hsome
        unfold InvertedIndex.Document
        rw [hr.docs]
        cases hl : lastAdded calls d with
        | none => simp [hl] at hsome
        | some doc => simp
      have hlen := materialized_length_le env s _ query topK mat hm
      have hne : mat ≠ [] := by
        intro h0
        rw [h0] at hd
        simp at hd
      have hpos : 0 < mat.length := List.length_pos.2 hne
      simp only [hm] at h
      by_cases hgt : topK > 0 ∧ ((sortSlice resultLess mat).length : Int) > topK
      · simp only [hgt, and_self, if_true, Option.some.injEq] at h
        have := congrArg List.length h
        rw [List.length_take, sortSlice_length] at this
        simp only [List.length_nil] at this
        omega
      · simp only [hgt, if_false, Option.some.injEq] at h
        have := congrArg List.length h
        rw [sortSlice_length] at this
        simp only [List.length_nil] at this
        omega
  · have hall : (results.map (fun r => r.DocID)).Perm (mat.map (fun r => r.DocID)) ∨
        (results = (sortSlice resultLess mat).take topK.toNat ∧ 0 < topK) := by
      rcases hres with hres | hres
      · left
        rw [hres]
        exact (sortSlice_perm resultLess mat).map _
      · right
        exact hres
    have hperm : (results.map (fun r => r.DocID)).Perm (mat.map (fun r => r.DocID)) := by
      rcases hall with hp | ⟨hres, hpos⟩
      · exact hp
      · have hlen := materialized_length_le env s _ query topK mat hm
        have hcount : ((runAdds calls).documents.length : Int) ≤ topK := by
          rcases hk with hk | hk
          · omega
          · simpa [InvertedIndex.DocumentCount, GoMap.len] using hk
        have htake : (sortSlice resultLess mat).take topK.toNat = sortSlice resultLess mat := by
          apply List.take_of_length_le
          rw [sortSlice_length]
          omega
        rw [hres, htake]
        exact (sortSlice_perm resultLess mat).map _
    rw [hperm.mem_iff, mem_materialized_iff env s _ query topK mat hm,
      combinedOf_isSome_of_no_semantic env s _ query topK hsem, lexicalScoresOf_isSome_iff]
    constructor
    · rintro ⟨⟨t, ht, hc⟩, _⟩
      exact ⟨t, ht, (termContribs_mem_iff env s calls _ _ t d).1 hc⟩
    · rintro ⟨t, ht, hsome⟩
      refine ⟨⟨t, ht, (termContribs_mem_iff env s calls _ _ t d).2 hsome⟩, ?_⟩
      rw [hr.posts] at hsome
      unfold InvertedIndex.Document
      rw [hr.docs]
      cases hl : lastAdded calls d with
      | none => simp [hl] at hsome
      | some doc => simp

end SearchMembership

/-! ## `Search` does not depend on the order of map iteration -/

section SearchOrder

variable {F : Type} [LinearOrderedField F]

theorem Postings_perm (o₁ o₂ : RangeOrder (String × Posting)) (idx : InvertedIndex)
    (t : String) : (idx.Postings o₁ t).Perm (idx.Postings o₂ t) := by
  rw [Postings_eq, Postings_eq]
  cases idx.postings.get? t with
  | none => exact List.Perm.refl _
  | some entry => exact ((o₁.perm entry).trans (o₂.perm entry).symm).map _

theorem termContribs_perm (env₁ env₂ : SearchEnv F) (hln : env₁.ln = env₂.ln) (s : Service F)
    (idx : InvertedIndex) (docCount avgDocLen : F) (t : String) :
    (termContribs env₁ s idx docCount avgDocLen t).Perm
      (termContribs env₂ s idx docCount avgDocLen t) := by
  have hp := Postings_perm env₁.postingsOrder env₂.postingsOrder idx t
  unfold termContribs
  rw [hp.length_eq, hln]
  by_cases h1 : (idx.Postings env₂.postingsOrder t).length = 0
  · simp [h1]
  · by_cases h2 : (idx.DocumentFrequency t : F) = 0
    · simp [h1, h2]
    · simp only [h1, h2, if_false]
      exact hp.filterMap _

theorem lexicalScoresOf_get?_order (env₁ env₂ : SearchEnv F) (hln : env₁.ln = env₂.ln)
    (s : Service F) (idx : InvertedIndex) (query : String) (d : String) :
    (lexicalScoresOf env₁ s idx query).get? d = (lexicalScoresOf env₂ s idx query).get? d := by
  unfold lexicalScoresOf
  rw [scoreTerm_fold, scoreTerm_fold, addFold_get? Prod.fst Prod.snd,
    addFold_get? Prod.fst Prod.snd]
  have hp : ((Tokenize query).flatMap
      (termContribs env₁ s idx (idx.DocumentCount : F) (specAvgLen idx))).Perm
      ((Tokenize query).flatMap
        (termContribs env₂ s idx (idx.DocumentCount : F) (specAvgLen idx))) :=
    List.Perm.flatMap_left _ (fun t _ => termContribs_perm env₁ env₂ hln s idx _ _ t)
  have hmem := (hp.map Prod.fst).mem_iff (a := d)
  have hsum := (((hp.filter (fun e => decide (e.1 = d))).map Prod.snd).sum_eq)
  by_cases h : d ∈ ((Tokenize query).flatMap
      (termContribs env₂ s idx (idx.DocumentCount : F) (specAvgLen idx))).map Prod.fst
  · simp only [hmem.2 h, h, if_true, hsum]
  · have h' : d ∉ ((Tokenize query).flatMap
        (termContribs env₁ s idx (idx.DocumentCount : F) (specAvgLen idx))).map Prod.fst :=
      fun hx => h (hmem.1 hx)
    rw [if_neg h', if_neg h]

theorem combinedOf_get?_order (env₁ env₂ : SearchEnv F) (hln : env₁.ln = env₂.ln)
    (s : Service F) (idx : InvertedIndex) (query : String) (k1 k2 : Int)
    (hsem : semanticScoresOf s query k1 = semanticScoresOf s query k2) (d : String) :
    (combinedOf env₁ s idx query k1).get? d = (combinedOf env₂ s idx query k2).get? d := by
  unfold combinedOf
  rw [pickFold_get? _ _ (semanticScoresOf_nodup s query k1),
    pickFold_get? _ _ (lexicalScoresOf_nodup env₁ s idx query),
    pickFold_get? _ _ (semanticScoresOf_nodup s query k2),
    pickFold_get? _ _ (lexicalScoresOf_nodup env₂ s idx query),
    lexicalScoresOf_get?_order env₁ env₂ hln, hsem]

theorem materialize_eq_filterMap (env : SearchEnv F) (idx : InvertedIndex)
    (tokens : List String) (l : List (String × F)) (results : List (Result F))
    (h : materialize env idx tokens l = some results) :
    results = l.filterMap (resultOf env.toLower idx tokens) := by
  induction l generalizing results with
  | nil =>
    simp only [materialize, Option.some.injEq] at h
    subst h
    rfl
  | cons e rest ih =>
    obtain ⟨docID, score⟩ := e
    unfold materialize at h
    cases hdoc : idx.Document docID with
    | none =>
      simp only [hdoc] at h
      simp [List.filterMap_cons, resultOf, hdoc, ih results h]
    | some doc =>
      simp only [hdoc] at h
      cases hsn : buildSnippet env.toLower doc.Content tokens with
      | none => simp [hsn] at h
      | some snippet =>
        simp only [hsn] at h
        cases hrest : materialize env idx tokens rest with
        | none => simp [hrest] at h
        | some rs =>
          simp only [hrest, Option.map_some', Option.some.injEq] at h
          subst h
          simp [List.filterMap_cons, resultOf, hdoc, hsn, ih rs hrest]

/-- Two strictly ordered result lists with the same entries are equal. -/
theorem strict_sorted_unique (l₁ l₂ : List (Result F)) (hp : l₁.Perm l₂)
    (h₁ : l₁.Pairwise
      (fun a b => a.Score > b.Score ∨ (a.Score = b.Score ∧ a.DocID < b.DocID)))
    (h₂ : l₂.Pairwise
      (fun a b => a.Score > b.Score ∨ (a.Score = b.Score ∧ a.DocID < b.DocID))) :
    l₁ = l₂ := by
  haveI : IsAntisymm (Result F)
      (fun a b => a.Score > b.Score ∨ (a.Score = b.Score ∧ a.DocID < b.DocID)) := by
    constructor
    intro a b hab hba
    exfalso
    rcases hab with h | ⟨h, h'⟩
    · rcases hba with g | ⟨g, _⟩
      · exact lt_asymm h g
      · rw [g] at h
        exact lt_irrefl _ h
    · rcases hba with g | ⟨_, g'⟩
      · rw [h] at g
        exact lt_irrefl _ g
      · exact lt_asymm h' g'
  exact List.eq_of_perm_of_sorted hp h₁ h₂

/-- For a positive `top_k` and a query with tokens, the list `Search` returns
is the first `top_k` entries of the sorted materialized results. -/
theorem Search_some_take (env : SearchEnv F) (s : Service F) (idx : InvertedIndex)
    (query : String) (topK : Int) (results : List (Result F)) (hidx : s.Index = some idx)
    (htok : ¬ (Tokenize query).length = 0) (hk : 0 < topK)
    (h : s.Search env query topK = some results) :
    ∃ mat, materialize env idx (Tokenize query)
        (env.combinedOrder.pick (combinedOf env s idx query topK)) = some mat ∧
      results = (sortSlice resultLess mat).take topK.toNat := by
  rw [Search_eq, hidx] at h
  simp only [htok, if_false] at h
  cases hm : materialize env idx (Tokenize query)
      (env.combinedOrder.pick (combinedOf env s idx query topK)) with
  | none => simp [hm] at h
  | some mat =>
    simp only [hm] at h
    refine ⟨mat, rfl, ?_⟩
    by_cases hgt : topK > 0 ∧ ((sortSlice resultLess mat).length : Int) > topK
    · simp only [hgt, and_self, if_true, Option.some.injEq] at h
      exact h.symm
    · simp only [hgt, if_false, Option.some.injEq] at h
      rw [← h]
      symm
      apply List.take_of_length_le
      have : ¬ ((sortSlice resultLess mat).length : Int) > topK := fun h' => hgt ⟨hk, h'⟩
      omega

/-- The sorted materialized results are the same for two runs that differ in
the order of map iteration and in `top_k`, as long as the semantic scores are
the same. -/
theorem sorted_materialized_order (env₁ env₂ : SearchEnv F) (hln : env₁.ln = env₂.ln)
    (hlow : env₁.toLower = env₂.toLower) (s : Service F) (idx : InvertedIndex)
    (query : String) (k1 k2 : Int)
    (hsem : semanticScoresOf s query k1 = semanticScoresOf s query k2)
    (mat₁ mat₂ : List (Result F))
    (hm₁ : materialize env₁ idx (Tokenize query)
      (env₁.combinedOrder.pick (combinedOf env₁ s idx query k1)) = some mat₁)
    (hm₂ : materialize env₂ idx (Tokenize query)
      (env₂.combinedOrder.pick (combinedOf env₂ s idx query k2)) = some mat₂) :
    sortSlice resultLess mat₁ = sortSlice resultLess mat₂ := by
  have hc : (combinedOf env₁ s idx query k1).Perm (combinedOf env₂ s idx query k2) :=
    GoMap.perm_of_get?_eq (combinedOf_nodup env₁ s idx query k1)
      (combinedOf_nodup env₂ s idx query k2)
      (combinedOf_get?_order env₁ env₂ hln s idx query k1 k2 hsem)
  have hl : (env₁.combinedOrder.pick (combinedOf env₁ s idx query k1)).Perm
      (env₂.combinedOrder.pick (combinedOf env₂ s idx query k2)) :=
    ((env₁.combinedOrder.perm _).trans hc).trans (env₂.combinedOrder.perm _).symm
  have hmat : mat₁.Perm mat₂ := by
    rw [materialize_eq_filterMap env₁ idx _ _ mat₁ hm₁,
      materialize_eq_filterMap env₂ idx _ _ mat₂ hm₂, hlow]
    exact hl.filterMap _
  have hs : (sortSlice resultLess mat₁).Perm (sortSlice resultLess mat₂) :=
    ((sortSlice_perm resultLess mat₁).trans hmat).trans (sortSlice_perm resultLess mat₂).symm
  have hnd₁ : ((sortSlice resultLess mat₁).map (fun r => r.DocID)).Nodup :=
    (List.Perm.nodup_iff ((sortSlice_perm resultLess mat₁).map _)).2
      (materialized_nodup env₁ s idx query k1 mat₁ hm₁)
  have hnd₂ : ((sortSlice resultLess mat₂).map (fun r => r.DocID)).Nodup :=
    (List.Perm.nodup_iff ((sortSlice_perm resultLess mat₂).map _)).2
      (materialized_nodup env₂ s idx query k2 mat₂ hm₂)
  exact strict_sorted_unique _ _ hs
    (sorted_strict _ hnd₁ (sortSlice_sorted resultLess resultLess_asymm resultLess_trans mat₁))
    (sorted_strict _ hnd₂ (sortSlice_sorted resultLess resultLess_asymm resultLess_trans mat₂))

/-- Two runs of `Search` that receive the same answers from the semantic
index: for `0 < k1 < k2`, when the answer for the limit `max(k1, 10)` is the
answer for the limit `max(k2, 10)`, the list `Search(q, k1)` returns is a
prefix of the list `Search(q, k2)` returns, whatever the order of map
iteration of `Search` in either run. -/
theorem Search_prefix_of_same_answers (env₁ env₂ : SearchEnv F) (hln : env₁.ln = env₂.ln)
    (hlow : env₁.toLower = env₂.toLower) (s : Service F) (query : String) (k1 k2 : Int)
    (hk1 : 0 < k1) (hk : k1 < k2)
    (hsem : ∀ semanticQuery, s.Semantic = some semanticQuery →
      semanticQuery query (if k1 < 10 then 10 else k1) =
        semanticQuery query (if k2 < 10 then 10 else k2))
    (R1 R2 : List (Result F)) (h1 : s.Search env₁ query k1 = some R1)
    (h2 : s.Search env₂ query k2 = some R2) : R1 <+: R2 := by
  cases hidx : s.Index with
  | none =>
    rw [Search_eq, hidx] at h1
    simp only [Option.some.injEq] at h1
    subst h1
    exact List.nil_prefix
  | some idx =>
    by_cases htok : (Tokenize query).length = 0
    · rw [Search_eq, hidx] at h1
      simp only [htok, if_true, Option.some.injEq] at h1
      subst h1
      exact List.nil_prefix
    · obtain ⟨mat₁, hm₁, hR1⟩ := Search_some_take env₁ s idx query k1 R1 hidx htok hk1 h1
      obtain ⟨mat₂, hm₂, hR2⟩ :=
        Search_some_take env₂ s idx query k2 R2 hidx htok (lt_trans hk1 hk) h2
      have hsem' : semanticScoresOf s query k1 = semanticScoresOf s query k2 := by
        unfold semanticScoresOf
        cases hs : s.Semantic with
        | none => rfl
        | some semanticQuery =>
          simp only
          rw [hsem semanticQuery hs]
      rw [hR1, hR2,
        sorted_materialized_order env₁ env₂ hln hlow s idx query k1 k2 hsem' mat₁ mat₂ hm₁ hm₂]
      apply List.take_prefix_take_left
      omega

end SearchOrder

/-! ## The semantic index -/

section SemanticIndex

open Semantic

variable {F : Type} [LinearOrderedField F]

theorem uniqueLoop_spec (seen : GoMap Unit) (unique l : List String)
    (hnd : unique.Nodup) (hseen : ∀ id, (seen.get? id).isSome ↔ id ∈ unique) :
    (uniqueLoop seen unique l).Nodup ∧
      ∀ id, id ∈ uniqueLoop seen unique l ↔ id ∈ unique ∨ id ∈ l := by
  induction l generalizing seen unique with
  | nil => simp [uniqueLoop, hnd]
  | cons a rest ih =>
    unfold uniqueLoop
    cases hget : seen.get? a with
    | some u =>
      have ha : a ∈ unique := (hseen a).1 (by simp [hget])
      obtain ⟨h1, h2⟩ := ih seen unique hnd hseen
      refine ⟨h1, fun id => ?_⟩
      rw [h2 id]
      constructor
      · rintro (h | h)
        · exact Or.inl h
        · exact Or.inr (List.mem_cons_of_mem _ h)
      · rintro (h | h)
        · exact Or.inl h
        · rcases List.mem_cons.1 h with h | h
          · exact Or.inl (h ▸ ha)
          · exact Or.inr h
    | none =>
      have ha : a ∉ unique := by
        intro h
        have := (hseen a).2 h
        simp [hget] at this
      have hnd' : (unique ++ [a]).Nodup :=
        List.Nodup.append hnd (List.nodup_singleton a) (by simpa using ha)
      have hseen' : ∀ id, ((seen.set a ()).get? id).isSome ↔ id ∈ unique ++ [a] := by
        intro id
        rw [GoMap.get?_set]
        by_cases hid : id = a
        · simp [hid]
        · simp [hid, hseen id]
      obtain ⟨h1, h2⟩ := ih (seen.set a ()) (unique ++ [a]) hnd' hseen'
      refine ⟨h1, fun id => ?_⟩
      rw [h2 id]
      simp only [List.mem_append, List.mem_singleton, List.mem_cons]
      tauto

theorem scoreFold_eq (sqrt : F → F) (i : Index F) (vec : Vector F) (unique : List String)
    (init : List (Candidate F)) :
    unique.foldl (fun scores id =>
      match i.vectors.get? id with
      | none => scores
      | some vecDoc => scores ++ [{ DocID := id, Score := cosineSimilarity sqrt vec vecDoc }])
      init = init ++ unique.filterMap (scoredCandidate sqrt i vec) := by
  induction unique generalizing init with
  | nil => simp
  | cons a rest ih =>
    rw [List.foldl_cons, ih]
    unfold scoredCandidate
    cases h : i.vectors.get? a with
    | none => simp [List.filterMap_cons, h]
    | some v => simp [List.filterMap_cons, h]

theorem map_DocID_filterMap_scored (sqrt : F → F) (i : Index F) (vec : Vector F)
    (unique : List String) :
    (unique.filterMap (scoredCandidate sqrt i vec)).map (fun c => c.DocID) =
      unique.filter (fun id => (i.vectors.get? id).isSome) := by
  induction unique with
  | nil => rfl
  | cons a rest ih =>
    unfold scoredCandidate at ih ⊢
    cases h : i.vectors.get? a with
    | none => simp [List.filterMap_cons, List.filter_cons, h, ih]
    | some v => simp [List.filterMap_cons, List.filter_cons, h, ih]

/-- What `scoreCandidates` returns: the distinct candidates that have a stored
vector, each with its cosine similarity to the query vector. -/
theorem scoreCandidates_spec (env : QueryEnv F) (i : Index F) (vec : Vector F) (topK : Int) :
    ((i.scoreCandidates env vec topK).map (fun c => c.DocID)).Nodup ∧
      ∀ c ∈ i.scoreCandidates env vec topK,
        ∃ vecDoc, i.vectors.get? c.DocID = some vecDoc ∧
          c.Score = cosineSimilarity env.sqrt vec vecDoc := by
  unfold Index.scoreCandidates
  simp only [scoreFold_eq, List.nil_append]
  constructor
  · rw [map_DocID_filterMap_scored]
    exact List.Nodup.sublist (List.filter_sublist _)
      (uniqueLoop_spec [] [] _ List.nodup_nil (by simp [GoMap.get?])).1
  · intro c hc
    obtain ⟨id, _, hid⟩ := List.mem_filterMap.1 hc
    unfold scoredCandidate at hid
    cases hv : i.vectors.get? id with
    | none => simp [hv] at hid
    | some v =>
      simp only [hv, Option.map_some', Option.some.injEq] at hid
      subst hid
      exact ⟨v, hv, rfl⟩

theorem candidateLess_eq (a b : Candidate F) :
    candidateLess a b = resultLess (candidateResult a) (candidateResult b) := rfl

theorem candidates_sorted_strict (l : List (Candidate F))
    (hnd : (l.map (fun c => c.DocID)).Nodup) :
    (sortSlice candidateLess l).Pairwise
      (fun a b => a.Score > b.Score ∨ (a.Score = b.Score ∧ a.DocID < b.DocID)) := by
  have hs : (sortSlice candidateLess l).Pairwise (fun a b => candidateLess b a = false) :=
    sortSlice_sorted candidateLess
      (fun a b h => resultLess_asymm (candidateResult a) (candidateResult b) h)
      (fun a b c h1 h2 =>
        resultLess_trans (candidateResult a) (candidateResult b) (candidateResult c) h1 h2) l
  have hnds : ((sortSlice candidateLess l).map (fun c => c.DocID)).Nodup :=
    (List.Perm.nodup_iff ((sortSlice_perm candidateLess l).map _)).2 hnd
  have hne : (sortSlice candidateLess l).Pairwise (fun a b => a.DocID ≠ b.DocID) := by
    rw [List.Nodup, List.pairwise_map] at hnds
    exact hnds
  refine (hs.and hne).imp ?_
  rintro a b ⟨h1, h2⟩
  rcases (resultLess_false_iff (candidateResult a) (candidateResult b)).1 h1 with h | ⟨h, h'⟩
  · exact Or.inl h
  · exact Or.inr ⟨h, lt_of_le_of_ne h' h2⟩

/-- The body of `Query` once the query vector is known. -/
theorem Query_eq (env : QueryEnv F) (i : Index F) (query : String) (topK : Int)
    (vec : Vector F) (hvec : i.embedder.EmbedText query = some vec) :
    i.Query env query topK =
      if vec.length = 0 then some []
      else if topK > 0 ∧
          ((sortSlice candidateLess (i.scoreCandidates env vec topK)).length : Int) > topK then
        some ((sortSlice candidateLess (i.scoreCandidates env vec topK)).take topK.toNat)
      else some (sortSlice candidateLess (i.scoreCandidates env vec topK)) := by
  unfold Index.Query
  rw [hvec]

/-- C17: for every semantic index state, query and `top_k`, the list
`Index.Query` returns is ordered by score descending with ties broken by
ascending document id, holds no document id twice, holds only ids that have a
stored vector, has at most `top_k` entries when `top_k > 0`, and holds all the
scored candidates when `top_k ≤ 0`. -/
theorem C17_query_sorted_distinct_stored (env : QueryEnv F) (i : Index F) (query : String)
    (topK : Int) (results : List (Candidate F))
    (h : i.Query env query topK = some results) :
    results.Pairwise
        (fun a b => a.Score > b.Score ∨ (a.Score = b.Score ∧ a.DocID < b.DocID)) ∧
      (results.map (fun c => c.DocID)).Nodup ∧
      (∀ c ∈ results, (i.vectors.get? c.DocID).isSome = true) ∧
      (0 < topK → (results.length : Int) ≤ topK) ∧
      (topK ≤ 0 → ∀ vec, i.embedder.EmbedText query = some vec →
        results.Perm (if vec.length = 0 then [] else i.scoreCandidates env vec topK)) := by
  cases hvec : (i.embedder.EmbedText query : Option (Vector F)) with
  | none =>
    unfold Index.Query at h
    rw [hvec] at h
    simp at h
  | some vec =>
    rw [Query_eq env i query topK vec hvec] at h
    by_cases hlen : vec.length = 0
    · simp only [hlen, if_true, Option.some.injEq] at h
      subst h
      refine ⟨List.Pairwise.nil, List.nodup_nil, by simp, ?_, ?_⟩
      · intro hk
        simp only [List.length_nil, Nat.cast_zero]
        exact le_of_lt hk
      · intro _ vec' hvec'
        simp only [Option.some.injEq] at hvec'
        subst hvec'
        simp [hlen]
    · simp only [hlen, if_false] at h
      obtain ⟨hnd, hstored⟩ := scoreCandidates_spec env i vec topK
      have hsorted := candidates_sorted_strict _ hnd
      have hperm := sortSlice_perm candidateLess (i.scoreCandidates env vec topK)
      have hnds : ((sortSlice candidateLess (i.scoreCandidates env vec topK)).map
          (fun c => c.DocID)).Nodup := (List.Perm.nodup_iff (hperm.map _)).2 hnd
      by_cases hgt : topK > 0 ∧
          ((sortSlice candidateLess (i.scoreCandidates env vec topK)).length : Int) > topK
      · simp only [hgt, and_self, if_true, Option.some.injEq] at h
        subst h
        refine ⟨hsorted.sublist (List.take_sublist _ _),
          List.Nodup.sublist (List.Sublist.map _ (List.take_sublist _ _)) hnds, ?_, ?_, ?_⟩
        · intro c hc
          obtain ⟨v, hv, _⟩ := hstored c (hperm.mem_iff.1 (List.mem_of_mem_take hc))
          simp [hv]
        · intro _
          rw [List.length_take]
          omega
        · intro hk
          omega
      · simp only [hgt, if_false, Option.some.injEq] at h
        subst h
        refine ⟨hsorted, hnds, ?_, ?_, ?_⟩
        · intro c hc
          obtain ⟨v, hv, _⟩ := hstored c (hperm.mem_iff.1 hc)
          simp [hv]
        · intro hk
          by_contra hlt
          exact hgt ⟨hk, not_le.1 hlt⟩
        · intro _ vec' hvec'
          simp only [Option.some.injEq] at hvec'
          subst hvec'
          simpa [hlen] using hperm

theorem EmbedText_no_tokens (h : HashingEmbedder) (text : String)
    (ht : (Tokenize text).length = 0) :
    (h.EmbedText text : Option (Vector F)) =
      if h.dimension < 0 then none else some (List.replicate h.dimension.toNat 0) := by
  unfold HashingEmbedder.EmbedText HashingEmbedder.EmbedTokens
  rw [List.length_eq_zero.1 ht]
  rfl

theorem dot_zero_left (n : Nat) (v : Vector F) : dot (List.replicate n (0 : F)) v = 0 := by
  unfold dot
  have hz : ∀ (l : List F), (∀ x ∈ l, x = 0) → l.foldl (fun sum p => sum + p) 0 = 0 := by
    intro l
    induction l with
    | nil => intro _; rfl
    | cons a r ih =>
      intro hl
      have ha : a = 0 := hl a (List.mem_cons_self _ _)
      rw [List.foldl_cons, ha, add_zero]
      exact ih (fun x hx => hl x (List.mem_cons_of_mem _ hx))
  apply hz
  intro x hx
  induction n generalizing v with
  | zero => simp at hx
  | succ n ih =>
    cases v with
    | nil => simp at hx
    | cons b v' =>
      simp only [List.replicate_succ, List.zipWith_cons_cons, zero_mul, List.mem_cons] at hx
      rcases hx with hx | hx
      · exact hx
      · exact ih v' hx

theorem cosineSimilarity_zero_left (sqrt : F → F) (n : Nat) (v : Vector F) :
    cosineSimilarity sqrt (List.replicate n (0 : F)) v = 0 := by
  unfold cosineSimilarity
  simp only [dot_zero_left, zero_div, ite_self]

/-- C18, amended: for every semantic index state and every `top_k`, if
`Tokenize(query)` is empty, every result `Index.Query` returns has score 0,
and the list is empty when the dimension of the embedder is 0. -/
theorem C18_zero_query_scores_zero (env : QueryEnv F) (i : Index F) (query : String)
    (topK : Int) (results : List (Candidate F)) (ht : (Tokenize query).length = 0)
    (h : i.Query env query topK = some results) :
    (∀ c ∈ results, c.Score = 0) ∧ (i.embedder.dimension = 0 → results = []) := by
  have hvec := EmbedText_no_tokens (F := F) i.embedder query ht
  by_cases hneg : i.embedder.dimension < 0
  · simp only [hneg, if_true] at hvec
    unfold Index.Query at h
    rw [hvec] at h
    simp at h
  · simp only [hneg, if_false] at hvec
    rw [Query_eq env i query topK _ hvec] at h
    constructor
    · intro c hc
      by_cases hlen : (List.replicate i.embedder.dimension.toNat (0 : F)).length = 0
      · simp only [hlen, if_true, Option.some.injEq] at h
        rw [← h] at hc
        exact absurd hc (List.not_mem_nil _)
      · simp only [hlen, if_false] at h
        have hmem : c ∈ i.scoreCandidates env
            (List.replicate i.embedder.dimension.toNat (0 : F)) topK := by
          have hperm := sortSlice_perm candidateLess (i.scoreCandidates env
            (List.replicate i.embedder.dimension.toNat (0 : F)) topK)
          by_cases hgt : topK > 0 ∧ ((sortSlice candidateLess (i.scoreCandidates env
              (List.replicate i.embedder.dimension.toNat (0 : F)) topK)).length : Int) > topK
          · simp only [hgt, and_self, if_true, Option.some.injEq] at h
            rw [← h] at hc
            exact hperm.mem_iff.1 (List.mem_of_mem_take hc)
          · simp only [hgt, if_false, Option.some.injEq] at h
            rw [← h] at hc
            exact hperm.mem_iff.1 hc
        obtain ⟨v, _, hscore⟩ := (scoreCandidates_spec env i _ topK).2 c hmem
        rw [hscore, cosineSimilarity_zero_left]
    · intro hdim
      have hlen : (List.replicate i.embedder.dimension.toNat (0 : F)).length = 0 := by
        simp [hdim]
      simp only [hlen, if_true, Option.some.injEq] at h
      exact h.symm

end SemanticIndex

/-! ## The claims about `Search` and the semantic index at sample data -/

theorem planeIndex_addAll :
    planeIndex.addAll [docDa, docDb, docE] = some planeIndexFilled := by
  decide!

theorem planeIndexFilled_query_punctuation :
    planeIndexFilled.Query sampleQueryEnv "?!" 10 = some [⟨"d", 0⟩, ⟨"e", 0⟩] := by
  decide!

theorem C13_empty_index_or_empty_query_witness :
    ((∀ idx, (NewService (some NewInvertedIndex) (some (rankSemantic.queryMethod
          sampleQueryEnv)) : Service ℚ).Index = some idx → idx.DocumentCount = 0) ∨
        (Tokenize "anything").length = 0) ∧
      (NewService (some NewInvertedIndex) (some (rankSemantic.queryMethod sampleQueryEnv)) :
        Service ℚ).Search demoEnv "anything" 10 = some [] :=
  have h : (∀ idx, (NewService (some NewInvertedIndex) (some (rankSemantic.queryMethod
        sampleQueryEnv)) : Service ℚ).Index = some idx → idx.DocumentCount = 0) ∨
      (Tokenize "anything").length = 0 := by
    left
    intro idx hidx
    simp only [NewService, Option.some.injEq] at hidx
    rw [← hidx]
    rfl
  ⟨h, C13_empty_index_or_empty_query demoEnv _ "anything" 10 h⟩

theorem C14_results_are_matching_documents_witness :
    demoService.Index = some (runAdds demoCalls) ∧ demoService.Semantic = none ∧
      ((5 : Int) ≤ 0 ∨ (runAdds demoCalls).DocumentCount ≤ 5) ∧
      demoService.Search demoEnv "vector search" 5 = some [demoTop, demoSecond] ∧
      ("c" ∈ [demoTop, demoSecond].map (fun r => r.DocID) ↔
        ∃ doc, lastAdded demoCalls "c" = some doc ∧
          ∃ t ∈ Tokenize "vector search", t ∈ indexedTokens doc) :=
  ⟨rfl, rfl, Or.inr (by decide), demoService_search,
    C14_results_are_matching_documents demoEnv demoService demoCalls "vector search" 5
      [demoTop, demoSecond] rfl rfl (Or.inr (by decide)) demoService_search "c"⟩

theorem C17_query_sorted_distinct_stored_witness :
    planeIndexFilled.Query sampleQueryEnv "?!" 10 = some [⟨"d", 0⟩, ⟨"e", 0⟩] ∧
      (0 : Int) < 10 ∧ (([⟨"d", 0⟩, ⟨"e", 0⟩] : List (Candidate ℚ)).length : Int) ≤ 10 :=
  ⟨planeIndexFilled_query_punctuation, by decide,
    (C17_query_sorted_distinct_stored sampleQueryEnv planeIndexFilled "?!" 10
      [⟨"d", 0⟩, ⟨"e", 0⟩] planeIndexFilled_query_punctuation).2.2.2.1 (by decide)⟩

/-- C18 as stated fails: the query "?!" has no tokens, so it embeds to the
zero vector of dimension 2, and `Query` returns both stored documents with
score 0 instead of an empty list. -/
theorem C18_zero_query_counterexample :
    (Tokenize "?!").length = 0 ∧
      planeIndexFilled.Query sampleQueryEnv "?!" 10 = some [⟨"d", 0⟩, ⟨"e", 0⟩] ∧
      ([⟨"d", 0⟩, ⟨"e", 0⟩] : List (Candidate ℚ)) ≠ [] := by
  decide!

theorem C18_zero_query_scores_zero_witness :
    (Tokenize "?!").length = 0 ∧
      planeIndexFilled.Query sampleQueryEnv "?!" 10 = some [⟨"d", 0⟩, ⟨"e", 0⟩] ∧
      ∀ c ∈ ([⟨"d", 0⟩, ⟨"e", 0⟩] : List (Candidate ℚ)), c.Score = 0 :=
  ⟨by decide, planeIndexFilled_query_punctuation,
    (C18_zero_query_scores_zero sampleQueryEnv planeIndexFilled "?!" 10 [⟨"d", 0⟩, ⟨"e", 0⟩]
      (by decide) planeIndexFilled_query_punctuation).1⟩

/-- C19 as stated fails: the index has dimension 2 and the content "?!" yields
no token, yet `AddDocument` stores the zero vector for "z" and puts "z" into
the bucket of the signature "1". -/
theorem C19_no_token_document_counterexample :
    (Tokenize "?!").length = 0 ∧
      planeIndex.AddDocument ⟨"z", "", "", "?!", [], 0⟩ =
        some { planeIndex with vectors := [("z", [0, 0])], buckets := [("1", [("z", ())])] } ∧
      planeIndex.vectors = [] ∧ planeIndex.buckets = [] := by
  decide!

/-- C20, at the failing input: after `AddDocument` of "d" with content "a",
of "d" again with content "b" and of "e", the id "d" has a stored vector and
is in the buckets of the two signatures "1" and "0", so there is not exactly
one bucket that contains it. -/
theorem C20_readded_id_in_two_buckets :
    planeIndex.addAll [docDa, docDb, docE] = some planeIndexFilled ∧
      (planeIndexFilled.vectors.get? "d").isSome = true ∧
      inBucket planeIndexFilled "1" "d" ∧ inBucket planeIndexFilled "0" "d" ∧
      ¬ ∃! sig, inBucket planeIndexFilled sig "d" := by
  have h1 : inBucket planeIndexFilled "1" "d" :=
    ⟨[("d", ()), ("e", ())], by decide!, by decide!⟩
  have h0 : inBucket planeIndexFilled "0" "d" := ⟨[("d", ())], by decide!, by decide!⟩
  refine ⟨planeIndex_addAll, by decide!, h1, h0, ?_⟩
  rintro ⟨sig, _, huniq⟩
  have e1 := huniq "1" h1
  have e0 := huniq "0" h0
  rw [← e0] at e1
  exact absurd e1 (by decide)

/-! ## The embedder does not panic for a dimension between 1 and 2^32 - 1 -/

section EmbedderTotal

open Semantic

variable {F : Type} [LinearOrderedField F]

theorem embedToken_some (h : HashingEmbedder) (hpos : 0 < h.dimension)
    (hlt : h.dimension < 2 ^ 32) (vec : Vector F) (hlen : vec.length = h.dimension.toNat)
    (token : String) :
    ∃ vec' : Vector F, embedToken h (some vec) token = some vec' ∧
      vec'.length = h.dimension.toNat := by
  unfold embedToken
  have hmod : h.dimension % 2 ^ 32 = h.dimension := Int.emod_eq_of_lt (le_of_lt hpos) hlt
  have hne : ¬ h.dimension % 2 ^ 32 = 0 := by
    rw [hmod]
    omega
  have hi : hashToken token % (h.dimension % 2 ^ 32).toNat < vec.length := by
    rw [hmod, hlen]
    apply Nat.mod_lt
    omega
  simp only [hne, if_false, hi, if_true]
  exact ⟨_, rfl, by simp [hlen]⟩

theorem EmbedTokens_some (h : HashingEmbedder) (hpos : 0 < h.dimension)
    (hlt : h.dimension < 2 ^ 32) (tokens : List String) :
    ∃ vec : Vector F, h.EmbedTokens tokens = some vec ∧ vec.length = h.dimension.toNat := by
  unfold HashingEmbedder.EmbedTokens
  have hneg : ¬ h.dimension < 0 := by omega
  simp only [hneg, if_false]
  have hfold : ∀ (tokens : List String) (vec : Vector F), vec.length = h.dimension.toNat →
      ∃ vec' : Vector F, tokens.foldl (embedToken h) (some vec) = some vec' ∧
        vec'.length = h.dimension.toNat := by
    intro tokens
    induction tokens with
    | nil => intro vec hlen; exact ⟨vec, rfl, hlen⟩
    | cons t rest ih =>
      intro vec hlen
      obtain ⟨vec', h1, h2⟩ := embedToken_some h hpos hlt vec hlen t
      rw [List.foldl_cons, h1]
      exact ih vec' h2
  exact hfold tokens _ (by simp)

/-- `Query` returns a list for every dimension between 1 and 2^32 - 1. -/
theorem Query_isSome (env : QueryEnv F) (i : Index F) (hpos : 0 < i.embedder.dimension)
    (hlt : i.embedder.dimension < 2 ^ 32) (query : String) (topK : Int) :
    (i.Query env query topK).isSome = true := by
  obtain ⟨vec, hvec, _⟩ := EmbedTokens_some (F := F) i.embedder hpos hlt (Tokenize query)
  rw [Query_eq env i query topK vec hvec]
  by_cases h1 : vec.length = 0
  · simp [h1]
  · by_cases h2 : topK > 0 ∧
        ((sortSlice candidateLess (i.scoreCandidates env vec topK)).length : Int) > topK
    · simp [h1, h2]
    · simp [h1, h2]

end EmbedderTotal

/-! ## The order of strings and the order of their bytes -/

set_option maxRecDepth 100000 in
theorem byte_cont_small : ∀ n, n < 256 →
    (UInt8.ofNat n &&& 0x3f ||| 0x80).toNat = 128 + n % 64 := by
  decide!

set_option maxRecDepth 100000 in
theorem byte_lead2_small : ∀ n, n < 256 →
    (UInt8.ofNat n &&& 0x1f ||| 0xc0).toNat = 192 + n % 32 := by
  decide!

set_option maxRecDepth 100000 in
theorem byte_lead3_small : ∀ n, n < 256 →
    (UInt8.ofNat n &&& 0x0f ||| 0xe0).toNat = 224 + n % 16 := by
  decide!

set_option maxRecDepth 100000 in
theorem byte_lead4_small : ∀ n, n < 256 →
    (UInt8.ofNat n &&& 0x07 ||| 0xf0).toNat = 240 + n % 8 := by
  decide!

theorem uint8_ofNat_mod (k : Nat) : UInt8.ofNat k = UInt8.ofNat (k % 256) := by
  simp [UInt8.ofNat, BitVec.ofNat, Fin.ofNat']

theorem byte_cont (k : Nat) : (UInt8.ofNat k &&& 0x3f ||| 0x80).toNat = 128 + k % 64 := by
  rw [uint8_ofNat_mod, byte_cont_small _ (Nat.mod_lt _ (by decide))]
  omega

theorem byte_lead2 (k : Nat) : (UInt8.ofNat k &&& 0x1f ||| 0xc0).toNat = 192 + k % 32 := by
  rw [uint8_ofNat_mod, byte_lead2_small _ (Nat.mod_lt _ (by decide))]
  omega

theorem byte_lead3 (k : Nat) : (UInt8.ofNat k &&& 0x0f ||| 0xe0).toNat = 224 + k % 16 := by
  rw [uint8_ofNat_mod, byte_lead3_small _ (Nat.mod_lt _ (by decide))]
  omega

theorem byte_lead4 (k : Nat) : (UInt8.ofNat k &&& 0x07 ||| 0xf0).toNat = 240 + k % 8 := by
  rw [uint8_ofNat_mod, byte_lead4_small _ (Nat.mod_lt _ (by decide))]
  omega

theorem uint32_shiftRight_toNat (v : UInt32) (k : Nat) (hk : k < 32) :
    (v >>> UInt32.ofNat k).toNat = v.toNat / 2 ^ k := by
  show (v.toBitVec >>> (UInt32.mod (UInt32.ofNat k) 32).toBitVec).toNat = _
  have : (UInt32.mod (UInt32.ofNat k) 32).toBitVec.toNat = k := by
    show ((UInt32.ofNat k).toBitVec % (32 : UInt32).toBitVec).toNat = k
    simp [UInt32.ofNat, BitVec.toNat_umod]
    have h32 : (32 : UInt32).toBitVec.toNat = 32 := rfl
    omega
  simp only [BitVec.ushiftRight_eq', BitVec.toNat_ushiftRight, this, Nat.shiftRight_eq_div_pow]
  rfl

theorem uint32_toUInt8 (v : UInt32) : v.toUInt8 = UInt8.ofNat v.toNat := rfl

/-- The bytes of the encoding of a character, as numbers. -/
theorem utf8EncodeChar_values (c : Char) :
    (String.utf8EncodeChar c).map UInt8.toNat = utf8Values c.val.toNat := by
  have hvalid : c.val.toNat < 1114112 := by
    have := c.valid
    rcases this with h | ⟨_, h⟩
    · have : c.val.toNat < 55296 := h
      omega
    · exact h
  have h6 := uint32_shiftRight_toNat c.val 6 (by decide)
  have h12 := uint32_shiftRight_toNat c.val 12 (by decide)
  have h18 := uint32_shiftRight_toNat c.val 18 (by decide)
  have e6 : (UInt32.ofNat 6) = 6 := rfl
  have e12 : (UInt32.ofNat 12) = 12 := rfl
  have e18 : (UInt32.ofNat 18) = 18 := rfl
  rw [e6] at h6
  rw [e12] at h12
  rw [e18] at h18
  unfold String.utf8EncodeChar utf8Values
  have c1 : c.val ≤ 0x7f ↔ c.val.toNat ≤ 127 := Iff.rfl
  have c2 : c.val ≤ 0x7ff ↔ c.val.toNat ≤ 2047 := Iff.rfl
  have c3 : c.val ≤ 0xffff ↔ c.val.toNat ≤ 65535 := Iff.rfl
  simp only [c1, c2, c3]
  by_cases h1 : c.val.toNat ≤ 127
  · simp only [h1, if_true, List.map_cons, List.map_nil, uint32_toUInt8]
    have : (UInt8.ofNat c.val.toNat).toNat = c.val.toNat % 256 := by
      simp [UInt8.ofNat, UInt8.toNat]
    rw [this]
    congr 1
    omega
  · by_cases h2 : c.val.toNat ≤ 2047
    · simp only [h1, h2, if_true, if_false, List.map_cons, List.map_nil, uint32_toUInt8,
        byte_cont, byte_lead2, h6]
      congr 1
      omega
    · by_cases h3 : c.val.toNat ≤ 65535
      · simp only [h1, h2, h3, if_true, if_false, List.map_cons, List.map_nil, uint32_toUInt8,
          byte_cont, byte_lead3, h6, h12]
        congr 1
        omega
      · simp only [h1, h2, h3, if_false, List.map_cons, List.map_nil, uint32_toUInt8,
          byte_cont, byte_lead4, h6, h12, h18]
        congr 1
        omega

theorem lex_cons_of_le {x y : Nat} {xs ys : List Nat} (hxy : x ≤ y)
    (h : x = y → List.Lex (fun a b : Nat => a < b) xs ys) :
    List.Lex (fun a b : Nat => a < b) (x :: xs) (y :: ys) := by
  rcases Nat.lt_or_eq_of_le hxy with hlt | heq
  · exact List.Lex.rel hlt
  · subst heq
    exact List.Lex.cons (h rfl)

/-- The encodings of two code points compare as the code points do, whatever
follows them. -/
theorem utf8Values_lex (m n : Nat) (hmn : m < n) (hn : n < 1114112) (s t : List Nat) :
    List.Lex (fun a b : Nat => a < b) (utf8Values m ++ s) (utf8Values n ++ t) := by
  unfold utf8Values
  by_cases a1 : m ≤ 127 <;> by_cases a2 : m ≤ 2047 <;> by_cases a3 : m ≤ 65535 <;>
    by_cases b1 : n ≤ 127 <;> by_cases b2 : n ≤ 2047 <;> by_cases b3 : n ≤ 65535 <;>
    simp only [a1, a2, a3, b1, b2, b3, if_true, if_false, List.cons_append, List.nil_append] <;>
    first
    | (exfalso; omega)
    | exact List.Lex.rel (by omega)
    | exact lex_cons_of_le (by omega) (fun h1 => lex_cons_of_le (by omega)
        (fun h2 => lex_cons_of_le (by omega) (fun h3 => lex_cons_of_le (by omega)
          (fun h4 => by exfalso; omega))))
    | exact lex_cons_of_le (by omega) (fun h1 => lex_cons_of_le (by omega)
        (fun h2 => lex_cons_of_le (by omega) (fun h3 => by exfalso; omega)))
    | exact lex_cons_of_le (by omega) (fun h1 => lex_cons_of_le (by omega)
        (fun h2 => by exfalso; omega))

theorem utf8Values_ne_nil (n : Nat) : utf8Values n ≠ [] := by
  unfold utf8Values
  split
  · simp
  · split
    · simp
    · split <;> simp

theorem lex_append_left (p s t : List Nat) (h : List.Lex (fun a b : Nat => a < b) s t) :
    List.Lex (fun a b : Nat => a < b) (p ++ s) (p ++ t) := by
  induction p with
  | nil => exact h
  | cons x r ih => exact List.Lex.cons ih

/-- The byte order of two byte strings is the order of their values. -/
theorem lex_bytes_iff (l₁ l₂ : List UInt8) :
    List.Lex (fun x y : UInt8 => x < y) l₁ l₂ ↔
      List.Lex (fun a b : Nat => a < b) (l₁.map UInt8.toNat) (l₂.map UInt8.toNat) := by
  induction l₁ generalizing l₂ with
  | nil =>
    cases l₂ with
    | nil => constructor <;> intro h <;> cases h
    | cons y ys => exact ⟨fun _ => List.Lex.nil, fun _ => List.Lex.nil⟩
  | cons x xs ih =>
    cases l₂ with
    | nil => constructor <;> intro h <;> cases h
    | cons y ys =>
      simp only [List.map_cons]
      constructor
      · intro h
        cases h with
        | cons h' => exact List.Lex.cons ((ih ys).1 h')
        | rel h' => exact List.Lex.rel h'
      · intro h
        generalize hx : x.toNat = a at h
        generalize hy : y.toNat = b at h
        cases h with
        | cons h' =>
          have hxy : x = y := by
            cases x; cases y
            simp only [UInt8.toNat] at hx hy
            congr
            exact BitVec.eq_of_toNat_eq (hx.trans hy.symm)
          subst hxy
          exact List.Lex.cons ((ih ys).2 h')
        | rel h' =>
          apply List.Lex.rel
          show x.toNat < y.toNat
          rw [hx, hy]
          exact h'

/-- The values of the bytes of a string. -/
theorem utf8Bytes_values (l : List Char) :
    (utf8Bytes (String.mk l)).map UInt8.toNat = l.flatMap (fun c => utf8Values c.val.toNat) := by
  unfold utf8Bytes
  induction l with
  | nil => rfl
  | cons c cs ih =>
    simp only [List.flatMap_cons, List.map_append, utf8EncodeChar_values] at ih ⊢
    rw [ih]

theorem chars_lex_values (l₁ l₂ : List Char) (h : List.Lex (fun a b : Char => a < b) l₁ l₂) :
    List.Lex (fun a b : Nat => a < b) (l₁.flatMap (fun c => utf8Values c.val.toNat))
      (l₂.flatMap (fun c => utf8Values c.val.toNat)) := by
  induction h with
  | @nil d ds =>
    rw [List.flatMap_nil, List.flatMap_cons]
    cases hv : utf8Values d.val.toNat with
    | nil => exact absurd hv (utf8Values_ne_nil _)
    | cons x xs => exact List.Lex.nil
  | @cons c cs ds _ ih =>
    rw [List.flatMap_cons, List.flatMap_cons]
    exact lex_append_left _ _ _ ih
  | @rel c cs d ds hcd =>
    rw [List.flatMap_cons, List.flatMap_cons]
    have hvalid : d.val.toNat < 1114112 := by
      rcases d.valid with h | ⟨_, h⟩
      · have : d.val.toNat < 55296 := h
        omega
      · exact h
    exact utf8Values_lex _ _ hcd hvalid _ _

/-- Go compares strings by their bytes, and that is the order of `String`:
the UTF-8 encoding keeps the lexicographic order by code point. -/
theorem bytesLess_iff_lt (a b : String) : bytesLess a b ↔ a < b := by
  have hfwd : ∀ a b : String, a < b → bytesLess a b := by
    intro a b hab
    unfold bytesLess
    rw [lex_bytes_iff, show a = String.mk a.data from rfl, show b = String.mk b.data from rfl,
      utf8Bytes_values, utf8Bytes_values]
    exact chars_lex_values _ _ (String.lt_iff_toList_lt.1 hab)
  refine ⟨fun h => ?_, hfwd a b⟩
  by_contra hnot
  have hvals : ∀ x y : String, bytesLess x y →
      (utf8Bytes x).map UInt8.toNat < (utf8Bytes y).map UInt8.toNat :=
    fun x y hxy => (lex_bytes_iff _ _).1 hxy
  rcases lt_or_eq_of_le (not_lt.1 hnot) with hlt | heq
  · exact lt_asymm (hvals _ _ h) (hvals _ _ (hfwd b a hlt))
  · rw [heq] at h
    exact lt_irrefl _ (hvals _ _ h)

/-! ## `DocumentFrequency`, `AverageDocumentLength` and `Documents` in reachable states -/

theorem foldl_append_map {α β : Type} (f : α → β) (l : List α) (init : List β) :
    l.foldl (fun result a => result ++ [f a]) init = init ++ l.map f := by
  induction l generalizing init with
  | nil => simp
  | cons a r ih => simp [ih]

/-- The ids stored under a term are the ids of the stored documents whose
token sequence contains the term. -/
theorem postingList_keys_perm {calls : List AddCall} {idx : InvertedIndex}
    (hr : Reflects calls idx) (t : String) (entry : GoMap Posting)
    (he : idx.postings.get? t = some entry) :
    entry.keys.Perm
      ((idx.documents.filter (fun e => decide (t ∈ e.2.Tokens))).map Prod.fst) := by
  have hnd₁ : entry.keys.Nodup := (hr.wf.2 t entry he).2.1
  have hnd₂ : ((idx.documents.filter (fun e => decide (t ∈ e.2.Tokens))).map Prod.fst).Nodup :=
    List.Nodup.sublist (List.Sublist.map _ (List.filter_sublist _)) hr.nodupDocs
  refine (List.perm_ext_iff_of_nodup hnd₁ hnd₂).2 (fun d => ?_)
  have hp := hr.posts t d
  unfold lookup2 at hp
  rw [he] at hp
  replace hp : entry.get? d = _ := hp
  have hd := hr.docs d
  rw [← GoMap.isSome_get?_iff, hp]
  simp only [List.mem_map, List.mem_filter, decide_eq_true_eq, Prod.exists, exists_and_right,
    exists_eq_right]
  cases hl : lastAdded calls d with
  | none =>
    rw [hl] at hd
    simp only [Option.map_none'] at hd
    simp only [Option.none_bind, Option.isSome_none, Bool.false_eq_true, false_iff]
    rintro ⟨doc, hmem, _⟩
    rw [GoMap.get?_of_mem hr.nodupDocs hmem] at hd
    exact absurd hd (by simp)
  | some doc =>
    rw [hl] at hd
    simp only [Option.map_some'] at hd
    simp only [Option.some_bind]
    constructor
    · intro h
      by_cases ht : t ∈ indexedTokens doc
      · exact ⟨storedForm doc, GoMap.mem_of_get? hd, ht⟩
      · simp [ht] at h
    · rintro ⟨x, hmem, hx⟩
      have := GoMap.get?_of_mem hr.nodupDocs hmem
      rw [hd] at this
      have hx' : t ∈ indexedTokens doc := by
        rw [← Option.some.inj this] at hx
        exact hx
      simp [hx']

/-- C26: in every state reachable by `AddDocument` calls, for every term `t`
and every order of ranging over its posting map, `DocumentFrequency(t)` is
the length of `Postings(t)` and is the number of stored documents whose
current token sequence contains `t`; when no stored document contains `t`,
`DocumentFrequency(t)` is 0 and `Postings(t)` is empty. -/
theorem C26_document_frequency_counts_documents (calls : List AddCall)
    (ord : RangeOrder (String × Posting)) (t : String) :
    (runAdds calls).DocumentFrequency t = (((runAdds calls).Postings ord t).length : Int) ∧
    (runAdds calls).DocumentFrequency t =
      ((((runAdds calls).documents.filter (fun e => decide (t ∈ e.2.Tokens))).length : Nat) :
        Int) ∧
    ((∀ e ∈ (runAdds calls).documents, t ∉ e.2.Tokens) →
      (runAdds calls).DocumentFrequency t = 0 ∧ (runAdds calls).Postings ord t = []) := by
  have hr := reflects_runAdds calls
  have hlen : (runAdds calls).DocumentFrequency t =
      (((runAdds calls).Postings ord t).length : Int) := by
    rw [Postings_eq]
    unfold InvertedIndex.DocumentFrequency
    cases he : (runAdds calls).postings.get? t with
    | none => rfl
    | some entry =>
      simp only [List.length_map, GoMap.len]
      rw [(ord.perm entry).length_eq]
  have hcount : (runAdds calls).DocumentFrequency t =
      ((((runAdds calls).documents.filter (fun e => decide (t ∈ e.2.Tokens))).length : Nat) :
        Int) := by
    unfold InvertedIndex.DocumentFrequency
    cases he : (runAdds calls).postings.get? t with
    | none =>
      have hnone : (runAdds calls).documents.filter (fun e => decide (t ∈ e.2.Tokens)) = [] := by
        rw [List.filter_eq_nil_iff]
        intro e hmem
        have hd := hr.docs e.1
        rw [GoMap.get?_of_mem hr.nodupDocs (show (e.1, e.2) ∈ _ from hmem)] at hd
        have hp := hr.posts t e.1
        unfold lookup2 at hp
        rw [he] at hp
        replace hp : none = _ := hp
        cases hl : lastAdded calls e.1 with
        | none => simp [hl] at hd
        | some doc =>
          rw [hl] at hd hp
          simp only [Option.map_some', Option.some.injEq] at hd
          simp only [Option.some_bind] at hp
          rw [hd]
          by_cases ht : t ∈ indexedTokens doc
          · simp [ht] at hp
          · simpa [storedForm] using ht
      rw [hnone]
      rfl
    | some entry =>
      have := (postingList_keys_perm hr t entry he).length_eq
      simp only [GoMap.keys, List.length_map] at this
      simp only [GoMap.len, this]
  refine ⟨hlen, hcount, fun hno => ?_⟩
  have hzero : (runAdds calls).DocumentFrequency t = 0 := by
    rw [hcount]
    have : (runAdds calls).documents.filter (fun e => decide (t ∈ e.2.Tokens)) = [] := by
      rw [List.filter_eq_nil_iff]
      intro e hmem
      simpa using hno e hmem
    rw [this]
    rfl
  refine ⟨hzero, ?_⟩
  rw [hzero] at hlen
  apply List.length_eq_zero.1
  exact_mod_cast hlen.symm

/-- In a reachable state the recorded lengths are the lengths of the stored
token sequences, document by document. -/
theorem docLengths_perm_documents {calls : List AddCall} {idx : InvertedIndex}
    (hr : Reflects calls idx) :
    idx.docLengths.Perm (idx.documents.map (fun e => (e.1, (e.2.Tokens.length : Int)))) := by
  have hkeys : GoMap.keys (idx.documents.map (fun e => (e.1, (e.2.Tokens.length : Int)))) =
      idx.documents.keys := by
    simp [GoMap.keys, List.map_map, Function.comp_def]
  refine GoMap.perm_of_get?_eq hr.nodupLens (by rw [hkeys]; exact hr.nodupDocs) (fun d => ?_)
  rw [hr.lens]
  cases hl : lastAdded calls d with
  | none =>
    symm
    rw [Option.map_none', GoMap.get?_eq_none_iff, hkeys, ← GoMap.get?_eq_none_iff, hr.docs, hl]
    rfl
  | some doc =>
    symm
    have hd := hr.docs d
    rw [hl] at hd
    have hmem := GoMap.mem_of_get? hd
    have hnd : (GoMap.keys (idx.documents.map
        (fun e => (e.1, (e.2.Tokens.length : Int))))).Nodup := by
      rw [hkeys]
      exact hr.nodupDocs
    exact GoMap.get?_of_mem hnd
      (List.mem_map.2 ⟨(d, storedForm doc), hmem, rfl⟩)

/-- C27: in every state reachable by `AddDocument` calls,
`AverageDocumentLength()` is 0 when no document is stored, and otherwise the
sum over the stored documents of the length of their token sequence, divided
by the number of stored documents, as an exact quotient in the field of
scores. -/
theorem C27_average_document_length (F : Type) [LinearOrderedField F]
    (calls : List AddCall) :
    ((runAdds calls).documents = [] → (runAdds calls).AverageDocumentLength F = 0) ∧
    ((runAdds calls).documents ≠ [] →
      (runAdds calls).AverageDocumentLength F =
        ((((runAdds calls).documents.map (fun e => (e.2.Tokens.length : Int))).sum : Int) : F) /
          (((runAdds calls).documents.length : Nat) : F)) := by
  have hr := reflects_runAdds calls
  have hp := docLengths_perm_documents hr
  have hlen : (runAdds calls).docLengths.length = (runAdds calls).documents.length := by
    rw [hp.length_eq, List.length_map]
  have hsum : (runAdds calls).totalTokens =
      ((runAdds calls).documents.map (fun e => (e.2.Tokens.length : Int))).sum := by
    rw [hr.total]
    unfold GoMap.values
    rw [(hp.map Prod.snd).sum_eq, List.map_map]
    rfl
  unfold InvertedIndex.AverageDocumentLength
  constructor
  · intro hnil
    have : (runAdds calls).docLengths.len = 0 := by
      simp [GoMap.len, hlen, hnil]
    simp [this]
  · intro hne
    have : ¬ (runAdds calls).docLengths.len = 0 := by
      intro h0
      apply hne
      apply List.length_eq_zero.1
      rw [← hlen]
      simpa [GoMap.len] using h0
    simp only [this, if_false, hsum]
    simp [GoMap.len, hlen]

theorem lastAdded_of_mem {calls : List AddCall}
    (hnd : (calls.map (fun c => c.doc.ID)).Nodup) {c : AddCall} (hc : c ∈ calls) :
    lastAdded calls c.doc.ID = some c.doc := by
  induction calls using List.reverseRecOn with
  | nil => simp at hc
  | append_singleton calls c' ih =>
    rw [List.map_append, List.nodup_append] at hnd
    obtain ⟨hnd₁, _, hdis⟩ := hnd
    rw [lastAdded_append]
    rcases List.mem_append.1 hc with h | h
    · have hne : ¬ c'.doc.ID = c.doc.ID := by
        intro he
        exact hdis (List.mem_map.2 ⟨c, h, rfl⟩) (by simp [he])
      rw [if_neg hne]
      exact ih hnd₁ h
    · rw [List.mem_singleton.1 h]
      simp

/-- With distinct ids, the last document added under an id does not depend on
the order of the calls. -/
theorem lastAdded_perm {calls calls' : List AddCall} (hp : calls'.Perm calls)
    (hnd : (calls.map (fun c => c.doc.ID)).Nodup) (d : String) :
    lastAdded calls' d = lastAdded calls d := by
  have hnd' : (calls'.map (fun c => c.doc.ID)).Nodup :=
    (List.Perm.nodup_iff (hp.map _)).2 hnd
  by_cases hd : d ∈ calls.map (fun c => c.doc.ID)
  · obtain ⟨c, hc, rfl⟩ := List.mem_map.1 hd
    rw [lastAdded_of_mem hnd hc, lastAdded_of_mem hnd' (hp.mem_iff.2 hc)]
  · have h1 : lastAdded calls d = none := by
      rw [← Option.not_isSome_iff_eq_none, lastAdded_isSome]
      exact hd
    have h2 : lastAdded calls' d = none := by
      rw [← Option.not_isSome_iff_eq_none, lastAdded_isSome]
      exact fun h => hd ((hp.map _).mem_iff.1 h)
    rw [h1, h2]

theorem sortStrings_strict (l : List String) (hnd : l.Nodup) :
    (sortSlice (fun a b => decide (a < b)) l).Pairwise (fun a b => a < b) := by
  have hs : (sortSlice (fun a b : String => decide (a < b)) l).Pairwise
      (fun a b => decide (b < a) = false) :=
    sortSlice_sorted _
      (fun a b h => by
        simp only [decide_eq_true_eq] at h
        simpa using le_of_lt h)
      (fun a b c h1 h2 => by
        simp only [decide_eq_false_iff_not, not_lt] at h1 h2 ⊢
        exact le_trans h1 h2) l
  have hne : (sortSlice (fun a b : String => decide (a < b)) l).Pairwise (fun a b => a ≠ b) :=
    (List.Perm.nodup_iff (sortSlice_perm _ l)).2 hnd
  refine (hs.and hne).imp ?_
  rintro a b ⟨h1, h2⟩
  simp only [decide_eq_false_iff_not, not_lt] at h1
  exact lt_of_le_of_ne h1 h2

/-- The value of `Documents()`: the documents stored under the sorted ids. -/
theorem Documents_eq (ord : RangeOrder (String × Document)) (idx : InvertedIndex) :
    idx.Documents ord =
      (sortSlice (fun a b => decide (a < b)) ((ord.pick idx.documents).map Prod.fst)).map
        idx.documents.get? := by
  unfold InvertedIndex.Documents
  simp only [foldl_append_map, List.nil_append]

/-- The sorted ids of `Documents()`: the stored ids, each once, ascending. -/
theorem sortedIds_spec (ord : RangeOrder (String × Document)) (idx : InvertedIndex)
    (hnd : idx.documents.keys.Nodup) :
    (sortSlice (fun a b => decide (a < b)) ((ord.pick idx.documents).map Prod.fst)).Pairwise
        (fun a b => a < b) ∧
      (sortSlice (fun a b => decide (a < b)) ((ord.pick idx.documents).map Prod.fst)).Perm
        idx.documents.keys := by
  have hp : ((ord.pick idx.documents).map Prod.fst).Perm idx.documents.keys :=
    (ord.perm idx.documents).map Prod.fst
  exact ⟨sortStrings_strict _ ((List.Perm.nodup_iff hp).2 hnd),
    (sortSlice_perm _ _).trans hp⟩

theorem strings_sorted_unique (l₁ l₂ : List String) (hp : l₁.Perm l₂)
    (h₁ : l₁.Pairwise (fun a b => a < b)) (h₂ : l₂.Pairwise (fun a b => a < b)) : l₁ = l₂ :=
  List.eq_of_perm_of_sorted hp h₁ h₂

/-- What `Documents()` returns in a reachable state: no nil entry, and the
documents are the stored forms of the last document added under each id, in
strictly ascending order of id. -/
theorem Documents_reflects {calls : List AddCall} {idx : InvertedIndex}
    (hr : Reflects calls idx) (ord : RangeOrder (String × Document)) :
    ∃ docs : List Document, idx.Documents ord = docs.map some ∧
      docs.Pairwise (fun a b => a.ID < b.ID) ∧
      (docs.map (fun x => x.ID)).Perm idx.documents.keys ∧
      ∀ x, x ∈ docs ↔ ∃ doc, lastAdded calls x.ID = some doc ∧ x = storedForm doc := by
  obtain ⟨hsorted, hperm⟩ := sortedIds_spec ord idx hr.nodupDocs
  generalize hids : sortSlice (fun a b => decide (a < b))
    ((ord.pick idx.documents).map Prod.fst) = ids at hsorted hperm
  have hget : ∀ id ∈ ids, ∃ doc, lastAdded calls id = some doc ∧
      idx.documents.get? id = some (storedForm doc) := by
    intro id hid
    have hk : id ∈ idx.documents.keys := hperm.mem_iff.1 hid
    rw [← GoMap.isSome_get?_iff, hr.docs] at hk
    cases hl : lastAdded calls id with
    | none => simp [hl] at hk
    | some doc => exact ⟨doc, rfl, by rw [hr.docs, hl]; rfl⟩
  refine ⟨ids.filterMap idx.documents.get?, ?_, ?_, ?_, ?_⟩
  · rw [Documents_eq, hids]
    clear hsorted hperm hids
    induction ids with
    | nil => rfl
    | cons a r ih =>
      obtain ⟨doc, _, hd⟩ := hget a (List.mem_cons_self _ _)
      rw [List.map_cons, List.filterMap_cons, hd, List.map_cons,
        ih (fun id hid => hget id (List.mem_cons_of_mem _ hid))]
  · have hmapID : (ids.filterMap idx.documents.get?).map (fun x => x.ID) = ids := by
      clear hsorted hperm hids
      induction ids with
      | nil => rfl
      | cons a r ih =>
        obtain ⟨doc, hl, hd⟩ := hget a (List.mem_cons_self _ _)
        rw [List.filterMap_cons, hd, List.map_cons,
          ih (fun id hid => hget id (List.mem_cons_of_mem _ hid))]
        have := lastAdded_ID hl
        simp [storedForm, this]
    rw [← hmapID, List.pairwise_map] at hsorted
    exact hsorted
  · have hmapID : (ids.filterMap idx.documents.get?).map (fun x => x.ID) = ids := by
      clear hsorted hperm hids
      induction ids with
      | nil => rfl
      | cons a r ih =>
        obtain ⟨doc, hl, hd⟩ := hget a (List.mem_cons_self _ _)
        rw [List.filterMap_cons, hd, List.map_cons,
          ih (fun id hid => hget id (List.mem_cons_of_mem _ hid))]
        have := lastAdded_ID hl
        simp [storedForm, this]
    rw [hmapID]
    exact hperm
  · intro x
    rw [List.mem_filterMap]
    constructor
    · rintro ⟨id, hid, hx⟩
      obtain ⟨doc, hl, hd⟩ := hget id hid
      rw [hd] at hx
      have hx' : storedForm doc = x := Option.some.inj hx
      have hID : x.ID = id := by
        rw [← hx']
        exact (lastAdded_ID hl : doc.ID = id)
      exact ⟨doc, by rw [hID]; exact hl, hx'.symm⟩
    · rintro ⟨doc, hl, hx⟩
      have hk : x.ID ∈ idx.documents.keys := by
        rw [← GoMap.isSome_get?_iff, hr.docs, hl]
        rfl
      exact ⟨x.ID, hperm.mem_iff.2 hk, by rw [hr.docs, hl, hx]; rfl⟩

/-- C28: in every reachable state and for every order of ranging over the
document map, `Documents()` returns no nil entry; its documents are in
strictly ascending order of id, as strings and byte by byte; they are
exactly the stored forms of the last document added under each id, each
returned once; and the list is the same for any other history of calls that
ends with the same last document under every id, in particular for the same
calls in any other order when their ids are distinct. -/
theorem C28_documents_ascending_once (calls : List AddCall)
    (ord : RangeOrder (String × Document)) :
    (∃ docs : List Document, (runAdds calls).Documents ord = docs.map some ∧
      docs.Pairwise (fun a b => a.ID < b.ID) ∧
      docs.Pairwise (fun a b => bytesLess a.ID b.ID) ∧
      (∀ x, x ∈ docs ↔ ∃ doc, lastAdded calls x.ID = some doc ∧ x = storedForm doc) ∧
      (∀ d doc, lastAdded calls d = some doc → docs.count (storedForm doc) = 1)) ∧
    (∀ (calls' : List AddCall) (ord' : RangeOrder (String × Document)),
      (∀ d, lastAdded calls' d = lastAdded calls d) →
        (runAdds calls').Documents ord' = (runAdds calls).Documents ord) ∧
    (∀ (calls' : List AddCall) (ord' : RangeOrder (String × Document)),
      calls'.Perm calls → (calls.map (fun c => c.doc.ID)).Nodup →
        (runAdds calls').Documents ord' = (runAdds calls).Documents ord) := by
  have hr := reflects_runAdds calls
  obtain ⟨docs, heq, hsorted, hperm, hmem⟩ := Documents_reflects hr ord
  have hnd : docs.Nodup := by
    refine hsorted.imp ?_
    intro a b hab he
    rw [he] at hab
    exact lt_irrefl _ hab
  have hgen : ∀ (calls' : List AddCall) (ord' : RangeOrder (String × Document)),
      (∀ d, lastAdded calls' d = lastAdded calls d) →
        (runAdds calls').Documents ord' = (runAdds calls).Documents ord := by
    intro calls' ord' hsame
    have hr' := reflects_runAdds calls'
    have hdocs : ∀ d, (runAdds calls').documents.get? d = (runAdds calls).documents.get? d := by
      intro d
      rw [hr.docs, hr'.docs, hsame]
    obtain ⟨hs₁, hp₁⟩ := sortedIds_spec ord (runAdds calls) hr.nodupDocs
    obtain ⟨hs₂, hp₂⟩ := sortedIds_spec ord' (runAdds calls') hr'.nodupDocs
    have hkeys : (runAdds calls').documents.keys.Perm (runAdds calls).documents.keys :=
      (GoMap.perm_of_get?_eq hr'.nodupDocs hr.nodupDocs hdocs).map Prod.fst
    rw [Documents_eq, Documents_eq,
      strings_sorted_unique _ _ ((hp₂.trans hkeys).trans hp₁.symm) hs₂ hs₁]
    apply List.map_congr_left
    intro id _
    exact hdocs id
  refine ⟨⟨docs, heq, hsorted, hsorted.imp (fun h => (bytesLess_iff_lt _ _).2 h), hmem, ?_⟩,
    hgen, fun calls' ord' hp hids => hgen calls' ord' (lastAdded_perm hp hids)⟩
  intro d doc hl
  apply List.count_eq_one_of_mem hnd
  rw [hmem]
  have hID : (storedForm doc).ID = d := (lastAdded_ID hl : doc.ID = d)
  exact ⟨doc, by rw [hID]; exact hl, rfl⟩

/-! ## The snapshot round trip -/

theorem indexedTokens_reloaded (doc : Document) :
    indexedTokens (reloadedForm (storedForm doc)) = indexedTokens doc := by
  unfold reloadedForm storedForm indexedTokens
  by_cases h : doc.Tokens.length = 0
  · by_cases h' : (Tokenize doc.Content).length = 0
    · simp [h, h']
    · simp [h, h']
  · simp [h]

/-- What `WriteSnapshot` hands to the encoder when `Documents()` has no nil
entry, and what `LoadSnapshot` makes of it. -/
theorem LoadSnapshot_WriteSnapshot (ord : RangeOrder (String × Document)) (idx : InvertedIndex)
    (docs : List Document) (h : idx.Documents ord = docs.map some) :
    ∃ snapshot, WriteSnapshot ord idx = some snapshot ∧
      snapshot.Documents = docs.map (fun doc =>
        { ID := doc.ID, URL := doc.URL, Title := doc.Title, Tokens := doc.Tokens,
          Content := doc.Content }) ∧
      LoadSnapshot snapshot = docs.map reloadedForm := by
  have hfold : ∀ (l : List Document) (init : Snapshot),
      (l.map some).foldl (fun snapshot doc =>
        match snapshot, doc with
        | some snapshot, some doc =>
          some ({ Documents := snapshot.Documents ++
            [{ ID := doc.ID, URL := doc.URL, Title := doc.Title, Tokens := doc.Tokens,
               Content := doc.Content }] } : Snapshot)
        | _, _ => none) (some init) =
      some { Documents := init.Documents ++ l.map (fun doc =>
        ({ ID := doc.ID, URL := doc.URL, Title := doc.Title, Tokens := doc.Tokens,
           Content := doc.Content } : SnapshotDocument)) } := by
    intro l
    induction l with
    | nil => intro init; simp
    | cons a r ih =>
      intro init
      rw [List.map_cons, List.foldl_cons]
      simp only []
      rw [ih]
      simp
  refine ⟨_, ?_, rfl, ?_⟩
  · unfold WriteSnapshot
    rw [h, hfold]
    rfl
  · unfold LoadSnapshot
    rw [foldl_append_map]
    simp only [List.nil_append, List.map_map]
    rfl

/-- Two reachable states with the same postings lookups list the same
postings under every term, up to the order of the range over the posting map. -/
theorem Postings_perm_of_lookup2 {a b : InvertedIndex} (ha : PostingsWF a.postings)
    (hb : PostingsWF b.postings)
    (h : ∀ t d, lookup2 a.postings t d = lookup2 b.postings t d)
    (o₁ o₂ : RangeOrder (String × Posting)) (t : String) :
    (a.Postings o₁ t).Perm (b.Postings o₂ t) := by
  rw [Postings_eq, Postings_eq]
  have hnone : ∀ {x y : InvertedIndex}, PostingsWF y.postings →
      (∀ d, lookup2 x.postings t d = lookup2 y.postings t d) →
      x.postings.get? t = none → y.postings.get? t = none := by
    intro x y hy hxy hx
    cases hyt : y.postings.get? t with
    | none => rfl
    | some pl =>
      exfalso
      obtain ⟨hne, _, _⟩ := hy.2 t pl hyt
      cases pl with
      | nil => exact hne rfl
      | cons e rest =>
        have := hxy e.1
        unfold lookup2 at this
        rw [hx, hyt] at this
        simp [GoMap.get?] at this
  cases hat : a.postings.get? t with
  | none => rw [hnone hb (h t) hat]
  | some ea =>
    cases hbt : b.postings.get? t with
    | none =>
      have := hnone ha (fun d => (h t d).symm) hbt
      rw [hat] at this
      exact absurd this (by simp)
    | some eb =>
      have hget : ∀ d, ea.get? d = eb.get? d := by
        intro d
        have := h t d
        unfold lookup2 at this
        rw [hat, hbt] at this
        exact this
      have hp := GoMap.perm_of_get?_eq (ha.2 t ea hat).2.1 (hb.2 t eb hbt).2.1 hget
      exact (((o₁.perm ea).trans hp).trans (o₂.perm eb).symm).map Prod.snd

/-- C25: the snapshot round trip.  For every reachable state and every order
of ranging over the document map, `WriteSnapshot` builds a snapshot (it does
not panic), with one entry per stored id; `LoadSnapshot` of it returns one
document per stored id, in strictly ascending order of id (as strings and
byte by byte), each with the id, url, title, tokens and content of the stored
document; and adding these documents to a fresh index, with any orders of
ranging over the term counts, gives the same postings with the same term
frequencies under every term, the same `docLengths` and the same
`totalTokens` as the index had. -/
theorem C25_snapshot_round_trip (calls : List AddCall)
    (ord : RangeOrder (String × Document)) (reorder : Document → RangeOrder (String × Int)) :
    ∃ snapshot, WriteSnapshot ord (runAdds calls) = some snapshot ∧
      (LoadSnapshot snapshot).Pairwise (fun a b => a.ID < b.ID ∧ bytesLess a.ID b.ID) ∧
      ((LoadSnapshot snapshot).map (fun x => x.ID)).Perm (runAdds calls).documents.keys ∧
      (∀ x ∈ LoadSnapshot snapshot, ∃ y, (runAdds calls).Document x.ID = some y ∧
        x.ID = y.ID ∧ x.URL = y.URL ∧ x.Title = y.Title ∧ x.Tokens = y.Tokens ∧
        x.Content = y.Content) ∧
      (∀ (t : String) (o₁ o₂ : RangeOrder (String × Posting)),
        ((runAdds ((LoadSnapshot snapshot).map (fun doc => ⟨reorder doc, doc⟩))).Postings
          o₁ t).Perm ((runAdds calls).Postings o₂ t)) ∧
      (∀ d, (runAdds ((LoadSnapshot snapshot).map
          (fun doc => ⟨reorder doc, doc⟩))).docLengths.get? d =
        (runAdds calls).docLengths.get? d) ∧
      (runAdds ((LoadSnapshot snapshot).map (fun doc => ⟨reorder doc, doc⟩))).totalTokens =
        (runAdds calls).totalTokens := by
  have hr := reflects_runAdds calls
  obtain ⟨docs, heq, hsorted, hperm, hmem⟩ := Documents_reflects hr ord
  obtain ⟨snapshot, hw, _, hload⟩ := LoadSnapshot_WriteSnapshot ord _ docs heq
  have hids : (LoadSnapshot snapshot).map (fun x => x.ID) = docs.map (fun x => x.ID) := by
    rw [hload, List.map_map]
    rfl
  have hsorted' : (LoadSnapshot snapshot).Pairwise (fun a b => a.ID < b.ID) := by
    rw [hload, List.pairwise_map]
    exact hsorted
  refine ⟨snapshot, hw, hsorted'.imp (fun h => ⟨h, (bytesLess_iff_lt _ _).2 h⟩),
    by rw [hids]; exact hperm, ?_, ?_⟩
  · intro x hx
    rw [hload] at hx
    obtain ⟨y, hy, rfl⟩ := List.mem_map.1 hx
    obtain ⟨doc, hl, hyd⟩ := (hmem y).1 hy
    refine ⟨y, ?_, rfl, rfl, rfl, rfl, rfl⟩
    show (runAdds calls).documents.get? y.ID = some y
    rw [hr.docs, hl, hyd]
    rfl
  · generalize hcalls' : (LoadSnapshot snapshot).map (fun doc => (⟨reorder doc, doc⟩ : AddCall)) =
      calls'
    have hr' := reflects_runAdds calls'
    have hnd' : (calls'.map (fun c => c.doc.ID)).Nodup := by
      rw [← hcalls', List.map_map]
      have : (LoadSnapshot snapshot).Pairwise (fun a b => a.ID ≠ b.ID) :=
        hsorted'.imp (fun h => ne_of_lt h)
      rw [List.Nodup, List.pairwise_map]
      exact this
    have hlast : ∀ d, lastAdded calls' d =
        (lastAdded calls d).map (fun doc => reloadedForm (storedForm doc)) := by
      intro d
      cases hl : lastAdded calls d with
      | none =>
        rw [Option.map_none', ← Option.not_isSome_iff_eq_none, lastAdded_isSome, ← hcalls',
          List.map_map]
        intro hd
        have hd' : d ∈ (LoadSnapshot snapshot).map (fun x => x.ID) := hd
        rw [hids] at hd'
        have := hperm.mem_iff.1 hd'
        rw [← GoMap.isSome_get?_iff, hr.docs, hl] at this
        simp at this
      | some doc =>
        have hin : storedForm doc ∈ docs := by
          rw [hmem]
          have hID : (storedForm doc).ID = d := (lastAdded_ID hl : doc.ID = d)
          exact ⟨doc, by rw [hID]; exact hl, rfl⟩
        have hc : (⟨reorder (reloadedForm (storedForm doc)), reloadedForm (storedForm doc)⟩ :
            AddCall) ∈ calls' := by
          rw [← hcalls', hload]
          exact List.mem_map.2 ⟨_, List.mem_map.2 ⟨_, hin, rfl⟩, rfl⟩
        have := lastAdded_of_mem hnd' hc
        have hID : (reloadedForm (storedForm doc)).ID = d := (lastAdded_ID hl : doc.ID = d)
        rw [show (⟨reorder (reloadedForm (storedForm doc)), reloadedForm (storedForm doc)⟩ :
            AddCall).doc.ID = d from hID] at this
        rw [this]
        rfl
    have hposts : ∀ t d, lookup2 (runAdds calls').postings t d =
        lookup2 (runAdds calls).postings t d := by
      intro t d
      rw [hr.posts, hr'.posts, hlast]
      cases lastAdded calls d with
      | none => rfl
      | some doc => simp only [Option.map_some', Option.some_bind, indexedTokens_reloaded]
    have hlens : ∀ d, (runAdds calls').docLengths.get? d = (runAdds calls).docLengths.get? d := by
      intro d
      rw [hr.lens, hr'.lens, hlast]
      cases lastAdded calls d with
      | none => rfl
      | some doc => simp only [Option.map_some', indexedTokens_reloaded]
    refine ⟨fun t o₁ o₂ => Postings_perm_of_lookup2 hr'.wf hr.wf hposts o₁ o₂ t, hlens, ?_⟩
    rw [hr.total, hr'.total]
    exact ((GoMap.perm_of_get?_eq hr'.nodupLens hr.nodupLens hlens).map Prod.snd).sum_eq

/-! ## The claims about reading the index at sample data -/

theorem C26_document_frequency_counts_documents_witness :
    (∀ e ∈ (runAdds demoCalls).documents, "zebra" ∉ e.2.Tokens) ∧
      (runAdds demoCalls).DocumentFrequency "zebra" = 0 ∧
      (runAdds demoCalls).Postings (RangeOrder.stored _) "zebra" = [] :=
  ⟨by decide!,
    (C26_document_frequency_counts_documents demoCalls (RangeOrder.stored _) "zebra").2.2
      (by decide!)⟩

theorem C27_average_document_length_witness :
    (runAdds demoCalls).documents ≠ [] ∧
      (runAdds demoCalls).AverageDocumentLength ℚ =
        ((((runAdds demoCalls).documents.map (fun e => (e.2.Tokens.length : Int))).sum : Int) :
            ℚ) / (((runAdds demoCalls).documents.length : Nat) : ℚ) ∧
      (runAdds demoCalls).AverageDocumentLength ℚ = 3 :=
  ⟨by decide!, (C27_average_document_length ℚ demoCalls).2 (by decide!), by decide!⟩

theorem C28_documents_ascending_once_witness :
    demoCalls.tail.reverse.Perm demoCalls.tail ∧
      (demoCalls.tail.map (fun c => c.doc.ID)).Nodup ∧
      (runAdds demoCalls.tail.reverse).Documents (RangeOrder.backwards _) =
        (runAdds demoCalls.tail).Documents (RangeOrder.stored _) :=
  ⟨List.reverse_perm _, by decide,
    (C28_documents_ascending_once demoCalls.tail (RangeOrder.stored _)).2.2
      demoCalls.tail.reverse (RangeOrder.backwards _) (List.reverse_perm _) (by decide)⟩

/-! ## `NewIndex` -/

section SemanticConstruction

open Semantic

variable {F : Type} [LinearOrderedField F]

theorem withDefaults_eq (now : Int) (opts : Options) :
    (opts.withDefaults now).Dimension = (if opts.Dimension = 0 then 128 else opts.Dimension) ∧
      (opts.withDefaults now).HyperplaneCount =
        (if opts.HyperplaneCount = 0 then 24 else opts.HyperplaneCount) := by
  unfold Options.withDefaults
  by_cases h1 : opts.Dimension = 0 <;> by_cases h2 : opts.HyperplaneCount = 0 <;>
    by_cases h3 : opts.Seed = 0 <;> simp [h1, h2, h3]

theorem drawPlane_none (normFloat64 : Int → Nat → F) (opts : Options) (l : List Nat) :
    l.foldl (drawPlane normFloat64 opts) none = none := by
  induction l with
  | nil => rfl
  | cons a r ih => rw [List.foldl_cons]; exact ih

theorem drawPlane_some (normFloat64 : Int → Nat → F) (opts : Options)
    (hd : ¬ opts.Dimension < 0) (l : List Nat) (init : List (Vector F)) :
    l.foldl (drawPlane normFloat64 opts) (some init) =
      some (init ++ l.map (fun i => (List.range opts.Dimension.toNat).map
        (fun j => normFloat64 opts.Seed (i * opts.Dimension.toNat + j)))) := by
  induction l generalizing init with
  | nil => simp
  | cons a r ih =>
    rw [List.foldl_cons]
    have : drawPlane normFloat64 opts (some init) a =
        some (init ++ [(List.range opts.Dimension.toNat).map
          (fun j => normFloat64 opts.Seed (a * opts.Dimension.toNat + j))]) := by
      simp [drawPlane, hd]
    rw [this, ih]
    simp

/-- For non-negative options `NewIndex` returns an empty index with the
defaults in place of zeros: the dimension and the number of hyperplanes are
positive, and every hyperplane has the length of the dimension. -/
theorem NewIndex_of_nonneg (now : Int) (normFloat64 : Int → Nat → F) (opts : Options)
    (hd : 0 ≤ opts.Dimension) (hh : 0 ≤ opts.HyperplaneCount) :
    ∃ i : Index F, NewIndex now normFloat64 opts = some i ∧
      i.embedder.dimension = (if opts.Dimension = 0 then 128 else opts.Dimension) ∧
      ((i.hyperplanes.length : Nat) : Int) =
        (if opts.HyperplaneCount = 0 then 24 else opts.HyperplaneCount) ∧
      0 < i.embedder.dimension ∧ 0 < i.hyperplanes.length ∧
      (∀ plane ∈ i.hyperplanes, ((plane.length : Nat) : Int) = i.embedder.dimension) ∧
      i.buckets = [] ∧ i.vectors = [] := by
  obtain ⟨hD, hH⟩ := withDefaults_eq now opts
  have hD0 : 0 < (opts.withDefaults now).Dimension := by
    rw [hD]
    split <;> omega
  have hH0 : 0 < (opts.withDefaults now).HyperplaneCount := by
    rw [hH]
    split <;> omega
  unfold NewIndex
  simp only [not_lt.2 (le_of_lt hH0), if_false,
    drawPlane_some normFloat64 _ (not_lt.2 (le_of_lt hD0)), List.nil_append]
  refine ⟨_, rfl, hD, ?_, hD0, ?_, ?_, rfl, rfl⟩
  · simp only [List.length_map, List.length_range]
    rw [← hH]
    omega
  · simp only [List.length_map, List.length_range]
    omega
  · intro plane hp
    obtain ⟨k, _, rfl⟩ := List.mem_map.1 hp
    simp only [List.length_map, List.length_range]
    omega

/-- A negative dimension or hyperplane count makes `NewIndex` panic. -/
theorem NewIndex_of_neg (now : Int) (normFloat64 : Int → Nat → F) (opts : Options)
    (h : opts.Dimension < 0 ∨ opts.HyperplaneCount < 0) :
    NewIndex now normFloat64 opts = (none : Option (Index F)) := by
  obtain ⟨hD, hH⟩ := withDefaults_eq now opts
  unfold NewIndex
  by_cases hh : (opts.withDefaults now).HyperplaneCount < 0
  · simp [hh]
  · have hH0 : 0 < (opts.withDefaults now).HyperplaneCount := by
      rw [hH] at hh ⊢
      split <;> split at hh <;> omega
    have hd : (opts.withDefaults now).Dimension < 0 := by
      have hh' : ¬ opts.HyperplaneCount < 0 := by
        rw [hH] at hh
        split at hh <;> omega
      have : opts.Dimension < 0 := h.resolve_right hh'
      rw [hD]
      split <;> omega
    obtain ⟨k, hk⟩ : ∃ k, (opts.withDefaults now).HyperplaneCount.toNat = k + 1 :=
      ⟨(opts.withDefaults now).HyperplaneCount.toNat - 1, by omega⟩
    simp only [hh, if_false, hk, List.range_succ_eq_map, List.foldl_cons]
    have : drawPlane normFloat64 (opts.withDefaults now) (some []) 0 = none := by
      simp [drawPlane, hd]
    rw [this, drawPlane_none]

/-- An index that `NewIndex` returns is empty and has a positive dimension. -/
theorem NewIndex_some (now : Int) (normFloat64 : Int → Nat → F) (opts : Options)
    (i : Index F) (h : NewIndex now normFloat64 opts = some i) :
    0 < i.embedder.dimension ∧ i.buckets = [] ∧ i.vectors = [] := by
  by_cases hneg : opts.Dimension < 0 ∨ opts.HyperplaneCount < 0
  · rw [NewIndex_of_neg now normFloat64 opts hneg] at h
    exact absurd h (by simp)
  · obtain ⟨i', hi', _, _, hpos, _, _, hb, hv⟩ :=
      NewIndex_of_nonneg now normFloat64 opts (by omega) (by omega)
    rw [hi'] at h
    rw [← Option.some.inj h]
    exact ⟨hpos, hb, hv⟩

end SemanticConstruction

/-! ## The hashing embedder -/

section Embedder

open Semantic

variable {F : Type} [LinearOrderedField F]

theorem embedToken_eq (h : HashingEmbedder) (hpos : 0 < h.dimension)
    (hlt : h.dimension < 2 ^ 32) (vec : Vector F) (hlen : vec.length = h.dimension.toNat)
    (token : String) :
    embedToken h (some vec) token =
      some (vec.set (hashToken token % h.dimension.toNat)
        (vec.getD (hashToken token % h.dimension.toNat) 0 + 1)) := by
  unfold embedToken
  have hmod : h.dimension % 2 ^ 32 = h.dimension := Int.emod_eq_of_lt (le_of_lt hpos) hlt
  have hne : ¬ h.dimension % 2 ^ 32 = 0 := by
    rw [hmod]
    omega
  have hi : hashToken token % (h.dimension % 2 ^ 32).toNat < vec.length := by
    rw [hmod, hlen]
    apply Nat.mod_lt
    omega
  simp only [hne, if_false, hi, if_true]
  rw [hmod]

theorem specEmbedTokens_nil (D : Nat) :
    (specEmbedTokens D [] : Vector F) = List.replicate D 0 := by
  unfold specEmbedTokens
  simp [List.eq_replicate_iff]

theorem specEmbedTokens_length (D : Nat) (tokens : List String) :
    (specEmbedTokens D tokens : Vector F).length = D := by
  simp [specEmbedTokens]

theorem specEmbedTokens_snoc (D : Nat) (tokens : List String) (t : String) :
    (specEmbedTokens D (tokens ++ [t]) : Vector F) =
      (specEmbedTokens D tokens).set (hashToken t % D)
        ((specEmbedTokens D tokens : Vector F).getD (hashToken t % D) 0 + 1) := by
  apply List.ext_getElem
  · simp [specEmbedTokens]
  · intro j h₁ h₂
    have hj : j < D := by simpa [specEmbedTokens] using h₁
    rw [List.getElem_set]
    by_cases hij : hashToken t % D = j
    · subst hij
      simp [specEmbedTokens, hj, List.countP_append, List.getD_eq_getElem?_getD]
    · simp [specEmbedTokens, hij, List.countP_append]

/-- For a dimension between 1 and 2^32 - 1, `EmbedTokens` returns the
bag-of-words vector of the specification. -/
theorem EmbedTokens_eq_spec (h : HashingEmbedder) (hpos : 0 < h.dimension)
    (hlt : h.dimension < 2 ^ 32) (tokens : List String) :
    (h.EmbedTokens tokens : Option (Vector F)) =
      some (specEmbedTokens h.dimension.toNat tokens) := by
  unfold HashingEmbedder.EmbedTokens
  have hneg : ¬ h.dimension < 0 := by omega
  simp only [hneg, if_false]
  induction tokens using List.reverseRecOn with
  | nil => rw [List.foldl_nil, specEmbedTokens_nil]
  | append_singleton ts t ih =>
    rw [List.foldl_append, ih, List.foldl_cons, List.foldl_nil,
      embedToken_eq h hpos hlt _ (specEmbedTokens_length _ _), specEmbedTokens_snoc]

theorem sum_range_indicator (D i : Nat) :
    ((List.range D).map (fun j => if i = j then (1 : F) else 0)).sum =
      if i < D then 1 else 0 := by
  induction D with
  | zero => simp
  | succ n ih =>
    rw [List.range_succ, List.map_append, List.sum_append, ih]
    by_cases h1 : i < n
    · have h2 : ¬ i = n := by omega
      have h3 : i < n + 1 := by omega
      simp [h1, h2, h3]
    · by_cases h2 : i = n
      · simp [h2]
      · have h3 : ¬ i < n + 1 := by omega
        simp [h1, h2, h3]

/-- The coordinates of the bag-of-words vector sum to the number of tokens. -/
theorem specEmbedTokens_sum (D : Nat) (hD : 0 < D) (tokens : List String) :
    (specEmbedTokens D tokens : Vector F).sum = (tokens.length : F) := by
  induction tokens with
  | nil => simp [specEmbedTokens]
  | cons t ts ih =>
    have hsplit : (specEmbedTokens D (t :: ts) : Vector F) =
        (List.range D).map (fun j =>
          ((ts.countP (fun t => decide (hashToken t % D = j)) : Nat) : F) +
            (if hashToken t % D = j then (1 : F) else 0)) := by
      unfold specEmbedTokens
      apply List.map_congr_left
      intro j _
      rw [List.countP_cons]
      by_cases hj : hashToken t % D = j <;> simp [hj]
    rw [hsplit, List.sum_map_add, sum_range_indicator, if_pos (Nat.mod_lt _ hD)]
    have : ((List.range D).map (fun j =>
        ((ts.countP (fun t => decide (hashToken t % D = j)) : Nat) : F))).sum =
        (ts.length : F) := ih
    rw [this]
    simp

theorem sum_set_succ (vec : Vector F) (i : Nat) (hi : i < vec.length) :
    (vec.set i (vec.getD i 0 + 1)).sum = vec.sum + 1 := by
  induction vec generalizing i with
  | nil => simp at hi
  | cons a r ih =>
    cases i with
    | zero => simp; ring
    | succ k =>
      have hk : k < r.length := by simpa using hi
      have := ih k hk
      simp only [List.set_cons_succ, List.sum_cons, List.getD_cons_succ]
      rw [this]
      ring

/-- Whenever `EmbedTokens` returns, the vector has the length of the
dimension and non-negative coordinates that sum to the number of tokens. -/
theorem EmbedTokens_sum (h : HashingEmbedder) (tokens : List String) (vec : Vector F)
    (hv : h.EmbedTokens tokens = some vec) :
    vec.length = h.dimension.toNat ∧ (∀ x ∈ vec, 0 ≤ x) ∧ vec.sum = (tokens.length : F) := by
  unfold HashingEmbedder.EmbedTokens at hv
  by_cases hneg : h.dimension < 0
  · simp [hneg] at hv
  · simp only [hneg, if_false] at hv
    have hnone : ∀ ts : List String, ts.foldl (embedToken h) (none : Option (Vector F)) = none := by
      intro ts
      induction ts with
      | nil => rfl
      | cons a r ih => rw [List.foldl_cons]; exact ih
    have hfold : ∀ (ts : List String) (acc vec : Vector F),
        ts.foldl (embedToken h) (some acc) = some vec → (∀ x ∈ acc, 0 ≤ x) →
        vec.length = acc.length ∧ (∀ x ∈ vec, 0 ≤ x) ∧ vec.sum = acc.sum + (ts.length : F) := by
      intro ts
      induction ts with
      | nil =>
        intro acc vec hfv hacc
        simp only [List.foldl_nil, Option.some.injEq] at hfv
        subst hfv
        exact ⟨rfl, hacc, by simp⟩
      | cons t r ih =>
        intro acc vec hfv hacc
        rw [List.foldl_cons] at hfv
        cases hstep : embedToken h (some acc) t with
        | none =>
          rw [hstep, hnone] at hfv
          exact absurd hfv (by simp)
        | some acc' =>
          rw [hstep] at hfv
          replace hstep : (if h.dimension % 2 ^ 32 = 0 then none
              else if hashToken t % (h.dimension % 2 ^ 32).toNat < acc.length then
                some (acc.set (hashToken t % (h.dimension % 2 ^ 32).toNat)
                  (acc.getD (hashToken t % (h.dimension % 2 ^ 32).toNat) 0 + 1))
              else none) = some acc' := hstep
          by_cases hz : h.dimension % 2 ^ 32 = 0
          · rw [if_pos hz] at hstep
            exact absurd hstep (by simp)
          · rw [if_neg hz] at hstep
            by_cases hi : hashToken t % (h.dimension % 2 ^ 32).toNat < acc.length
            · rw [if_pos hi] at hstep
              replace hstep := Option.some.inj hstep
              have hacc' : ∀ x ∈ acc', 0 ≤ x := by
                intro x hx
                rw [← hstep] at hx
                rcases List.mem_or_eq_of_mem_set hx with hx | hx
                · exact hacc x hx
                · rw [hx, List.getD_eq_getElem _ _ hi]
                  have := hacc _ (List.getElem_mem hi)
                  linarith
              obtain ⟨h1, h2, h3⟩ := ih acc' vec hfv hacc'
              refine ⟨?_, h2, ?_⟩
              · rw [h1, ← hstep, List.length_set]
              · rw [h3, ← hstep, sum_set_succ _ _ hi]
                simp only [List.length_cons, Nat.cast_add, Nat.cast_one]
                ring
            · rw [if_neg hi] at hstep
              exact absurd hstep (by simp)
    obtain ⟨h1, h2, h3⟩ := hfold tokens _ vec hv (by simp)
    refine ⟨by simpa using h1, h2, ?_⟩
    rw [h3]
    simp

end Embedder

section EmbedderClaims

open Semantic

variable {F : Type} [LinearOrderedField F]

/-- For a dimension `D` between 1 and 2^32 - 1 and every text `s`,
`EmbedText(s)` is `EmbedTokens(Tokenize(s))`, a vector of length `D` whose
coordinate `i` is the number of tokens of `Tokenize(s)` with hash modulo `D`
equal to `i`, and whose coordinates sum to the number of tokens. -/
theorem EmbedText_counts (h : HashingEmbedder) (hpos : 0 < h.dimension)
    (hlt : h.dimension < 2 ^ 32) (s : String) :
    (h.EmbedText s : Option (Vector F)) = h.EmbedTokens (Tokenize s) ∧
      ∃ vec : Vector F, h.EmbedText s = some vec ∧ vec.length = h.dimension.toNat ∧
        (∀ i, i < h.dimension.toNat → vec.getD i 0 =
          (((Tokenize s).countP
            (fun t => decide (hashToken t % h.dimension.toNat = i)) : Nat) : F)) ∧
        vec.sum = ((Tokenize s).length : F) := by
  refine ⟨rfl, specEmbedTokens h.dimension.toNat (Tokenize s),
    EmbedTokens_eq_spec h hpos hlt _, specEmbedTokens_length _ _, ?_,
    specEmbedTokens_sum _ (by omega) _⟩
  intro i hi
  simp [specEmbedTokens, hi, List.getD_eq_getElem?_getD]

theorem EmbedTokens_single_of_mod_zero (h : HashingEmbedder) (hpos : 0 ≤ h.dimension)
    (hmod : h.dimension % 2 ^ 32 = 0) (t : String) :
    (h.EmbedTokens [t] : Option (Vector F)) = none := by
  unfold HashingEmbedder.EmbedTokens
  rw [if_neg (not_lt.2 hpos), List.foldl_cons, List.foldl_nil]
  unfold embedToken
  simp only [hmod, if_true]

theorem EmbedTokens_single_of_mod_one (h : HashingEmbedder) (hpos : 0 < h.dimension)
    (hmod : h.dimension % 2 ^ 32 = 1) (t : String) :
    ∃ vec : Vector F, h.EmbedTokens [t] = some vec ∧ vec.getD 0 0 = 1 := by
  unfold HashingEmbedder.EmbedTokens
  rw [if_neg (not_lt.2 (le_of_lt hpos)), List.foldl_cons, List.foldl_nil]
  unfold embedToken
  have hz : ¬ h.dimension % 2 ^ 32 = 0 := by
    rw [hmod]
    decide
  have hlen : 0 < (List.replicate h.dimension.toNat (0 : F)).length := by
    rw [List.length_replicate]
    omega
  have hone : (h.dimension % 2 ^ 32).toNat = 1 := by
    rw [hmod]
    rfl
  simp only [hz, if_false, hone, Nat.mod_one, hlen, if_true]
  refine ⟨_, rfl, ?_⟩
  rw [List.getD_eq_getElem _ _ (by rw [List.length_set]; exact hlen), List.getElem_set_self,
    List.getD_eq_getElem _ _ hlen, List.getElem_replicate]
  norm_num

/-- C24, at the failing inputs.  With the dimension 2^32 the modulus
`uint32(h.dimension)` is 0 and `EmbedText("a")` ends in a run-time panic
(integer division by zero) instead of returning a vector.  With the dimension
2^32 + 1 the modulus is 1: `EmbedText("a")` counts the token "a" in
coordinate 0, while the hash of "a" modulo the dimension is not 0. -/
theorem C24_embedder_truncates_dimension :
    ((0 : Int) < 2 ^ 32 ∧ Tokenize "a" = ["a"] ∧
      (({ dimension := 2 ^ 32 } : HashingEmbedder).EmbedText "a" : Option (Vector ℚ)) = none) ∧
    ((0 : Int) < 2 ^ 32 + 1 ∧ hashToken "a" % (2 ^ 32 + 1) ≠ 0 ∧
      ∃ vec : Vector ℚ, ({ dimension := 2 ^ 32 + 1 } : HashingEmbedder).EmbedText "a" = some vec ∧
        vec.getD 0 0 = 1) := by
  have htok : Tokenize "a" = ["a"] := by decide
  refine ⟨⟨by decide, htok, ?_⟩, by decide, by decide!, ?_⟩
  · unfold HashingEmbedder.EmbedText
    rw [htok]
    exact EmbedTokens_single_of_mod_zero _ (by decide) (by decide) "a"
  · unfold HashingEmbedder.EmbedText
    rw [htok]
    exact EmbedTokens_single_of_mod_one _ (by decide) (by decide) "a"

end EmbedderClaims

/-! ## Reachable states of the semantic index -/

section SemanticStates

open Semantic

variable {F : Type} [LinearOrderedField F]

theorem lastDoc_append (docs : List Document) (doc : Document) (d : String) :
    lastDoc (docs ++ [doc]) d = if doc.ID = d then some doc else lastDoc docs d := by
  unfold lastDoc
  rw [List.reverse_append]
  by_cases h : doc.ID = d <;> simp [List.find?_cons, h]

theorem addAll_append (i : Index F) (docs : List Document) (doc : Document) :
    i.addAll (docs ++ [doc]) = (i.addAll docs).bind (fun idx => idx.AddDocument doc) := by
  simp [Index.addAll, List.foldl_append]

/-- The signature is one character per hyperplane: '1' when the dot product
with the hyperplane is at least 0, and '0' otherwise. -/
theorem signature_eq (i : Index F) (vec : Vector F) :
    i.signature vec =
      String.mk (i.hyperplanes.map (fun plane => if dot vec plane ≥ 0 then '1' else '0')) := by
  unfold Index.signature
  congr 1
  have hfold : ∀ (l : List (Vector F)) (init : List Char),
      l.foldl (fun sb plane => if dot vec plane ≥ 0 then sb ++ ['1'] else sb ++ ['0']) init =
        init ++ l.map (fun plane => if dot vec plane ≥ 0 then '1' else '0') := by
    intro l
    induction l with
    | nil => simp
    | cons a r ih =>
      intro init
      rw [List.foldl_cons, ih]
      by_cases h : dot vec a ≥ 0 <;> simp [h]
  rw [hfold]
  rfl

/-- The call `AddDocument` when the embedder returns a vector that is not
empty: the vector is stored and the id joins the bucket of its signature. -/
theorem AddDocument_eq (i : Index F) (doc : Document) (vec : Vector F)
    (hv : i.embedder.EmbedText doc.Content = some vec) (hlen : vec.length ≠ 0) :
    i.AddDocument doc = some { i with
      vectors := i.vectors.set doc.ID vec
      buckets := i.buckets.set (i.signature vec)
        (((i.buckets.get? (i.signature vec)).getD []).set doc.ID ()) } := by
  unfold Index.AddDocument
  rw [hv]
  simp only [hlen, if_false]
  cases i.buckets.get? (i.signature vec) <;> rfl

/-- An empty index of positive dimension reflects the empty history. -/
theorem semReflects_new (i₀ : Index F) (hb : i₀.buckets = []) (hv : i₀.vectors = []) :
    SemReflects [] i₀ i₀ where
  embedder := rfl
  hyperplanes := rfl
  vectors := fun d => by simp [hv, GoMap.get?, lastDoc]
  buckets := fun d vec h => by simp [hv, GoMap.get?] at h
  bucketIds := fun sig bucket d h => by simp [hb, GoMap.get?] at h
  nodupVectors := by simp [hv, GoMap.keys]
  nodupBucket := fun sig bucket h => by simp [hb, GoMap.get?] at h

/-- One call of `AddDocument` on an index of positive dimension keeps the
invariant. -/
theorem semReflects_add {docs : List Document} {i₀ i i' : Index F}
    (h : SemReflects docs i₀ i) (hpos : 0 < i₀.embedder.dimension) (doc : Document)
    (hadd : i.AddDocument doc = some i') : SemReflects (docs ++ [doc]) i₀ i' := by
  cases hv : (i.embedder.EmbedText doc.Content : Option (Vector F)) with
  | none =>
    unfold Index.AddDocument at hadd
    rw [hv] at hadd
    exact absurd hadd (by simp)
  | some vec =>
    have hlen : vec.length ≠ 0 := by
      have := (EmbedTokens_sum i.embedder _ vec hv).1
      rw [this, h.embedder]
      omega
    rw [AddDocument_eq i doc vec hv hlen] at hadd
    have hi' := Option.some.inj hadd
    subst hi'
    have hsig : ∀ v : Vector F,
        Index.signature ({ i with
          vectors := i.vectors.set doc.ID vec
          buckets := i.buckets.set (i.signature vec)
            (((i.buckets.get? (i.signature vec)).getD []).set doc.ID ()) } : Index F) v =
          i.signature v := fun v => rfl
    have hold : ∀ d, d ∈ ((i.buckets.get? (i.signature vec)).getD []).keys →
        d ∈ i.vectors.keys := by
      intro d hd
      cases hb : i.buckets.get? (i.signature vec) with
      | none => simp [hb, GoMap.keys] at hd
      | some b =>
        rw [hb] at hd
        exact h.bucketIds _ b d hb hd
    refine ⟨h.embedder, h.hyperplanes, ?_, ?_, ?_, GoMap.nodup_keys_set h.nodupVectors _ _, ?_⟩
    · intro d
      show (i.vectors.set doc.ID vec).get? d = _
      rw [GoMap.get?_set, lastDoc_append]
      by_cases hd : d = doc.ID
      · subst hd
        simp only [if_true, Option.some_bind]
        rw [← h.embedder, hv]
      · rw [if_neg hd, if_neg (Ne.symm hd)]
        exact h.vectors d
    · intro d v hd
      rw [hsig]
      replace hd : (i.vectors.set doc.ID vec).get? d = some v := hd
      show ∃ bucket, (i.buckets.set (i.signature vec)
        (((i.buckets.get? (i.signature vec)).getD []).set doc.ID ())).get? (i.signature v) =
          some bucket ∧ d ∈ bucket.keys
      rw [GoMap.get?_set] at hd
      by_cases hdd : d = doc.ID
      · rw [if_pos hdd] at hd
        have hvv : vec = v := Option.some.inj hd
        subst hvv
        refine ⟨_, GoMap.get?_set_self _ _ _, ?_⟩
        rw [GoMap.mem_keys_set]
        exact Or.inl hdd
      · rw [if_neg hdd] at hd
        obtain ⟨b, hb, hmem⟩ := h.buckets d v hd
        by_cases hs : i.signature v = i.signature vec
        · rw [hs] at hb ⊢
          refine ⟨_, GoMap.get?_set_self _ _ _, ?_⟩
          rw [GoMap.mem_keys_set, hb]
          exact Or.inr hmem
        · exact ⟨b, by rw [GoMap.get?_set_of_ne _ _ hs]; exact hb, hmem⟩
    · intro sig bucket d hb hd
      replace hb : (i.buckets.set (i.signature vec)
        (((i.buckets.get? (i.signature vec)).getD []).set doc.ID ())).get? sig = some bucket := hb
      show d ∈ (i.vectors.set doc.ID vec).keys
      rw [GoMap.mem_keys_set]
      rw [GoMap.get?_set] at hb
      by_cases hs : sig = i.signature vec
      · rw [if_pos hs] at hb
        rw [← Option.some.inj hb, GoMap.mem_keys_set] at hd
        rcases hd with hd | hd
        · exact Or.inl hd
        · exact Or.inr (hold d hd)
      · rw [if_neg hs] at hb
        exact Or.inr (h.bucketIds sig bucket d hb hd)
    · intro sig bucket hb
      replace hb : (i.buckets.set (i.signature vec)
        (((i.buckets.get? (i.signature vec)).getD []).set doc.ID ())).get? sig = some bucket := hb
      rw [GoMap.get?_set] at hb
      by_cases hs : sig = i.signature vec
      · rw [if_pos hs] at hb
        rw [← Option.some.inj hb]
        apply GoMap.nodup_keys_set
        cases hb' : i.buckets.get? (i.signature vec) with
        | none => simp [GoMap.keys]
        | some b => exact h.nodupBucket _ b hb'
      · rw [if_neg hs] at hb
        exact h.nodupBucket sig bucket hb

/-- Every state reached by `AddDocument` calls from an empty index of
positive dimension satisfies the invariant. -/
theorem semReflects_addAll (i₀ : Index F) (hpos : 0 < i₀.embedder.dimension)
    (hb : i₀.buckets = []) (hv : i₀.vectors = []) (docs : List Document) (i : Index F)
    (h : i₀.addAll docs = some i) : SemReflects docs i₀ i := by
  induction docs using List.reverseRecOn generalizing i with
  | nil =>
    simp only [Index.addAll, List.foldl_nil, Option.some.injEq] at h
    subst h
    exact semReflects_new i₀ hb hv
  | append_singleton docs doc ih =>
    rw [addAll_append] at h
    cases hprev : i₀.addAll docs with
    | none =>
      rw [hprev] at h
      exact absurd h (by simp)
    | some j =>
      rw [hprev] at h
      exact semReflects_add (ih j hprev) hpos doc h

/-- For a dimension between 1 and 2^32 - 1, `AddDocument` returns. -/
theorem AddDocument_isSome (i : Index F) (hpos : 0 < i.embedder.dimension)
    (hlt : i.embedder.dimension < 2 ^ 32) (doc : Document) :
    (i.AddDocument doc).isSome = true := by
  have hv : (i.embedder.EmbedText doc.Content : Option (Vector F)) =
      some (specEmbedTokens i.embedder.dimension.toNat (Tokenize doc.Content)) :=
    EmbedTokens_eq_spec i.embedder hpos hlt _
  rw [AddDocument_eq i doc _ hv (by rw [specEmbedTokens_length]; omega)]
  rfl

end SemanticStates

/-! ## `Query` on a small index -/

section SemanticSmall

open Semantic

variable {F : Type} [LinearOrderedField F]

/-- A product that fits into 64 bits is its own value as an `int`. -/
theorem wrapInt_eq (x : Int) (h₁ : -2 ^ 63 ≤ x) (h₂ : x < 2 ^ 63) : wrapInt x = x := by
  unfold wrapInt
  have e : (x + 2 ^ 63) % 2 ^ 64 = x + 2 ^ 63 := Int.emod_eq_of_lt (by omega) (by omega)
  rw [e]
  ring

/-- The fallback scan takes every stored id when `5*topK` does not overflow
and the cap of `5*topK` candidates is out of reach. -/
theorem scanVectors_all (topK : Int) (hcap : 5 * topK < 2 ^ 63)
    (l : List (String × Vector F)) (candidates : List String)
    (h : ((candidates.length + l.length : Nat) : Int) < 5 * topK) :
    scanVectors topK candidates l = candidates ++ l.map Prod.fst := by
  have hw : wrapInt (5 * topK) = 5 * topK := wrapInt_eq _ (by omega) hcap
  induction l generalizing candidates with
  | nil => simp [scanVectors]
  | cons e rest ih =>
    obtain ⟨docID, v⟩ := e
    unfold scanVectors
    have hlt : ¬ (((candidates ++ [docID]).length : Int) ≥ wrapInt (5 * topK) ∧ topK > 0) := by
      intro hc
      have := hc.1
      rw [hw] at this
      simp only [List.length_append, List.length_cons, List.length_nil] at this h
      push_cast at this h
      omega
    simp only [hlt, if_false]
    rw [ih]
    · simp
    · simp only [List.length_append, List.length_cons, List.length_nil] at h ⊢
      push_cast at h ⊢
      omega

/-- In a reachable state that holds at most `topK` vectors, for `topK > 0`
with `5*topK` below 2^63, `Query` scores every stored id once. -/
theorem scoreCandidates_all {docs : List Document} {i₀ i : Index F}
    (hr : SemReflects docs i₀ i) (env : QueryEnv F) (vec : Vector F) (topK : Int)
    (hk : 0 < topK) (hcap : 5 * topK < 2 ^ 63) (hsmall : i.vectors.len ≤ topK) :
    ((i.scoreCandidates env vec topK).map (fun c => c.DocID)).Perm i.vectors.keys := by
  unfold Index.scoreCandidates
  simp only [scoreFold_eq, List.nil_append, foldl_append_map]
  rw [map_DocID_filterMap_scored]
  generalize hb : (i.buckets.get? (i.signature vec)).getD [] = bucket
  have hbnd : bucket.keys.Nodup := by
    cases hg : i.buckets.get? (i.signature vec) with
    | none =>
      rw [hg] at hb
      rw [← hb]
      exact List.nodup_nil
    | some b =>
      rw [hg] at hb
      rw [← hb]
      exact hr.nodupBucket _ b hg
  have hbsub : ∀ d, d ∈ bucket.keys → d ∈ i.vectors.keys := by
    intro d hd
    cases hg : i.buckets.get? (i.signature vec) with
    | none =>
      rw [hg] at hb
      rw [← hb] at hd
      simp [GoMap.keys] at hd
    | some b =>
      rw [hg] at hb
      rw [← hb] at hd
      exact hr.bucketIds _ b d hg hd
  have hc0 : ((env.bucketOrder.pick bucket).map (fun e => e.1)).Perm bucket.keys :=
    (env.bucketOrder.perm bucket).map Prod.fst
  have hvp : ((env.vectorOrder.pick i.vectors).map Prod.fst).Perm i.vectors.keys :=
    (env.vectorOrder.perm i.vectors).map Prod.fst
  have hlen0 : ((env.bucketOrder.pick bucket).map (fun e => e.1)).length ≤ i.vectors.length := by
    have hsp : bucket.keys.Subperm i.vectors.keys :=
      List.subperm_of_subset hbnd (fun d hd => hbsub d hd)
    have := hsp.length_le
    rw [hc0.length_eq]
    simpa [GoMap.keys] using this
  have hsmall' : ((i.vectors.length : Nat) : Int) ≤ topK := hsmall
  have hmem : ∀ id, id ∈ (if (((env.bucketOrder.pick bucket).map (fun e => e.1)).length : Int) < topK
      then scanVectors topK ((env.bucketOrder.pick bucket).map (fun e => e.1))
        (env.vectorOrder.pick i.vectors)
      else (env.bucketOrder.pick bucket).map (fun e => e.1)) ↔ id ∈ i.vectors.keys := by
    intro id
    by_cases hlt : (((env.bucketOrder.pick bucket).map (fun e => e.1)).length : Int) < topK
    · rw [if_pos hlt, scanVectors_all topK hcap]
      · rw [List.mem_append, hvp.mem_iff, hc0.mem_iff]
        constructor
        · rintro (h | h)
          · exact hbsub id h
          · exact h
        · exact fun h => Or.inr h
      · rw [(env.vectorOrder.perm i.vectors).length_eq]
        push_cast
        omega
    · rw [if_neg hlt, hc0.mem_iff]
      have hsp : bucket.keys.Subperm i.vectors.keys :=
        List.subperm_of_subset hbnd (fun d hd => hbsub d hd)
      have hp : bucket.keys.Perm i.vectors.keys := by
        apply hsp.perm_of_length_le
        have h1 := hc0.length_eq
        have h2 : i.vectors.keys.length = i.vectors.length := by simp [GoMap.keys]
        omega
      exact hp.mem_iff
  obtain ⟨hund, hunm⟩ := uniqueLoop_spec [] [] (if
      (((env.bucketOrder.pick bucket).map (fun e => e.1)).length : Int) < topK
      then scanVectors topK ((env.bucketOrder.pick bucket).map (fun e => e.1))
        (env.vectorOrder.pick i.vectors)
      else (env.bucketOrder.pick bucket).map (fun e => e.1)) List.nodup_nil
      (by simp [GoMap.get?])
  have hfilter : ∀ l : List String, (∀ id ∈ l, id ∈ i.vectors.keys) →
      l.filter (fun id => (i.vectors.get? id).isSome) = l := by
    intro l hl
    rw [List.filter_eq_self]
    intro id hid
    exact (GoMap.isSome_get?_iff _ _).2 (hl id hid)
  rw [hfilter _ (fun id hid => (hmem id).1 (by simpa using (hunm id).1 hid))]
  refine (List.perm_ext_iff_of_nodup hund hr.nodupVectors).2 (fun id => ?_)
  rw [hunm id, hmem id]
  simp

end SemanticSmall

section SemanticSmallClaim

open Semantic

variable {F : Type} [LinearOrderedField F]

/-- For an index built by `NewIndex` and filled by `AddDocument` calls,
whatever the hyperplanes, the buckets and the order of the map ranges, for
`top_k > 0` with `5*top_k` below 2^63 and at most `top_k` stored vectors, the
list `Query(q, top_k)` returns holds every stored id exactly once, each with
its cosine similarity to the query vector; so its first entry has the largest
cosine similarity among all stored documents, and the smallest id among those
that reach it.  `Query` returns such a list whenever the dimension is below
2^32. -/
theorem Query_scores_every_document (env : QueryEnv F) (now : Int)
    (normFloat64 : Int → Nat → F) (opts : Options) (i₀ i : Index F) (docs : List Document)
    (h₀ : NewIndex now normFloat64 opts = some i₀) (h : i₀.addAll docs = some i)
    (query : String) (topK : Int) (hk : 0 < topK) (hcap : 5 * topK < 2 ^ 63)
    (hsmall : i.vectors.len ≤ topK) :
    (i.embedder.dimension < 2 ^ 32 → (i.Query env query topK).isSome = true) ∧
    ∀ results, i.Query env query topK = some results →
      (results.map (fun c => c.DocID)).Perm i.vectors.keys ∧ i.vectors.keys.Nodup ∧
      ∃ vec, i.embedder.EmbedText query = some vec ∧
        (∀ c ∈ results, ∃ vecDoc, i.vectors.get? c.DocID = some vecDoc ∧
          c.Score = cosineSimilarity env.sqrt vec vecDoc) ∧
        (∀ first rest, results = first :: rest → ∀ d vecDoc, i.vectors.get? d = some vecDoc →
          cosineSimilarity env.sqrt vec vecDoc ≤ first.Score ∧
            (cosineSimilarity env.sqrt vec vecDoc = first.Score → first.DocID ≤ d)) := by
  obtain ⟨hpos, hb, hv⟩ := NewIndex_some now normFloat64 opts i₀ h₀
  have hr := semReflects_addAll i₀ hpos hb hv docs i h
  have hpos' : 0 < i.embedder.dimension := by rw [hr.embedder]; exact hpos
  refine ⟨fun hlt => Query_isSome env i hpos' hlt query topK, ?_⟩
  intro results hq
  cases hvec : (i.embedder.EmbedText query : Option (Vector F)) with
  | none =>
    unfold Index.Query at hq
    rw [hvec] at hq
    exact absurd hq (by simp)
  | some vec =>
    have hlen : ¬ vec.length = 0 := by
      rw [(EmbedTokens_sum i.embedder _ vec hvec).1]
      omega
    have hall := scoreCandidates_all hr env vec topK hk hcap hsmall
    obtain ⟨hnd, hstored⟩ := scoreCandidates_spec env i vec topK
    have hperm := sortSlice_perm candidateLess (i.scoreCandidates env vec topK)
    have hsorted := candidates_sorted_strict _ hnd
    have hnot : ¬ (topK > 0 ∧
        ((sortSlice candidateLess (i.scoreCandidates env vec topK)).length : Int) > topK) := by
      rintro ⟨_, hgt⟩
      have h1 := hperm.length_eq
      have h2 := hall.length_eq
      simp only [List.length_map, GoMap.keys] at h2
      have h3 : ((i.vectors.length : Nat) : Int) ≤ topK := hsmall
      omega
    rw [Query_eq env i query topK vec hvec] at hq
    simp only [hlen, hnot, if_false, Option.some.injEq] at hq
    subst hq
    have hids : ((sortSlice candidateLess (i.scoreCandidates env vec topK)).map
        (fun c => c.DocID)).Perm i.vectors.keys := (hperm.map _).trans hall
    refine ⟨hids, hr.nodupVectors, vec, rfl, ?_, ?_⟩
    · intro c hc
      exact hstored c (hperm.mem_iff.1 hc)
    · intro first rest hres d vecDoc hd
      have hdk : d ∈ i.vectors.keys := by
        rw [← GoMap.isSome_get?_iff, hd]
        rfl
      obtain ⟨c, hc, hcd⟩ := List.mem_map.1 (hids.mem_iff.2 hdk)
      obtain ⟨v', hv', hscore⟩ := hstored c (hperm.mem_iff.1 hc)
      have hcd' : c.DocID = d := hcd
      rw [hcd', hd] at hv'
      have hvv : vecDoc = v' := Option.some.inj hv'
      rw [hvv, ← hscore]
      rw [hres] at hc hsorted
      rcases List.mem_cons.1 hc with hc | hc
      · rw [hc, ← hcd']
        rw [hc]
        exact ⟨le_refl _, fun _ => le_refl _⟩
      · rcases (List.pairwise_cons.1 hsorted).1 c hc with hgt | ⟨heq, hlt⟩
        · exact ⟨le_of_lt hgt, fun he => absurd he (ne_of_lt hgt)⟩
        · rw [hcd'] at hlt
          exact ⟨le_of_eq heq.symm, fun _ => le_of_lt hlt⟩

end SemanticSmallClaim

/-! ## Cosine similarity -/

section Cosine

open Semantic

variable {F : Type} [LinearOrderedField F]

theorem foldl_add_eq_sum (l : List F) (init : F) :
    l.foldl (fun sum p => sum + p) init = init + l.sum := by
  induction l generalizing init with
  | nil => simp
  | cons a r ih => rw [List.foldl_cons, ih, List.sum_cons, add_assoc]

theorem foldl_sq_eq_sum (a : Vector F) (init : F) :
    a.foldl (fun sum v => sum + v * v) init = init + (a.map (fun v => v * v)).sum := by
  induction a generalizing init with
  | nil => simp
  | cons x r ih => rw [List.foldl_cons, ih, List.map_cons, List.sum_cons, add_assoc]

theorem dot_eq_sum (a b : Vector F) :
    dot a b = (List.zipWith (fun x y => x * y) a b).sum := by
  unfold dot
  rw [foldl_add_eq_sum, zero_add]

theorem magnitude_eq (sqrt : F → F) (a : Vector F) :
    magnitude sqrt a = sqrt (a.map (fun v => v * v)).sum := by
  unfold magnitude
  rw [foldl_sq_eq_sum, zero_add]

theorem sumsq_nonneg (a : Vector F) : 0 ≤ (a.map (fun v => v * v)).sum := by
  induction a with
  | nil => simp
  | cons x r ih =>
    rw [List.map_cons, List.sum_cons]
    exact add_nonneg (mul_self_nonneg x) ih

/-- The Cauchy-Schwarz inequality for the dot product over the common length
of two vectors. -/
theorem dot_sq_le (a b : Vector F) :
    (List.zipWith (fun x y => x * y) a b).sum ^ 2 ≤
      (a.map (fun v => v * v)).sum * (b.map (fun v => v * v)).sum := by
  induction a generalizing b with
  | nil =>
    simp only [List.zipWith_nil_left, List.sum_nil, List.map_nil, zero_mul]
    norm_num
  | cons x r ih =>
    cases b with
    | nil =>
      simp only [List.zipWith_nil_right, List.sum_nil, List.map_nil, mul_zero]
      norm_num
    | cons y s =>
      simp only [List.zipWith_cons_cons, List.sum_cons, List.map_cons]
      have hA := sumsq_nonneg r
      have hB := sumsq_nonneg s
      have hS := ih s
      generalize (List.zipWith (fun x y => x * y) r s).sum = S at hS ⊢
      generalize (r.map (fun v => v * v)).sum = A at hA hS ⊢
      generalize (s.map (fun v => v * v)).sum = B at hB hS ⊢
      have key : 2 * (x * y) * S ≤ x * x * B + y * y * A := by
        rcases eq_or_lt_of_le hA with hA0 | hApos
        · have hS0 : S = 0 := by
            have : S ^ 2 ≤ 0 := by rw [← hA0, zero_mul] at hS; exact hS
            exact pow_eq_zero_iff (two_ne_zero) |>.1 (le_antisymm this (sq_nonneg S))
          rw [hS0, ← hA0]
          have := mul_nonneg (mul_self_nonneg x) hB
          linarith
        · have h1 : 0 ≤ A * (x * x * B + y * y * A - 2 * (x * y) * S) := by
            have e : A * (x * x * B + y * y * A - 2 * (x * y) * S) =
                (y * A - x * S) ^ 2 + x * x * (A * B - S ^ 2) := by ring
            rw [e]
            exact add_nonneg (sq_nonneg _)
              (mul_nonneg (mul_self_nonneg x) (sub_nonneg.2 hS))
          have := nonneg_of_mul_nonneg_right h1 hApos
          linarith
      nlinarith [key, hS]

/-- With an exact square root, the cosine similarity of any two vectors lies
between -1 and 1. -/
theorem cosineSimilarity_bounds (sqrt : F → F)
    (hsqrt : ∀ x, 0 ≤ x → 0 ≤ sqrt x ∧ sqrt x * sqrt x = x) (a b : Vector F) :
    -1 ≤ cosineSimilarity sqrt a b ∧ cosineSimilarity sqrt a b ≤ 1 := by
  unfold cosineSimilarity
  simp only [magnitude_eq, dot_eq_sum]
  obtain ⟨ha0, ha⟩ := hsqrt _ (sumsq_nonneg a)
  obtain ⟨hb0, hb⟩ := hsqrt _ (sumsq_nonneg b)
  have hcs := dot_sq_le a b
  generalize (List.zipWith (fun x y => x * y) a b).sum = S at hcs ⊢
  generalize (a.map (fun v => v * v)).sum = A at ha0 ha hcs ⊢
  generalize (b.map (fun v => v * v)).sum = B at hb0 hb hcs ⊢
  by_cases hm : sqrt A * sqrt B = 0
  · simp [hm]
  · simp only [hm, if_false]
    have hmpos : 0 < sqrt A * sqrt B :=
      lt_of_le_of_ne (mul_nonneg ha0 hb0) (Ne.symm hm)
    have hsq : S ^ 2 ≤ (sqrt A * sqrt B) ^ 2 := by
      have : (sqrt A * sqrt B) ^ 2 = A * B := by
        calc (sqrt A * sqrt B) ^ 2 = (sqrt A * sqrt A) * (sqrt B * sqrt B) := by ring
          _ = A * B := by rw [ha, hb]
      rw [this]
      exact hcs
    have habs := abs_le_of_sq_le_sq' hsq (le_of_lt hmpos)
    constructor
    · rw [le_div_iff₀ hmpos]
      linarith [habs.1]
    · rw [div_le_iff₀ hmpos]
      linarith [habs.2]

/-- With an exact square root, the cosine similarity of a vector with itself
is 1, unless the vector is zero. -/
theorem cosineSimilarity_self (sqrt : F → F)
    (hsqrt : ∀ x, 0 ≤ x → 0 ≤ sqrt x ∧ sqrt x * sqrt x = x) (a : Vector F)
    (hne : (a.map (fun v => v * v)).sum ≠ 0) : cosineSimilarity sqrt a a = 1 := by
  unfold cosineSimilarity
  simp only [magnitude_eq, dot_eq_sum]
  obtain ⟨_, ha⟩ := hsqrt _ (sumsq_nonneg a)
  have hzip : List.zipWith (fun x y => x * y) a a = a.map (fun v => v * v) := by
    induction a with
    | nil => rfl
    | cons x r ih => simp [List.zipWith_cons_cons]
  rw [hzip, ha]
  simp [hne]

/-- A vector with non-negative coordinates and a positive sum is not zero. -/
theorem sumsq_ne_zero (a : Vector F) (hnn : ∀ x ∈ a, 0 ≤ x) (hsum : 0 < a.sum) :
    (a.map (fun v => v * v)).sum ≠ 0 := by
  induction a with
  | nil => simp at hsum
  | cons x r ih =>
    rw [List.map_cons, List.sum_cons]
    have hx : 0 ≤ x := hnn x (List.mem_cons_self _ _)
    have hr : ∀ y ∈ r, 0 ≤ y := fun y hy => hnn y (List.mem_cons_of_mem _ hy)
    rcases eq_or_lt_of_le hx with hx0 | hxpos
    · rw [List.sum_cons, ← hx0, zero_add] at hsum
      have := ih hr hsum
      rw [← hx0]
      simpa using this
    · have h1 : 0 < x * x := mul_pos hxpos hxpos
      have h2 := sumsq_nonneg r
      intro h
      linarith

end Cosine

section CosineClaim

open Semantic

variable {F : Type} [LinearOrderedField F]

theorem scanVectors_subset (topK : Int) (l : List (String × Vector F)) (candidates : List String)
    (id : String) (h : id ∈ candidates) : id ∈ scanVectors topK candidates l := by
  induction l generalizing candidates with
  | nil => simpa [scanVectors] using h
  | cons e rest ih =>
    obtain ⟨docID, v⟩ := e
    unfold scanVectors
    have h' : id ∈ candidates ++ [docID] := List.mem_append_left _ h
    by_cases hc : ((candidates ++ [docID]).length : Int) ≥ wrapInt (5 * topK) ∧ topK > 0
    · simp only [hc, and_self, if_true]
      exact h'
    · simp only [hc, if_false]
      exact ih _ h'

/-- An id in the bucket of the signature of the query vector that has a stored
vector is among the scored candidates. -/
theorem mem_scoreCandidates (env : QueryEnv F) (i : Index F) (vec vecDoc : Vector F)
    (topK : Int) (d : String) (hb : inBucket i (i.signature vec) d)
    (hv : i.vectors.get? d = some vecDoc) :
    (⟨d, cosineSimilarity env.sqrt vec vecDoc⟩ : Candidate F) ∈
      i.scoreCandidates env vec topK := by
  obtain ⟨bucket, hbucket, hd⟩ := hb
  unfold Index.scoreCandidates
  simp only [scoreFold_eq, List.nil_append, foldl_append_map, hbucket, Option.getD_some]
  have hc0 : d ∈ (env.bucketOrder.pick bucket).map (fun e => e.1) :=
    ((env.bucketOrder.perm bucket).map Prod.fst).mem_iff.2 hd
  have hc : d ∈ (if (((env.bucketOrder.pick bucket).map (fun e => e.1)).length : Int) < topK
      then scanVectors topK ((env.bucketOrder.pick bucket).map (fun e => e.1))
        (env.vectorOrder.pick i.vectors)
      else (env.bucketOrder.pick bucket).map (fun e => e.1)) := by
    split
    · exact scanVectors_subset _ _ _ _ hc0
    · exact hc0
  have hu := ((uniqueLoop_spec [] [] _ List.nodup_nil (by simp [GoMap.get?])).2 d).2 (Or.inr hc)
  rw [List.mem_filterMap]
  exact ⟨d, hu, by simp [scoredCandidate, hv]⟩

/-- C23: with exact arithmetic and an exact square root (as over the reals),
every score in a list `Query` returns lies between -1 and 1; and when the
index was built by `NewIndex` and filled by `AddDocument` calls, for a query
text that is the content of the document last added under some id and has at
least one token, that document is among the scored candidates, and its score
is 1 wherever it appears in the list. -/
theorem C23_cosine_scores_bounded (env : QueryEnv F)
    (hsqrt : ∀ x, 0 ≤ x → 0 ≤ env.sqrt x ∧ env.sqrt x * env.sqrt x = x)
    (i : Index F) (query : String) (topK : Int) (results : List (Candidate F))
    (hq : i.Query env query topK = some results) :
    (∀ c ∈ results, -1 ≤ c.Score ∧ c.Score ≤ 1) ∧
    (∀ (now : Int) (normFloat64 : Int → Nat → F) (opts : Options) (i₀ : Index F)
        (docs : List Document),
      NewIndex now normFloat64 opts = some i₀ → i₀.addAll docs = some i →
      ∀ doc, lastDoc docs doc.ID = some doc → doc.Content = query → Tokenize query ≠ [] →
        (∃ vec, i.embedder.EmbedText query = some vec ∧
          ∃ c ∈ i.scoreCandidates env vec topK, c.DocID = doc.ID ∧ c.Score = 1) ∧
        (∀ c ∈ results, c.DocID = doc.ID → c.Score = 1)) := by
  cases hvec : (i.embedder.EmbedText query : Option (Vector F)) with
  | none =>
    unfold Index.Query at hq
    rw [hvec] at hq
    exact absurd hq (by simp)
  | some vec =>
    rw [Query_eq env i query topK vec hvec] at hq
    have hsub : ∀ c ∈ results, c ∈ i.scoreCandidates env vec topK := by
      intro c hc
      have hperm := sortSlice_perm candidateLess (i.scoreCandidates env vec topK)
      by_cases hlen : vec.length = 0
      · simp only [hlen, if_true, Option.some.injEq] at hq
        rw [← hq] at hc
        exact absurd hc (List.not_mem_nil _)
      · simp only [hlen, if_false] at hq
        by_cases hgt : topK > 0 ∧
            ((sortSlice candidateLess (i.scoreCandidates env vec topK)).length : Int) > topK
        · simp only [hgt, and_self, if_true, Option.some.injEq] at hq
          rw [← hq] at hc
          exact hperm.mem_iff.1 (List.mem_of_mem_take hc)
        · simp only [hgt, if_false, Option.some.injEq] at hq
          rw [← hq] at hc
          exact hperm.mem_iff.1 hc
    obtain ⟨_, hstored⟩ := scoreCandidates_spec env i vec topK
    constructor
    · intro c hc
      obtain ⟨v, _, hscore⟩ := hstored c (hsub c hc)
      rw [hscore]
      exact cosineSimilarity_bounds env.sqrt hsqrt vec v
    · intro now normFloat64 opts i₀ docs h₀ h doc hlast hcontent htok
      obtain ⟨hpos, hb, hv⟩ := NewIndex_some now normFloat64 opts i₀ h₀
      have hr := semReflects_addAll i₀ hpos hb hv docs i h
      have hstoredVec : i.vectors.get? doc.ID = some vec := by
        rw [hr.vectors, hlast, Option.some_bind, hcontent, ← hr.embedder]
        exact hvec
      obtain ⟨_, hnn, hsum⟩ := EmbedTokens_sum i.embedder _ vec hvec
      have hone : cosineSimilarity env.sqrt vec vec = 1 := by
        apply cosineSimilarity_self env.sqrt hsqrt
        apply sumsq_ne_zero vec hnn
        rw [hsum]
        have : 0 < (Tokenize query).length := List.length_pos.2 htok
        exact_mod_cast this
      refine ⟨⟨vec, rfl, _, mem_scoreCandidates env i vec vec topK doc.ID
        (hr.buckets doc.ID vec hstoredVec) hstoredVec, rfl, hone⟩, ?_⟩
      intro c hc hcd
      obtain ⟨v, hv', hscore⟩ := hstored c (hsub c hc)
      rw [hcd, hstoredVec] at hv'
      rw [hscore, ← Option.some.inj hv']
      exact hone

end CosineClaim

section SemanticInvariantClaim

open Semantic

variable {F : Type} [LinearOrderedField F]

/-- C21: in every state of an index built by `NewIndex` and filled by
`AddDocument` calls, the signature of a vector is a string with one character
per hyperplane, the `k`-th being '1' when the dot product with the `k`-th
hyperplane is at least 0 and '0' otherwise; every id with a stored vector is
in the bucket keyed by the signature of that vector; the stored vector of an
id is `EmbedText` of the content of the document last added under it; a
further `AddDocument(doc)` that returns leaves `EmbedText(doc.Content)` as
the stored vector of `doc.ID`, and it does return whenever the dimension is
below 2^32. -/
theorem C21_vector_in_bucket_of_signature (now : Int) (normFloat64 : Int → Nat → F)
    (opts : Options) (i₀ i : Index F) (docs : List Document)
    (h₀ : NewIndex now normFloat64 opts = some i₀) (h : i₀.addAll docs = some i) :
    (∀ vec : Vector F,
      (i.signature vec).data =
          i.hyperplanes.map (fun plane => if dot vec plane ≥ 0 then '1' else '0') ∧
        (i.signature vec).length = i.hyperplanes.length) ∧
    (∀ d vec, i.vectors.get? d = some vec → inBucket i (i.signature vec) d) ∧
    (∀ d, i.vectors.get? d =
      (lastDoc docs d).bind (fun doc => i.embedder.EmbedText doc.Content)) ∧
    (∀ doc i', i.AddDocument doc = some i' →
      ∃ vec, i.embedder.EmbedText doc.Content = some vec ∧
        i'.vectors.get? doc.ID = some vec ∧ inBucket i' (i'.signature vec) doc.ID) ∧
    (i.embedder.dimension < 2 ^ 32 → ∀ doc, (i.AddDocument doc).isSome = true) := by
  obtain ⟨hpos, hb, hv⟩ := NewIndex_some now normFloat64 opts i₀ h₀
  have hr := semReflects_addAll i₀ hpos hb hv docs i h
  have hpos' : 0 < i.embedder.dimension := by rw [hr.embedder]; exact hpos
  refine ⟨fun vec => ?_, hr.buckets, ?_, ?_, fun hlt doc => AddDocument_isSome i hpos' hlt doc⟩
  · rw [signature_eq]
    exact ⟨rfl, by simp [String.length]⟩
  · intro d
    rw [hr.vectors, hr.embedder]
  · intro doc i' hadd
    have hr' := semReflects_add hr hpos doc hadd
    have hvec := hr'.vectors doc.ID
    rw [lastDoc_append, if_pos rfl, Option.some_bind, ← hr.embedder] at hvec
    cases he : (i.embedder.EmbedText doc.Content : Option (Vector F)) with
    | none =>
      unfold Index.AddDocument at hadd
      rw [he] at hadd
      exact absurd hadd (by simp)
    | some vec =>
      rw [he] at hvec
      exact ⟨vec, rfl, hvec, hr'.buckets doc.ID vec hvec⟩

/-- C29, at the failing inputs: for a negative `Dimension`, and for a negative
`HyperplaneCount`, `NewIndex` ends in a run-time panic (`make` with a
negative length) instead of returning an index built with the defaults. -/
theorem C29_NewIndex_panics_on_negative_options (now : Int) (normFloat64 : Int → Nat → F) :
    NewIndex now normFloat64 ⟨-1, 16, 99⟩ = none ∧
      NewIndex now normFloat64 ⟨64, -1, 99⟩ = none :=
  ⟨NewIndex_of_neg now normFloat64 _ (Or.inl (by decide)),
    NewIndex_of_neg now normFloat64 _ (Or.inr (by decide))⟩

end SemanticInvariantClaim

/-! ## The claims about the semantic index at sample data -/

theorem planeIndex_new : Semantic.NewIndex 0 sampleNormFloat64 ⟨2, 1, 5⟩ = some planeIndex := by
  decide!

theorem C21_vector_in_bucket_of_signature_witness :
    Semantic.NewIndex 0 sampleNormFloat64 ⟨2, 1, 5⟩ = some planeIndex ∧
      planeIndex.addAll [docDa, docDb, docE] = some planeIndexFilled ∧
      planeIndexFilled.vectors.get? "e" = some [2, 1] ∧
      inBucket planeIndexFilled (planeIndexFilled.signature [2, 1]) "e" :=
  ⟨planeIndex_new, planeIndex_addAll, by decide!,
    (C21_vector_in_bucket_of_signature 0 sampleNormFloat64 ⟨2, 1, 5⟩ planeIndex planeIndexFilled
      [docDa, docDb, docE] planeIndex_new planeIndex_addAll).2.1 "e" [2, 1] (by decide!)⟩

theorem planeIndexFilled_query_a :
    planeIndexFilled.Query sampleQueryEnv "a" 2 = some [⟨"e", 2 / 5⟩, ⟨"d", 0⟩] := by
  decide!

theorem Query_scores_every_document_sample :
    Semantic.NewIndex 0 sampleNormFloat64 ⟨2, 1, 5⟩ = some planeIndex ∧
      planeIndex.addAll [docDa, docDb, docE] = some planeIndexFilled ∧
      (0 : Int) < 2 ∧ (5 : Int) * 2 < 2 ^ 63 ∧ planeIndexFilled.vectors.len ≤ 2 ∧
      planeIndexFilled.Query sampleQueryEnv "a" 2 = some [⟨"e", 2 / 5⟩, ⟨"d", 0⟩] ∧
      (([⟨"e", 2 / 5⟩, ⟨"d", 0⟩] : List (Candidate ℚ)).map (fun c => c.DocID)).Perm
        planeIndexFilled.vectors.keys :=
  ⟨planeIndex_new, planeIndex_addAll, by decide, by decide, by decide,
    planeIndexFilled_query_a,
    ((Query_scores_every_document sampleQueryEnv 0 sampleNormFloat64 ⟨2, 1, 5⟩ planeIndex
      planeIndexFilled [docDa, docDb, docE] planeIndex_new planeIndex_addAll "a" 2 (by decide)
      (by decide) (by decide)).2 _ planeIndexFilled_query_a).1⟩

theorem C23_cosine_scores_bounded_witness :
    (∀ x : ℝ, 0 ≤ x → 0 ≤ Real.sqrt x ∧ Real.sqrt x * Real.sqrt x = x) ∧
      (Semantic.Index.mk ⟨1⟩ [[1]] [("1", [("d", ())])] [("d", [1])] : Semantic.Index ℝ).Query
          ⟨Real.sqrt, RangeOrder.stored _, RangeOrder.stored _⟩ "a" 1 =
        some [⟨"d", Semantic.cosineSimilarity Real.sqrt [1] [1]⟩] ∧
      Semantic.NewIndex 0 (fun _ _ => (1 : ℝ)) ⟨1, 1, 1⟩ = some (Semantic.Index.fresh 1 [[1]]) ∧
      (Semantic.Index.fresh 1 [[(1 : ℝ)]]).addAll [⟨"d", "", "", "a", [], 0⟩] =
        some (Semantic.Index.mk ⟨1⟩ [[1]] [("1", [("d", ())])] [("d", [1])]) ∧
      Semantic.cosineSimilarity Real.sqrt [(1 : ℝ)] [1] = 1 :=
  have hsqrt : ∀ x : ℝ, 0 ≤ x → 0 ≤ Real.sqrt x ∧ Real.sqrt x * Real.sqrt x = x :=
    fun x hx => ⟨Real.sqrt_nonneg x, Real.mul_self_sqrt hx⟩
  have htok : Tokenize "a" = ["a"] := by decide
  have hemb : (Semantic.HashingEmbedder.mk 1).EmbedText "a" = some [(1 : ℝ)] := by
    unfold Semantic.HashingEmbedder.EmbedText Semantic.HashingEmbedder.EmbedTokens
    rw [htok]
    simp [Semantic.embedToken, Nat.mod_one]
  have hsig : ∀ i : Semantic.Index ℝ, i.hyperplanes = [[1]] → i.signature [1] = "1" := by
    intro i hi
    rw [signature_eq, hi]
    simp [Semantic.dot]
  have hnew : Semantic.NewIndex 0 (fun _ _ => (1 : ℝ)) ⟨1, 1, 1⟩ =
      some (Semantic.Index.fresh 1 [[1]]) := by
    rfl
  have hadd : (Semantic.Index.fresh 1 [[(1 : ℝ)]]).addAll [⟨"d", "", "", "a", [], 0⟩] =
      some (Semantic.Index.mk ⟨1⟩ [[1]] [("1", [("d", ())])] [("d", [1])]) := by
    simp only [Semantic.Index.addAll, List.foldl_cons, List.foldl_nil, Option.some_bind]
    rw [AddDocument_eq _ _ [1] hemb (by simp), hsig _ rfl]
    rfl
  have hq : (Semantic.Index.mk ⟨1⟩ [[1]] [("1", [("d", ())])] [("d", [1])] :
      Semantic.Index ℝ).Query ⟨Real.sqrt, RangeOrder.stored _, RangeOrder.stored _⟩ "a" 1 =
        some [⟨"d", Semantic.cosineSimilarity Real.sqrt [1] [1]⟩] := by
    rw [Query_eq _ _ _ _ [1] hemb]
    simp only [List.length_singleton, one_ne_zero, if_false]
    unfold Semantic.Index.scoreCandidates
    rw [hsig _ rfl]
    rfl
  ⟨hsqrt, hq, hnew, hadd,
    ((C23_cosine_scores_bounded ⟨Real.sqrt, RangeOrder.stored _, RangeOrder.stored _⟩ hsqrt _
      "a" 1 _ hq).2 0 (fun _ _ => 1) ⟨1, 1, 1⟩ _ [⟨"d", "", "", "a", [], 0⟩] hnew hadd
      ⟨"d", "", "", "a", [], 0⟩ rfl rfl (by decide)).2 _ (List.mem_singleton.2 rfl) rfl⟩

/-! ## Link resolution -/

/-- The last occurrence of a byte: either the byte does not occur and
`strings.LastIndex` is -1, or the string splits at its last occurrence and
`strings.LastIndex` is the length of the part before it. -/
theorem stringsLastIndex_byte (s : List UInt8) (c : UInt8) :
    (c ∉ s ∧ stringsLastIndex s [c] = -1) ∨
      ∃ head tail, s = head ++ [c] ++ tail ∧ c ∉ tail ∧
        stringsLastIndex s [c] = (head.length : Int) := by
  induction s with
  | nil => left; simp [stringsLastIndex]
  | cons b rest ih =>
    unfold stringsLastIndex
    rcases ih with ⟨hnot, hr⟩ | ⟨head, tail, hsplit, htail, hr⟩
    · rw [hr]
      by_cases hb : b = c
      · right
        refine ⟨[], rest, by simp [hb], hnot, ?_⟩
        simp [hb, List.isPrefixOf]
      · left
        refine ⟨by simp [hnot, Ne.symm hb], ?_⟩
        have hcb : ¬ c = b := fun h => hb h.symm
        simp [hcb, List.isPrefixOf]
    · right
      refine ⟨b :: head, tail, by simp [hsplit], htail, ?_⟩
      rw [hr]
      have : (head.length : Int) ≥ 0 := Int.natCast_nonneg _
      simp only [this, if_true, List.length_cons]
      push_cast
      ring

/-- C30: link resolution in the HTML parser, on the bytes of the strings.
For every base and href, `resolveLink` returns href unchanged when href
starts with "http://", "https://" or "file://"; otherwise, when base starts
with "file://", it returns base up to and including its last '/' followed by
href; and "next.html" against "file:///tmp/sample.html" resolves to
"file:///tmp/next.html". -/
theorem C30_resolveLink_file_base (base href : List UInt8) :
    ((stringsHasPrefix href (utf8Bytes "http://") = true ∨
        stringsHasPrefix href (utf8Bytes "https://") = true ∨
        stringsHasPrefix href (utf8Bytes "file://") = true) →
      resolveLink base href = some href) ∧
    (¬ (stringsHasPrefix href (utf8Bytes "http://") = true ∨
        stringsHasPrefix href (utf8Bytes "https://") = true ∨
        stringsHasPrefix href (utf8Bytes "file://") = true) →
      stringsHasPrefix base (utf8Bytes "file://") = true →
      ∃ head tail, base = head ++ utf8Bytes "/" ++ tail ∧ (47 : UInt8) ∉ tail ∧
        resolveLink base href = some (head ++ utf8Bytes "/" ++ href)) ∧
    resolveLink (utf8Bytes "file:///tmp/sample.html") (utf8Bytes "next.html") =
      some (utf8Bytes "file:///tmp/next.html") := by
  have hslash : utf8Bytes "/" = [47] := by decide
  refine ⟨?_, ?_, by decide⟩
  · intro h
    unfold resolveLink
    rcases h with h | h | h <;> simp [h]
  · intro hno hbase
    have hcond : (stringsHasPrefix href (utf8Bytes "http://") ||
        stringsHasPrefix href (utf8Bytes "https://") ||
        stringsHasPrefix href (utf8Bytes "file://")) = false := by
      simp only [not_or, Bool.not_eq_true] at hno
      simp [hno.1, hno.2.1, hno.2.2]
    unfold resolveLink joinPath
    rw [hcond]
    simp only [Bool.false_eq_true, if_false, hbase, if_true]
    have hne : base ≠ [] := by
      intro h
      rw [h] at hbase
      revert hbase
      decide
    have hmem : (47 : UInt8) ∈ base := by
      have hp : (utf8Bytes "file://") <+: base := List.isPrefixOf_iff_prefix.1 hbase
      exact hp.subset (by decide)
    rw [hslash]
    rcases stringsLastIndex_byte base 47 with ⟨hnot, _⟩ | ⟨head, tail, hsplit, htail, hidx⟩
    · exact absurd hmem hnot
    · refine ⟨head, tail, hsplit, htail, ?_⟩
      have hne1 : ¬ ((head.length : Int) = -1) := by omega
      simp only [hne, if_false, hidx, hne1]
      have hle : head.length + 1 ≤ base.length := by
        rw [hsplit]
        simp
      have := sliceBytes_prefix base (head.length + 1) hle
      rw [show ((head.length : Int) + 1) = ((head.length + 1 : Nat) : Int) by push_cast; rfl, this]
      rw [hsplit]
      simp [List.take_append_eq_append_take, List.take_of_length_le]

theorem C30_resolveLink_file_base_witness :
    ¬ (stringsHasPrefix (utf8Bytes "b/next.html") (utf8Bytes "http://") = true ∨
        stringsHasPrefix (utf8Bytes "b/next.html") (utf8Bytes "https://") = true ∨
        stringsHasPrefix (utf8Bytes "b/next.html") (utf8Bytes "file://") = true) ∧
      stringsHasPrefix (utf8Bytes "file:///tmp/a/sample.html") (utf8Bytes "file://") = true ∧
      ∃ head tail, utf8Bytes "file:///tmp/a/sample.html" = head ++ utf8Bytes "/" ++ tail ∧
        (47 : UInt8) ∉ tail ∧
        resolveLink (utf8Bytes "file:///tmp/a/sample.html") (utf8Bytes "b/next.html") =
          some (head ++ utf8Bytes "/" ++ utf8Bytes "b/next.html") :=
  ⟨by decide, by decide,
    (C30_resolveLink_file_base (utf8Bytes "file:///tmp/a/sample.html")
      (utf8Bytes "b/next.html")).2.1 (by decide) (by decide)⟩

/-! ## The test of the semantic index -/

section NearestDocument

open Semantic

variable {F : Type} [LinearOrderedField F]

theorem specEmbedTokens_eq_cast (D : Nat) (tokens : List String) :
    (specEmbedTokens D tokens : Vector F) = (countEmbedding D tokens).map (fun n : Nat => (n : F)) := by
  simp [specEmbedTokens, countEmbedding, List.map_map, Function.comp_def]

theorem zipWith_cast_sum (a b : List Nat) :
    (List.zipWith (fun x y => x * y) (a.map (fun n : Nat => (n : F)))
      (b.map (fun n : Nat => (n : F)))).sum = (((List.zipWith (fun x y => x * y) a b).sum : Nat) : F) := by
  induction a generalizing b with
  | nil => simp
  | cons x r ih =>
    cases b with
    | nil => simp
    | cons y s =>
      simp only [List.map_cons, List.zipWith_cons_cons, List.sum_cons, ih]
      push_cast
      rfl

theorem sumsq_cast (a : List Nat) :
    ((a.map (fun n : Nat => (n : F))).map (fun v => v * v)).sum =
      (((a.map (fun n : Nat => n * n)).sum : Nat) : F) := by
  induction a with
  | nil => simp
  | cons x r ih =>
    simp only [List.map_cons, List.sum_cons, ih]
    push_cast
    rfl

theorem sqrt_pos_of_exact (sqrt : F → F)
    (hsqrt : ∀ x, 0 ≤ x → 0 ≤ sqrt x ∧ sqrt x * sqrt x = x) (x : F) (hx : 0 < x) :
    0 < sqrt x := by
  obtain ⟨h0, h1⟩ := hsqrt x (le_of_lt hx)
  rcases eq_or_lt_of_le h0 with h | h
  · rw [← h, zero_mul] at h1
    exact absurd h1 (ne_of_lt hx)
  · exact h

/-- The repository's test `TestSemanticIndexQueryReturnsNearestDocument`
passes in the model, with exact arithmetic, for every clock, every value of
the random source and every order of the map ranges: on the index built with
dimension 64 and 16 hyperplanes that holds the two documents of the test,
`Query("semantic embeddings", 2)` returns a list whose first entry is the
document "1". -/
theorem nearest_document_ranks_first (env : QueryEnv F)
    (hsqrt : ∀ x, 0 ≤ x → 0 ≤ env.sqrt x ∧ env.sqrt x * env.sqrt x = x)
    (now : Int) (normFloat64 : Int → Nat → F) :
    ∃ i₀ i : Index F, NewIndex now normFloat64 ⟨64, 16, 99⟩ = some i₀ ∧
      i₀.addAll nearestDocs = some i ∧
      ∃ first rest, i.Query env "semantic embeddings" 2 = some (first :: rest) ∧
        first.DocID = "1" := by
  obtain ⟨i₀, h₀, hdim, _, hpos, _, _, hb, hv⟩ :=
    NewIndex_of_nonneg now normFloat64 ⟨64, 16, 99⟩ (by decide) (by decide)
  have hdim : i₀.embedder.dimension = 64 := by simpa using hdim
  have hlt : i₀.embedder.dimension < 2 ^ 32 := by rw [hdim]; decide
  -- both calls of `AddDocument` return
  have hstep : ∀ (j : Index F), j.embedder = i₀.embedder → ∀ doc,
      ∃ j', j.AddDocument doc = some j' ∧ j'.embedder = i₀.embedder := by
    intro j hj doc
    have hs := AddDocument_isSome j (by rw [hj]; exact hpos) (by rw [hj]; exact hlt) doc
    obtain ⟨j', hj'⟩ := Option.isSome_iff_exists.1 hs
    refine ⟨j', hj', ?_⟩
    unfold Index.AddDocument at hj'
    cases he : (j.embedder.EmbedText doc.Content : Option (Vector F)) with
    | none => simp [he] at hj'
    | some vec =>
      rw [he] at hj'
      by_cases hl : vec.length = 0
      · simp only [hl, if_true, Option.some.injEq] at hj'
        rw [← hj', hj]
      · simp only [hl, if_false, Option.some.injEq] at hj'
        rw [← hj']
        exact hj
  obtain ⟨j₁, hj₁, he₁⟩ := hstep i₀ rfl ⟨"1", "", "", "Vector embeddings enable semantic search.", [], 0⟩
  obtain ⟨i, hj₂, he₂⟩ := hstep j₁ he₁ ⟨"2", "", "", "Caching strategies reduce tail latency.", [], 0⟩
  have hadd : i₀.addAll nearestDocs = some i := by
    simp only [nearestDocs, Index.addAll, List.foldl_cons, List.foldl_nil, Option.some_bind, hj₁,
      hj₂]
  have hr := semReflects_addAll i₀ hpos hb hv nearestDocs i hadd
  have hemb : ∀ s : String, (i₀.embedder.EmbedText s : Option (Vector F)) =
      some ((countEmbedding 64 (Tokenize s)).map (fun n : Nat => (n : F))) := by
    intro s
    have := EmbedTokens_eq_spec (F := F) i₀.embedder hpos hlt (Tokenize s)
    rw [hdim, specEmbedTokens_eq_cast] at this
    exact this
  have hv1 : i.vectors.get? "1" = some ((countEmbedding 64
      (Tokenize "Vector embeddings enable semantic search.")).map (fun n : Nat => (n : F))) := by
    rw [hr.vectors, ← hemb]
    rfl
  have hv2 : i.vectors.get? "2" = some ((countEmbedding 64
      (Tokenize "Caching strategies reduce tail latency.")).map (fun n : Nat => (n : F))) := by
    rw [hr.vectors, ← hemb]
    rfl
  have hkeys : ∀ d, d ∈ i.vectors.keys → d ∈ ["1", "2"] := by
    intro d hd
    rw [← GoMap.isSome_get?_iff, hr.vectors] at hd
    by_contra hn
    have : lastDoc nearestDocs d = none := by
      simp only [List.mem_cons, List.mem_singleton, not_or, List.mem_nil_iff, or_false] at hn
      simp [lastDoc, nearestDocs, List.find?_cons, Ne.symm hn.1, Ne.symm hn.2]
    rw [this] at hd
    simp at hd
  have hsmall : i.vectors.len ≤ 2 := by
    have hsp := (List.subperm_of_subset hr.nodupVectors (fun d hd => hkeys d hd)).length_le
    simp only [GoMap.keys, List.length_map, List.length_cons, List.length_nil] at hsp
    show ((i.vectors.length : Nat) : Int) ≤ 2
    omega
  have hq := hemb "semantic embeddings"
  rw [← he₂] at hq
  generalize hqv : (countEmbedding 64 (Tokenize "semantic embeddings")).map (fun n : Nat => (n : F)) =
    qv at hq
  have hqlen : ¬ qv.length = 0 := by
    rw [← hqv]
    simp [countEmbedding]
  have hall := scoreCandidates_all hr env qv 2 (by decide) (by decide) hsmall
  obtain ⟨hnd, hstored⟩ := scoreCandidates_spec env i qv 2
  have hperm := sortSlice_perm candidateLess (i.scoreCandidates env qv 2)
  have hsorted := candidates_sorted_strict _ hnd
  have hnot : ¬ ((2 : Int) > 0 ∧
      ((sortSlice candidateLess (i.scoreCandidates env qv 2)).length : Int) > 2) := by
    rintro ⟨_, hgt⟩
    have h1 := hperm.length_eq
    have h2 := hall.length_eq
    simp only [List.length_map, GoMap.keys] at h2
    have h3 : ((i.vectors.length : Nat) : Int) ≤ 2 := hsmall
    omega
  have hres : i.Query env "semantic embeddings" 2 =
      some (sortSlice candidateLess (i.scoreCandidates env qv 2)) := by
    rw [Query_eq env i _ 2 qv hq]
    simp only [hqlen, hnot, if_false]
  have hids : ((sortSlice candidateLess (i.scoreCandidates env qv 2)).map
      (fun c => c.DocID)).Perm i.vectors.keys := (hperm.map _).trans hall
  -- the two scores
  have hscore2 : cosineSimilarity env.sqrt qv ((countEmbedding 64
      (Tokenize "Caching strategies reduce tail latency.")).map (fun n : Nat => (n : F))) = 0 := by
    unfold cosineSimilarity
    rw [dot_eq_sum, ← hqv, zipWith_cast_sum]
    have : (List.zipWith (fun x y => x * y) (countEmbedding 64 (Tokenize "semantic embeddings"))
        (countEmbedding 64 (Tokenize "Caching strategies reduce tail latency."))).sum = 0 := by
      decide!
    rw [this]
    simp
  have hscore1 : 0 < cosineSimilarity env.sqrt qv ((countEmbedding 64
      (Tokenize "Vector embeddings enable semantic search.")).map (fun n : Nat => (n : F))) := by
    unfold cosineSimilarity
    rw [dot_eq_sum, magnitude_eq, magnitude_eq, ← hqv, zipWith_cast_sum, sumsq_cast, sumsq_cast]
    have hd : (List.zipWith (fun x y => x * y) (countEmbedding 64 (Tokenize "semantic embeddings"))
        (countEmbedding 64 (Tokenize "Vector embeddings enable semantic search."))).sum = 2 := by
      decide!
    have hq2 : ((countEmbedding 64 (Tokenize "semantic embeddings")).map
        (fun n : Nat => n * n)).sum = 2 := by
      decide!
    have hd2 : ((countEmbedding 64 (Tokenize "Vector embeddings enable semantic search.")).map
        (fun n : Nat => n * n)).sum = 5 := by
      decide!
    rw [hd, hq2, hd2]
    have h2 := sqrt_pos_of_exact env.sqrt hsqrt ((2 : Nat) : F) (by norm_num)
    have h5 := sqrt_pos_of_exact env.sqrt hsqrt ((5 : Nat) : F) (by norm_num)
    have hm : 0 < env.sqrt ((2 : Nat) : F) * env.sqrt ((5 : Nat) : F) := mul_pos h2 h5
    rw [if_neg (ne_of_gt hm)]
    exact div_pos (by norm_num) hm
  -- the first entry
  have hmem1 : "1" ∈ (sortSlice candidateLess (i.scoreCandidates env qv 2)).map
      (fun c => c.DocID) := by
    rw [hids.mem_iff, ← GoMap.isSome_get?_iff, hv1]
    rfl
  obtain ⟨c₁, hc₁, hc₁id⟩ := List.mem_map.1 hmem1
  have hc₁id : c₁.DocID = "1" := hc₁id
  have hc₁s : 0 < c₁.Score := by
    obtain ⟨v, hv', hs⟩ := hstored c₁ (hperm.mem_iff.1 hc₁)
    rw [hc₁id, hv1] at hv'
    rw [hs, ← Option.some.inj hv']
    exact hscore1
  have hle : ∀ c ∈ sortSlice candidateLess (i.scoreCandidates env qv 2),
      c.DocID ≠ "1" → c.Score = 0 := by
    intro c hc hne
    obtain ⟨v, hv', hs⟩ := hstored c (hperm.mem_iff.1 hc)
    have hck : c.DocID ∈ ["1", "2"] := hkeys _ (hids.mem_iff.1 (List.mem_map.2 ⟨c, hc, rfl⟩))
    have hc2 : c.DocID = "2" := by
      simp only [List.mem_cons, List.mem_singleton, List.mem_nil_iff, or_false] at hck
      exact hck.resolve_left hne
    rw [hc2, hv2] at hv'
    rw [hs, ← Option.some.inj hv']
    exact hscore2
  cases hl : sortSlice candidateLess (i.scoreCandidates env qv 2) with
  | nil =>
    rw [hl] at hc₁
    exact absurd hc₁ (List.not_mem_nil _)
  | cons first rest =>
    refine ⟨i₀, i, h₀, hadd, first, rest, by rw [hres, hl], ?_⟩
    by_contra hne
    have hf0 : first.Score = 0 := hle first (by rw [hl]; exact List.mem_cons_self _ _) hne
    rw [hl] at hc₁ hsorted
    rcases List.mem_cons.1 hc₁ with h | h
    · exact hne (h ▸ hc₁id)
    · rcases (List.pairwise_cons.1 hsorted).1 c₁ h with hgt | ⟨heq, _⟩
      · rw [hf0] at hgt
        exact absurd hc₁s (not_lt.2 (le_of_lt hgt))
      · rw [hf0] at heq
        rw [← heq] at hc₁s
        exact lt_irrefl _ hc₁s

end NearestDocument

/-! ## The token cache, the frame of `AddDocument` and the document frequency -/

/-- In a reachable state the documents that hold a term are at most the
stored documents. -/
theorem DocumentFrequency_le_count {calls : List AddCall} {idx : InvertedIndex}
    (hr : Reflects calls idx) (t : String) :
    0 ≤ idx.DocumentFrequency t ∧ idx.DocumentFrequency t ≤ idx.DocumentCount := by
  unfold InvertedIndex.DocumentFrequency InvertedIndex.DocumentCount
  cases he : idx.postings.get? t with
  | none =>
    simp only [GoMap.len]
    exact ⟨le_refl _, Int.natCast_nonneg _⟩
  | some entry =>
    have hp := (postingList_keys_perm hr t entry he).length_eq
    have hle := List.length_filter_le (fun e : String × Document => decide (t ∈ e.2.Tokens))
      idx.documents
    simp only [GoMap.keys, List.length_map] at hp
    simp only [GoMap.len]
    constructor
    · exact Int.natCast_nonneg _
    · rw [hp]
      exact_mod_cast hle

/-- C32: in every state reachable by `AddDocument` calls, for every stored id
`d`, the cached token sequence of the stored document is the sequence that
was indexed for the last document added under `d`: its supplied `Tokens` when
there are any, whatever its `Content`, and `Tokenize(Content)` otherwise; the
postings of `d` count the occurrences in that sequence; its length is
`docLengths[d]`; and for every posting `Search` scores, the document has
tokens, so the length `Search` normalises with is `docLengths[d]`. -/
theorem C32_cached_tokens_are_indexed (F : Type) [LinearOrderedField F]
    (calls : List AddCall) (d : String) (x : Document)
    (hx : (runAdds calls).Document d = some x) :
    (∃ doc, lastAdded calls d = some doc ∧
      (doc.Tokens ≠ [] → x.Tokens = doc.Tokens) ∧
      (doc.Tokens = [] → x.Tokens = Tokenize doc.Content)) ∧
    (∀ t, lookup2 (runAdds calls).postings t d =
      if t ∈ x.Tokens then some { DocID := d, TF := (x.Tokens.count t : Int) } else none) ∧
    (runAdds calls).docLengths.get? d = some (x.Tokens.length : Int) ∧
    (∀ (ord : RangeOrder (String × Posting)) (t : String) (p : Posting) (avgDocLen : F),
      p ∈ (runAdds calls).Postings ord t → p.DocID = d →
        (if ((x.Tokens.length : Int) : F) = 0 then avgDocLen
          else ((x.Tokens.length : Int) : F)) = ((x.Tokens.length : Int) : F) ∧
        0 < x.Tokens.length) := by
  have hr := reflects_runAdds calls
  have hd := hr.docs d
  replace hx : (runAdds calls).documents.get? d = some x := hx
  rw [hx] at hd
  cases hl : lastAdded calls d with
  | none => simp [hl] at hd
  | some doc =>
    rw [hl] at hd
    have hxs : x = storedForm doc := Option.some.inj hd
    have htok : x.Tokens = indexedTokens doc := by rw [hxs]; rfl
    have hposts : ∀ t, lookup2 (runAdds calls).postings t d =
        if t ∈ x.Tokens then some { DocID := d, TF := (x.Tokens.count t : Int) } else none := by
      intro t
      rw [hr.posts, hl, htok]
      rfl
    refine ⟨⟨doc, rfl, ?_, ?_⟩, hposts, ?_, ?_⟩
    · intro hne
      rw [htok]
      unfold indexedTokens
      have : ¬ doc.Tokens.length = 0 := fun h => hne (List.length_eq_zero.1 h)
      simp [this]
    · intro hnil
      rw [htok]
      unfold indexedTokens
      simp [hnil]
    · rw [hr.lens, hl, htok]
      rfl
    · intro ord t p avgDocLen hp hpd
      have hlk := mem_Postings hr.wf hp
      rw [hpd, hposts] at hlk
      have hmem : t ∈ x.Tokens := by
        by_contra hn
        simp [hn] at hlk
      have hpos : 0 < x.Tokens.length := List.length_pos_of_mem hmem
      refine ⟨?_, hpos⟩
      have hne : ¬ ((x.Tokens.length : Int) : F) = 0 := by
        have : (0 : Int) < (x.Tokens.length : Int) := by exact_mod_cast hpos
        have : (0 : F) < ((x.Tokens.length : Int) : F) := by exact_mod_cast this
        exact ne_of_gt this
      rw [if_neg hne]

/-- C33: `AddDocument(d)` affects only `d.ID`.  For every reachable state,
every id `e` other than `d.ID` and every term `t`: the stored document of
`e`, `docLengths[e]`, `docTerms[e]` and the posting of `e` under `t` (its
presence and its term frequency, also as `Postings(t)` lists it) are the same
after the call as before it. -/
theorem C33_add_document_frame (calls : List AddCall) (ord : RangeOrder (String × Int))
    (doc : Document) (e : String) (he : e ≠ doc.ID) (t : String)
    (o₁ o₂ : RangeOrder (String × Posting)) :
    (AddDocument ord (runAdds calls) doc).Document e = (runAdds calls).Document e ∧
    (AddDocument ord (runAdds calls) doc).docLengths.get? e =
      (runAdds calls).docLengths.get? e ∧
    (AddDocument ord (runAdds calls) doc).docTerms.get? e = (runAdds calls).docTerms.get? e ∧
    lookup2 (AddDocument ord (runAdds calls) doc).postings t e =
      lookup2 (runAdds calls).postings t e ∧
    ((AddDocument ord (runAdds calls) doc).Postings o₁ t).filter
        (fun p => decide (p.DocID = e)) =
      ((runAdds calls).Postings o₂ t).filter (fun p => decide (p.DocID = e)) := by
  have hr := reflects_runAdds calls
  have hr' := reflects_runAdds (calls ++ [⟨ord, doc⟩])
  rw [runAdds_append] at hr'
  have hlast : lastAdded (calls ++ [⟨ord, doc⟩]) e = lastAdded calls e := by
    rw [lastAdded_append, if_neg (Ne.symm he)]
  have hlk : lookup2 (AddDocument ord (runAdds calls) doc).postings t e =
      lookup2 (runAdds calls).postings t e := by
    rw [hr.posts, hr'.posts, hlast]
  refine ⟨?_, ?_, ?_, hlk, ?_⟩
  · show (AddDocument ord (runAdds calls) doc).documents.get? e = (runAdds calls).documents.get? e
    rw [AddDocument_documents, GoMap.get?_set_of_ne _ _ he]
  · rw [AddDocument_docLengths, GoMap.get?_set_of_ne _ _ he]
  · rw [AddDocument_docTerms, GoMap.get?_set_of_ne _ _ he]
  · rw [filter_Postings o₁ _ hr'.wf, filter_Postings o₂ _ hr.wf, hlk]

/-- C34: in every state reachable by `AddDocument` calls and for every term
`t`, `0 ≤ DocumentFrequency(t) ≤ DocumentCount()`; so the argument
`(N - df + 0.5) / (df + 0.5)` of the logarithm in `Search` is strictly
positive and its divisor is not 0. -/
theorem C34_document_frequency_le_count (F : Type) [LinearOrderedField F]
    (calls : List AddCall) (t : String) :
    (runAdds calls).DocumentFrequency t ≤ (runAdds calls).DocumentCount ∧
    0 ≤ (runAdds calls).DocumentFrequency t ∧
    (((runAdds calls).DocumentFrequency t : Int) : F) + 0.5 ≠ 0 ∧
    0 < ((((runAdds calls).DocumentCount : Int) : F) -
        (((runAdds calls).DocumentFrequency t : Int) : F) + 0.5) /
      ((((runAdds calls).DocumentFrequency t : Int) : F) + 0.5) := by
  obtain ⟨h0, hle⟩ := DocumentFrequency_le_count (reflects_runAdds calls) t
  have h0' : (0 : F) ≤ (((runAdds calls).DocumentFrequency t : Int) : F) := by exact_mod_cast h0
  have hle' : (((runAdds calls).DocumentFrequency t : Int) : F) ≤
      (((runAdds calls).DocumentCount : Int) : F) := by exact_mod_cast hle
  have hden : (0 : F) < (((runAdds calls).DocumentFrequency t : Int) : F) + 0.5 := by
    have : (0 : F) < 0.5 := by norm_num
    linarith
  have hnum : (0 : F) < (((runAdds calls).DocumentCount : Int) : F) -
      (((runAdds calls).DocumentFrequency t : Int) : F) + 0.5 := by
    have : (0 : F) < 0.5 := by norm_num
    linarith
  exact ⟨hle, h0, ne_of_gt hden, div_pos hnum hden⟩

theorem C32_cached_tokens_are_indexed_witness :
    (runAdds demoCalls).Document "b" =
        some ⟨"b", "u1", "T1", "Vector search uses vector maths",
          ["vector", "search", "uses", "vector", "maths"], 0⟩ ∧
      (runAdds demoCalls).docLengths.get? "b" =
        some ((["vector", "search", "uses", "vector", "maths"].length : Nat) : Int) :=
  have h : (runAdds demoCalls).Document "b" =
      some ⟨"b", "u1", "T1", "Vector search uses vector maths",
        ["vector", "search", "uses", "vector", "maths"], 0⟩ := by decide!
  ⟨h, (C32_cached_tokens_are_indexed ℚ demoCalls "b" _ h).2.2.1⟩

theorem C33_add_document_frame_witness :
    "a" ≠ (⟨"b", "u9", "T9", "new words", [], 0⟩ : Document).ID ∧
      (AddDocument (RangeOrder.stored _) (runAdds demoCalls)
          ⟨"b", "u9", "T9", "new words", [], 0⟩).Document "a" =
        (runAdds demoCalls).Document "a" :=
  ⟨by decide,
    (C33_add_document_frame demoCalls (RangeOrder.stored _) ⟨"b", "u9", "T9", "new words", [], 0⟩
      "a" (by decide) "circuit" (RangeOrder.stored _) (RangeOrder.backwards _)).1⟩

/-! ## The fallback scan of `Query` -/

section FallbackScan

open Semantic

variable {F : Type} [LinearOrderedField F]

/-- The fallback scan, for `topK > 0` with `5*topK` below 2^63 and fewer than
`5*topK` candidates at its start: it takes ids from the scan order until the
candidate list has `5*topK` entries or the order is exhausted. -/
theorem scanVectors_take (topK : Int) (hk : 0 < topK) (hcap : 5 * topK < 2 ^ 63)
    (l : List (String × Vector F))
    (candidates : List String) (h : (candidates.length : Int) < 5 * topK) :
    scanVectors topK candidates l =
      candidates ++ (l.take (5 * topK - (candidates.length : Int)).toNat).map Prod.fst := by
  have hw : wrapInt (5 * topK) = 5 * topK := wrapInt_eq _ (by omega) hcap
  induction l generalizing candidates with
  | nil => simp [scanVectors]
  | cons e rest ih =>
    obtain ⟨docID, v⟩ := e
    unfold scanVectors
    rw [hw]
    obtain ⟨n, hn⟩ : ∃ n, (5 * topK - (candidates.length : Int)).toNat = n + 1 :=
      ⟨(5 * topK - (candidates.length : Int)).toNat - 1, by omega⟩
    have hlen : ((candidates ++ [docID]).length : Int) = (candidates.length : Int) + 1 := by
      simp
    by_cases hc : ((candidates ++ [docID]).length : Int) ≥ 5 * topK ∧ topK > 0
    · have hn0 : n = 0 := by omega
      simp only [hc, and_self, if_true, hn, hn0, List.take_succ_cons, List.take_zero,
        List.map_cons, List.map_nil]
    · have hlt : ((candidates ++ [docID]).length : Int) < 5 * topK := by
        by_contra hge
        exact hc ⟨not_lt.1 hge, hk⟩
      simp only [hc, if_false]
      rw [ih _ hlt, hn, List.take_succ_cons, List.map_cons]
      have : (5 * topK - ((candidates ++ [docID]).length : Int)).toNat = n := by omega
      rw [this]
      simp

/-- The ids `Query` scores, in a reachable state, for `topK > 0` with
`5*topK` below 2^63 and a bucket of fewer than `topK` ids: the ids of the
bucket and the ids the fallback scan took, each once. -/
theorem scoreCandidates_fallback {docs : List Document} {i₀ i : Index F}
    (hr : SemReflects docs i₀ i) (env : QueryEnv F) (vec : Vector F) (topK : Int)
    (hk : 0 < topK) (hcap : 5 * topK < 2 ^ 63)
    (hb : GoMap.len ((i.buckets.get? (i.signature vec)).getD []) < topK) :
    ((i.scoreCandidates env vec topK).map (fun c => c.DocID)).Nodup ∧
      ∀ id, id ∈ (i.scoreCandidates env vec topK).map (fun c => c.DocID) ↔
        id ∈ GoMap.keys ((i.buckets.get? (i.signature vec)).getD []) ∨
          id ∈ ((env.vectorOrder.pick i.vectors).take
            (5 * topK - GoMap.len ((i.buckets.get? (i.signature vec)).getD [])).toNat).map
              Prod.fst := by
  obtain ⟨hnd, _⟩ := scoreCandidates_spec env i vec topK
  refine ⟨hnd, ?_⟩
  unfold Index.scoreCandidates
  simp only [scoreFold_eq, List.nil_append, foldl_append_map]
  rw [map_DocID_filterMap_scored]
  generalize hbk : (i.buckets.get? (i.signature vec)).getD [] = bucket at hb
  have hbsub : ∀ d, d ∈ bucket.keys → d ∈ i.vectors.keys := by
    intro d hd
    cases hg : i.buckets.get? (i.signature vec) with
    | none =>
      rw [hg] at hbk
      rw [← hbk] at hd
      simp [GoMap.keys] at hd
    | some b =>
      rw [hg] at hbk
      rw [← hbk] at hd
      exact hr.bucketIds _ b d hg hd
  have hc0 : ((env.bucketOrder.pick bucket).map (fun e => e.1)).Perm bucket.keys :=
    (env.bucketOrder.perm bucket).map Prod.fst
  have hc0len : (((env.bucketOrder.pick bucket).map (fun e => e.1)).length : Int) =
      bucket.len := by
    rw [hc0.length_eq]
    simp [GoMap.keys, GoMap.len]
  have hlt : (((env.bucketOrder.pick bucket).map (fun e => e.1)).length : Int) < topK := by
    rw [hc0len]
    exact hb
  rw [if_pos hlt, scanVectors_take topK hk hcap _ _ (lt_of_lt_of_le hlt (by omega)), hc0len]
  intro id
  have hun := (uniqueLoop_spec [] [] ((env.bucketOrder.pick bucket).map (fun e => e.1) ++
    ((env.vectorOrder.pick i.vectors).take (5 * topK - bucket.len).toNat).map Prod.fst)
    List.nodup_nil (by simp [GoMap.get?])).2 id
  have hscan : ∀ d, d ∈ ((env.vectorOrder.pick i.vectors).take
      (5 * topK - bucket.len).toNat).map Prod.fst → d ∈ i.vectors.keys := by
    intro d hd
    obtain ⟨e, he, rfl⟩ := List.mem_map.1 hd
    exact List.mem_map.2 ⟨e, (env.vectorOrder.perm _).mem_iff.1 (List.mem_of_mem_take he), rfl⟩
  rw [List.mem_filter, hun]
  simp only [List.not_mem_nil, false_or, List.mem_append, hc0.mem_iff]
  constructor
  · exact fun h => h.1
  · intro h
    refine ⟨h, ?_⟩
    rw [GoMap.isSome_get?_iff]
    rcases h with h | h
    · exact hbsub id h
    · exact hscan id h

end FallbackScan

section FallbackScanClaim

open Semantic

variable {F : Type} [LinearOrderedField F]

/-- C31, amended: for an index built by `NewIndex` and filled by
`AddDocument` calls, every order of the map ranges, `top_k > 0` with
`5*top_k` below 2^63, so that the product does not wrap around, and a query
vector whose bucket holds `b < top_k` ids.  The fallback scan appends to the
ids of the bucket the first `min(N, 5*top_k - b)` ids of the scan order over
the `N` stored vectors: it stops only once the candidate list, in which an id
of the bucket that the scan visits is counted twice, has `5*top_k` entries or
all vectors are included.  `Query` scores the ids of the bucket and the
scanned ids, each once: their number is the number of scanned ids plus the
number of bucket ids the scan did not visit; it lies between
`min(N, 5*top_k - b)` and `min(N, 5*top_k)`, and it is `min(N, 5*top_k)` when
`b + N ≤ 5*top_k` and when the bucket is empty. -/
theorem C31_fallback_scan_amended (env : QueryEnv F) (now : Int)
    (normFloat64 : Int → Nat → F) (opts : Options) (i₀ i : Index F) (docs : List Document)
    (h₀ : NewIndex now normFloat64 opts = some i₀) (h : i₀.addAll docs = some i)
    (vec : Vector F) (topK : Int) (hk : 0 < topK) (hcap : 5 * topK < 2 ^ 63)
    (hb : (queryBucket i vec).len < topK) :
    scanVectors topK ((env.bucketOrder.pick (queryBucket i vec)).map Prod.fst)
        (env.vectorOrder.pick i.vectors) =
      (env.bucketOrder.pick (queryBucket i vec)).map Prod.fst ++ scannedIds env i vec topK ∧
    ((scannedIds env i vec topK).length : Int) =
      min i.vectors.len (5 * topK - (queryBucket i vec).len) ∧
    ((i.scoreCandidates env vec topK).map (fun c => c.DocID)).Nodup ∧
    (∀ id, id ∈ (i.scoreCandidates env vec topK).map (fun c => c.DocID) ↔
      id ∈ (queryBucket i vec).keys ∨ id ∈ scannedIds env i vec topK) ∧
    (i.scoreCandidates env vec topK).length =
      (scannedIds env i vec topK).length +
        ((queryBucket i vec).keys.filter
          (fun id => decide (id ∉ scannedIds env i vec topK))).length ∧
    min i.vectors.len (5 * topK - (queryBucket i vec).len) ≤
      ((i.scoreCandidates env vec topK).length : Int) ∧
    ((i.scoreCandidates env vec topK).length : Int) ≤ min i.vectors.len (5 * topK) ∧
    ((queryBucket i vec).len + i.vectors.len ≤ 5 * topK →
      ((i.scoreCandidates env vec topK).length : Int) = i.vectors.len) ∧
    (queryBucket i vec = [] →
      ((i.scoreCandidates env vec topK).length : Int) = min i.vectors.len (5 * topK)) := by
  obtain ⟨hpos, hb0, hv0⟩ := NewIndex_some now normFloat64 opts i₀ h₀
  have hr := semReflects_addAll i₀ hpos hb0 hv0 docs i h
  obtain ⟨hnd, hmem⟩ := scoreCandidates_fallback hr env vec topK hk hcap hb
  replace hmem : ∀ id, id ∈ (i.scoreCandidates env vec topK).map (fun c => c.DocID) ↔
      id ∈ (queryBucket i vec).keys ∨ id ∈ scannedIds env i vec topK := hmem
  -- the bucket
  have hbnd : (queryBucket i vec).keys.Nodup := by
    unfold queryBucket
    cases hg : i.buckets.get? (i.signature vec) with
    | none => exact List.nodup_nil
    | some b => exact hr.nodupBucket _ b hg
  have hbsub : ∀ d, d ∈ (queryBucket i vec).keys → d ∈ i.vectors.keys := by
    intro d hd
    unfold queryBucket at hd
    cases hg : i.buckets.get? (i.signature vec) with
    | none =>
      rw [hg] at hd
      simp [GoMap.keys] at hd
    | some b =>
      rw [hg] at hd
      exact hr.bucketIds _ b d hg hd
  have hblen : (queryBucket i vec).len = ((queryBucket i vec).keys.length : Int) := by
    simp [GoMap.len, GoMap.keys]
  have hb_nonneg : 0 ≤ (queryBucket i vec).len := by
    rw [hblen]
    exact Int.natCast_nonneg _
  -- the scan
  have hpk : ((env.vectorOrder.pick i.vectors).map Prod.fst).Perm i.vectors.keys :=
    (env.vectorOrder.perm i.vectors).map Prod.fst
  have hpnd : ((env.vectorOrder.pick i.vectors).map Prod.fst).Nodup :=
    (List.Perm.nodup_iff hpk).2 hr.nodupVectors
  have hscan_eq : scannedIds env i vec topK =
      ((env.vectorOrder.pick i.vectors).map Prod.fst).take
        (5 * topK - (queryBucket i vec).len).toNat := by
    unfold scannedIds
    rw [List.map_take]
  have hsnd : (scannedIds env i vec topK).Nodup := by
    rw [hscan_eq]
    exact List.Nodup.sublist (List.take_sublist _ _) hpnd
  have hssub : ∀ d, d ∈ scannedIds env i vec topK → d ∈ i.vectors.keys := by
    intro d hd
    rw [hscan_eq] at hd
    exact hpk.mem_iff.1 (List.mem_of_mem_take hd)
  have hNlen : i.vectors.len = (((env.vectorOrder.pick i.vectors).map Prod.fst).length : Int) := by
    rw [hpk.length_eq]
    simp [GoMap.len, GoMap.keys]
  have hslen : ((scannedIds env i vec topK).length : Int) =
      min i.vectors.len (5 * topK - (queryBucket i vec).len) := by
    rw [hscan_eq, List.length_take, hNlen]
    have h5 : 0 < 5 * topK - (queryBucket i vec).len := by omega
    rw [Nat.cast_min, Int.toNat_of_nonneg (le_of_lt h5), min_comm]
  -- counting
  have hperm : ((i.scoreCandidates env vec topK).map (fun c => c.DocID)).Perm
      (scannedIds env i vec topK ++ (queryBucket i vec).keys.filter
        (fun id => decide (id ∉ scannedIds env i vec topK))) := by
    refine (List.perm_ext_iff_of_nodup hnd ?_).2 ?_
    · refine List.Nodup.append hsnd (List.Nodup.filter _ hbnd) ?_
      intro d hd hd'
      have := (List.mem_filter.1 hd').2
      simp only [decide_eq_true_eq] at this
      exact this hd
    · intro id
      rw [hmem, List.mem_append, List.mem_filter]
      simp only [decide_eq_true_eq]
      constructor
      · rintro (hbk | hs)
        · by_cases hs : id ∈ scannedIds env i vec topK
          · exact Or.inl hs
          · exact Or.inr ⟨hbk, hs⟩
        · exact Or.inl hs
      · rintro (hs | ⟨hbk, _⟩)
        · exact Or.inr hs
        · exact Or.inl hbk
  have hcount : (i.scoreCandidates env vec topK).length =
      (scannedIds env i vec topK).length +
        ((queryBucket i vec).keys.filter
          (fun id => decide (id ∉ scannedIds env i vec topK))).length := by
    have := hperm.length_eq
    rw [List.length_map, List.length_append] at this
    exact this
  have hfle := List.length_filter_le (fun id => decide (id ∉ scannedIds env i vec topK))
    (queryBucket i vec).keys
  have hleN : (i.scoreCandidates env vec topK).length ≤ i.vectors.keys.length := by
    have hsp : ((i.scoreCandidates env vec topK).map (fun c => c.DocID)).Subperm
        i.vectors.keys := by
      apply List.subperm_of_subset hnd
      intro d hd
      rcases (hmem d).1 hd with hd | hd
      · exact hbsub d hd
      · exact hssub d hd
    simpa using hsp.length_le
  have hNkeys : i.vectors.len = (i.vectors.keys.length : Int) := by
    simp [GoMap.len, GoMap.keys]
  have hscan : scanVectors topK ((env.bucketOrder.pick (queryBucket i vec)).map Prod.fst)
      (env.vectorOrder.pick i.vectors) =
      (env.bucketOrder.pick (queryBucket i vec)).map Prod.fst ++ scannedIds env i vec topK := by
    have hc0len : (((env.bucketOrder.pick (queryBucket i vec)).map Prod.fst).length : Int) =
        (queryBucket i vec).len := by
      rw [List.length_map, (env.bucketOrder.perm _).length_eq]
      rfl
    rw [scanVectors_take topK hk hcap _ _ (by omega), hc0len]
    rfl
  refine ⟨hscan, hslen, hnd, hmem, hcount, ?_, ?_, ?_, ?_⟩
  · rw [← hslen, hcount]
    push_cast
    omega
  · rw [le_min_iff]
    constructor
    · rw [hNkeys]
      exact_mod_cast hleN
    · have h1 : ((scannedIds env i vec topK).length : Int) ≤
          5 * topK - (queryBucket i vec).len := by
        rw [hslen]
        exact min_le_right _ _
      rw [hcount]
      push_cast
      omega
  · intro hall
    have hsall : ((scannedIds env i vec topK).length : Int) = i.vectors.len := by
      rw [hslen]
      exact min_eq_left (by omega)
    have hsp : (scannedIds env i vec topK).Perm i.vectors.keys := by
      apply (List.subperm_of_subset hsnd (fun d hd => hssub d hd)).perm_of_length_le
      have : ((i.vectors.keys.length : Nat) : Int) ≤ ((scannedIds env i vec topK).length : Int) := by
        rw [hsall, hNkeys]
      exact_mod_cast this
    have hfnil : (queryBucket i vec).keys.filter
        (fun id => decide (id ∉ scannedIds env i vec topK)) = [] := by
      rw [List.filter_eq_nil_iff]
      intro d hd
      simp only [decide_eq_true_eq, not_not]
      exact hsp.mem_iff.2 (hbsub d hd)
    rw [hcount, hfnil, List.length_nil, Nat.add_zero]
    exact hsall
  · intro hnil
    have hb0' : (queryBucket i vec).len = 0 := by rw [hnil]; rfl
    rw [hcount, hnil]
    simp only [GoMap.keys, List.map_nil, List.filter_nil, List.length_nil, Nat.add_zero]
    rw [hslen, hnil]
    simp [GoMap.len]

end FallbackScanClaim

/-! ## The claim about the fallback scan at sample data -/

theorem scanIndex_addAll : planeIndex.addAll scanDocs = some scanIndex := by
  decide!

/-- C31 as stated fails in two ways.  The index holds ten vectors and the
bucket of the query "b" holds the one id "d0".  For `top_k = 2` the scan
visits "d0" first, so the candidate list reaches `5*top_k = 10` entries after
nine scanned ids with "d0" in it twice: `Query` scores 9 distinct candidates,
not `min(10, 5*top_k) = 10`.  For `top_k = 3689348814741910324` the product
`5*top_k` is 4 as an `int`: the scan stops when the candidate list has 4
entries and `Query` scores 3 distinct candidates, not `min(10, 5*top_k) = 10`. -/
theorem C31_fallback_scan_counterexample :
    (Semantic.NewIndex 0 sampleNormFloat64 ⟨2, 1, 5⟩ = some planeIndex ∧
      planeIndex.addAll scanDocs = some scanIndex ∧
      (scanIndex.embedder.EmbedText "b" : Option (Semantic.Vector ℚ)) = some [0, 1] ∧
      (0 : Int) < 2 ∧ (queryBucket scanIndex [0, 1]).keys = ["d0"] ∧
      (queryBucket scanIndex [0, 1]).len < 2 ∧ scanIndex.vectors.len = 10 ∧
      (scanIndex.scoreCandidates sampleQueryEnv [0, 1] 2).map (fun c => c.DocID) =
        ["d0", "x1", "x2", "x3", "x4", "x5", "x6", "x7", "x8"] ∧
      ((scanIndex.scoreCandidates sampleQueryEnv [0, 1] 2).length : Int) = 9 ∧
      ((scanIndex.scoreCandidates sampleQueryEnv [0, 1] 2).length : Int) ≠
        min scanIndex.vectors.len (5 * 2)) ∧
    ((0 : Int) < 3689348814741910324 ∧
      (queryBucket scanIndex [0, 1]).len < 3689348814741910324 ∧
      Semantic.wrapInt (5 * 3689348814741910324) = 4 ∧
      Semantic.scanVectors 3689348814741910324 ["d0"] scanIndex.vectors =
        ["d0", "d0", "x1", "x2"] ∧
      (scanIndex.scoreCandidates sampleQueryEnv [0, 1] 3689348814741910324).map
        (fun c => c.DocID) = ["d0", "x1", "x2"] ∧
      ((scanIndex.scoreCandidates sampleQueryEnv [0, 1] 3689348814741910324).length : Int) ≠
        min scanIndex.vectors.len (5 * 3689348814741910324)) :=
  ⟨by decide!, by decide!⟩

theorem C31_fallback_scan_amended_witness :
    Semantic.NewIndex 0 sampleNormFloat64 ⟨2, 1, 5⟩ = some planeIndex ∧
      planeIndex.addAll scanDocs = some scanIndex ∧ (0 : Int) < 2 ∧
      (5 : Int) * 2 < 2 ^ 63 ∧ (queryBucket scanIndex [0, 1]).len < 2 ∧
      min scanIndex.vectors.len (5 * 2 - (queryBucket scanIndex [0, 1]).len) ≤
        ((scanIndex.scoreCandidates sampleQueryEnv [0, 1] 2).length : Int) ∧
      ((scanIndex.scoreCandidates sampleQueryEnv [0, 1] 2).length : Int) ≤
        min scanIndex.vectors.len (5 * 2) :=
  have hb : (queryBucket scanIndex [0, 1]).len < 2 := by decide!
  have hthm := C31_fallback_scan_amended sampleQueryEnv 0 sampleNormFloat64 ⟨2, 1, 5⟩
    planeIndex scanIndex scanDocs planeIndex_new scanIndex_addAll [0, 1] 2 (by decide)
    (by decide) hb
  ⟨planeIndex_new, scanIndex_addAll, by decide, by decide, hb, hthm.2.2.2.2.2.1,
    hthm.2.2.2.2.2.2.1⟩

/-! ## `AddDocument` of a document without tokens -/

section SemanticNoTokens

open Semantic

variable {F : Type} [LinearOrderedField F]

/-- The signature of a zero vector is made of the character '1' alone: every
dot product is 0, which passes the test `>= 0`. -/
theorem signature_zero (i : Index F) (n : Nat) :
    i.signature (List.replicate n (0 : F)) =
      String.mk (List.replicate i.hyperplanes.length '1') := by
  rw [signature_eq]
  congr 1
  rw [List.map_congr_left (g := fun _ => '1') (fun plane _ => by simp [dot_zero_left]),
    List.map_const']

/-- C19, amended: on an index built by `NewIndex` and filled by `AddDocument`
calls the dimension `D` is at least 1, and `AddDocument` of a document whose
content yields no token is not skipped.  The call returns; it stores the zero
vector of length `D` under the id of the document and puts the id into the
bucket whose signature is all '1'; the vectors of the other ids and the
buckets of the other signatures are as before the call.  When the id had no
vector before, the index after the call differs from the index before it. -/
theorem C19_no_token_document_stored (now : Int) (normFloat64 : Int → Nat → F)
    (opts : Options) (i₀ i : Index F) (docs : List Document)
    (h₀ : NewIndex now normFloat64 opts = some i₀) (h : i₀.addAll docs = some i)
    (doc : Document) (ht : (Tokenize doc.Content).length = 0) :
    0 < i.embedder.dimension ∧
    i.AddDocument doc = some { i with
      vectors := i.vectors.set doc.ID (List.replicate i.embedder.dimension.toNat 0)
      buckets := i.buckets.set (String.mk (List.replicate i.hyperplanes.length '1'))
        (((i.buckets.get? (String.mk (List.replicate i.hyperplanes.length '1'))).getD []).set
          doc.ID ()) } ∧
    ∀ i', i.AddDocument doc = some i' →
      i'.vectors.get? doc.ID = some (List.replicate i.embedder.dimension.toNat 0) ∧
      inBucket i' (String.mk (List.replicate i.hyperplanes.length '1')) doc.ID ∧
      (∀ id, id ≠ doc.ID → i'.vectors.get? id = i.vectors.get? id) ∧
      (∀ sig, sig ≠ String.mk (List.replicate i.hyperplanes.length '1') →
        i'.buckets.get? sig = i.buckets.get? sig) ∧
      (i.vectors.get? doc.ID = none → i' ≠ i) := by
  obtain ⟨hpos, hb, hv⟩ := NewIndex_some now normFloat64 opts i₀ h₀
  have hr := semReflects_addAll i₀ hpos hb hv docs i h
  have hpos' : 0 < i.embedder.dimension := by rw [hr.embedder]; exact hpos
  have hvec : (i.embedder.EmbedText doc.Content : Option (Vector F)) =
      some (List.replicate i.embedder.dimension.toNat 0) := by
    rw [EmbedText_no_tokens (F := F) i.embedder doc.Content ht, if_neg (by omega)]
  have hlen : (List.replicate i.embedder.dimension.toNat (0 : F)).length ≠ 0 := by
    rw [List.length_replicate]
    omega
  have hadd := AddDocument_eq i doc _ hvec hlen
  rw [signature_zero] at hadd
  refine ⟨hpos', hadd, ?_⟩
  intro i' hi'
  rw [hadd] at hi'
  have hi := (Option.some.inj hi').symm
  subst hi
  refine ⟨?_, ?_, ?_, ?_, ?_⟩
  · simp only [GoMap.get?_set, if_true]
  · refine ⟨((i.buckets.get? (String.mk (List.replicate i.hyperplanes.length '1'))).getD []).set
      doc.ID (), ?_, ?_⟩
    · simp only [GoMap.get?_set, if_true]
    · rw [GoMap.mem_keys_set]
      exact Or.inl rfl
  · intro id hid
    simp only [GoMap.get?_set, hid, if_false]
  · intro sig hsig
    simp only [GoMap.get?_set, hsig, if_false]
  · intro hnone hEq
    have := congrArg (fun j : Index F => j.vectors.get? doc.ID) hEq
    simp only [GoMap.get?_set, if_true, hnone] at this
    exact absurd this (by simp)

end SemanticNoTokens

theorem C19_no_token_document_stored_witness :
    Semantic.NewIndex 0 sampleNormFloat64 ⟨2, 1, 5⟩ = some planeIndex ∧
      planeIndex.addAll [docDa, docDb, docE] = some planeIndexFilled ∧
      (Tokenize (⟨"z", "", "", "?!", [], 0⟩ : Document).Content).length = 0 ∧
      planeIndexFilled.AddDocument ⟨"z", "", "", "?!", [], 0⟩ =
        some { planeIndexFilled with
          vectors := [("d", [0, 1]), ("e", [2, 1]), ("z", [0, 0])]
          buckets := [("1", [("d", ()), ("e", ()), ("z", ())]), ("0", [("d", ())])] } :=
  ⟨planeIndex_new, planeIndex_addAll, by decide,
    (C19_no_token_document_stored 0 sampleNormFloat64 ⟨2, 1, 5⟩ planeIndex planeIndexFilled
      [docDa, docDb, docE] planeIndex_new planeIndex_addAll ⟨"z", "", "", "?!", [], 0⟩
      (by decide)).2.1⟩

/-! ## Two runs of `Search` -/

section SearchRuns

variable {F : Type} [LinearOrderedField F]

/-- The limit `Search` passes to the semantic index is `max(top_k, 10)`. -/
theorem semanticLimit_eq_max (k : Int) : (if k < 10 then 10 else k) = max k 10 := by
  by_cases h : k < 10
  · rw [if_pos h, max_eq_right (le_of_lt h)]
  · rw [if_neg h, max_eq_left (not_lt.1 h)]

/-- What `Search` takes from the service: the lexical index, the four
parameters and the one answer of the semantic index. -/
theorem Search_semantic_congr (env : SearchEnv F) (s s' : Service F) (query : String)
    (topK : Int) (hI : s.Index = s'.Index) (hK : s.K1 = s'.K1) (hB : s.B = s'.B)
    (hL : s.LexicalWeight = s'.LexicalWeight) (hS : s.SemanticWeight = s'.SemanticWeight)
    (hsem : semanticScoresOf s query topK = semanticScoresOf s' query topK) :
    s.Search env query topK = s'.Search env query topK := by
  obtain ⟨I, S, k, b, lw, sw⟩ := s
  obtain ⟨I', S', k', b', lw', sw'⟩ := s'
  simp only at hI hK hB hL hS
  subst hI hK hB hL hS
  rw [Search_eq, Search_eq]
  cases I with
  | none => rfl
  | some idx =>
    have hc : combinedOf env ⟨some idx, S, k, b, lw, sw⟩ idx query topK =
        combinedOf env ⟨some idx, S', k, b, lw, sw⟩ idx query topK := by
      unfold combinedOf
      rw [hsem]
      rfl
    simp only [hc]

/-- C11, amended: for every state of the lexical and of the semantic index,
every query and all `0 < k1 < k2`, take a run of `Search(q, k1)` and a run of
`Search(q, k2)`, each under its own order of map iteration, in `Search` and
in the `Query` of the semantic index.  When the service has no semantic
index, or `Query` returns the same list of candidates in the two runs, where
it is called with the limits `max(k1, 10)` and `max(k2, 10)`, the list the
first run returns is a prefix of the list the second run returns. -/
theorem C11_prefix_for_same_candidates (env₁ env₂ : SearchEnv F) (hln : env₁.ln = env₂.ln)
    (hlow : env₁.toLower = env₂.toLower) (qenv₁ qenv₂ : Semantic.QueryEnv F)
    (s : Service F) (sem : Option (Semantic.Index F)) (query : String) (k1 k2 : Int)
    (hk1 : 0 < k1) (hk : k1 < k2)
    (hsem : ∀ i, sem = some i → ∃ candidates,
      i.Query qenv₁ query (max k1 10) = some candidates ∧
        i.Query qenv₂ query (max k2 10) = some candidates)
    (R1 R2 : List (Result F)) (h1 : (s.during sem qenv₁).Search env₁ query k1 = some R1)
    (h2 : (s.during sem qenv₂).Search env₂ query k2 = some R2) : R1 <+: R2 := by
  cases sem with
  | none =>
    exact Search_prefix_of_same_answers env₁ env₂ hln hlow (s.during none qenv₁) query k1 k2
      hk1 hk (fun q hq => by simp [Service.during] at hq) R1 R2 h1 h2
  | some i =>
    obtain ⟨candidates, hc1, hc2⟩ := hsem i rfl
    have e1 : (s.during (some i) qenv₁).Search env₁ query k1 =
        ({ s with Semantic := some (fun _ _ => candidates) } : Service F).Search env₁ query
          k1 := by
      apply Search_semantic_congr <;> try rfl
      simp only [semanticScoresOf, Service.during, Option.map_some', Semantic.Index.queryMethod,
        semanticLimit_eq_max, hc1, Option.getD_some]
    have e2 : (s.during (some i) qenv₂).Search env₂ query k2 =
        ({ s with Semantic := some (fun _ _ => candidates) } : Service F).Search env₂ query
          k2 := by
      apply Search_semantic_congr <;> try rfl
      simp only [semanticScoresOf, Service.during, Option.map_some', Semantic.Index.queryMethod,
        semanticLimit_eq_max, hc2, Option.getD_some]
    rw [e1] at h1
    rw [e2] at h2
    exact Search_prefix_of_same_answers env₁ env₂ hln hlow _ query k1 k2 hk1 hk
      (fun q hq => by
        simp only [Option.some.injEq] at hq
        rw [← hq]) R1 R2 h1 h2

end SearchRuns

/-! ## The claims about two runs of `Search` at sample data -/

theorem fanSemantic_addAll : planeIndex.addAll fanDocs = some fanSemantic := by
  decide!

/-- C11 as stated fails in three ways.  With no semantic index, `Search(q, 0)`
is not truncated and returns two results where `Search(q, 1)` returns one.
With a semantic index that holds eleven vectors, `Search(q, 10)` asks it for
10 candidates and `Search(q, 11)` for 11: the document "x" gains its semantic
score and moves to the front, ahead of the ten results of `Search(q, 10)`.
With a semantic index that holds 51 vectors, none of them in the bucket of
the query "b", `Search(q, 1)` and `Search(q, 2)` both ask for 10 candidates
and `Query` scans 50 of the 51 vectors: in the run that scans them in the
stored order it misses "z", in the run that scans them in the opposite order
it scores "z", and the score of the first result differs. -/
theorem C11_monotone_topK_counterexample :
    (demoService.Search demoEnv "vector search" 0 = some [demoTop, demoSecond] ∧
      demoService.Search demoEnv "vector search" 1 = some [demoTop] ∧
      ¬ [demoTop, demoSecond] <+: [demoTop]) ∧
    (rankService.Search demoEnv "w r" 10 = some rankTop10 ∧
      rankService.Search demoEnv "w r" 11 = some rankTop11 ∧
      ¬ rankTop10 <+: rankTop11) ∧
    (Semantic.NewIndex 0 sampleNormFloat64 ⟨2, 1, 5⟩ = some planeIndex ∧
      planeIndex.addAll fanDocs = some fanSemantic ∧
      fanSemantic.Query fanQueryEnv "b" 10 =
        some (["x00", "x01", "x02", "x03", "x04", "x05", "x06", "x07", "x08", "x09"].map
          (fun id => ⟨id, 0⟩)) ∧
      fanSemantic.Query fanQueryEnvBackwards "b" 10 =
        some (⟨"z", 3 / 5⟩ :: ["x01", "x02", "x03", "x04", "x05", "x06", "x07", "x08",
          "x09"].map (fun id => ⟨id, 0⟩)) ∧
      (fanService.during (some fanSemantic) fanQueryEnv).Search demoEnv "b" 1 =
        some [rankResult "z" "a a a a b b b" (4655 / 198)] ∧
      (fanService.during (some fanSemantic) fanQueryEnvBackwards).Search demoEnv "b" 2 =
        some [rankResult "z" "a a a a b b b" (236611 / 9900), rankResult "x01" "a" 0] ∧
      ¬ [rankResult "z" "a a a a b b b" (4655 / 198)] <+:
        [rankResult "z" "a a a a b b b" (236611 / 9900), rankResult "x01" "a" 0]) :=
  ⟨by decide!, by decide!, planeIndex_new, fanSemantic_addAll, by decide!, by decide!,
    by decide!, by decide!, by decide!⟩

theorem C11_prefix_for_same_candidates_witness :
    demoEnv.ln = demoEnvReordered.ln ∧ demoEnv.toLower = demoEnvReordered.toLower ∧
      (0 : Int) < 1 ∧ (1 : Int) < 5 ∧
      (∀ i, some rankSemantic = some i → ∃ candidates,
        i.Query sampleQueryEnv "w r" (max 1 10) = some candidates ∧
          i.Query sampleQueryEnvReordered "w r" (max 5 10) = some candidates) ∧
      (rankService.during (some rankSemantic) sampleQueryEnv).Search demoEnv "w r" 1 =
        some (rankTop10.take 1) ∧
      (rankService.during (some rankSemantic) sampleQueryEnvReordered).Search demoEnvReordered
        "w r" 5 = some (rankTop10.take 5) ∧
      rankTop10.take 1 <+: rankTop10.take 5 :=
  have hsem : ∀ i, some rankSemantic = some i → ∃ candidates,
      i.Query sampleQueryEnv "w r" (max 1 10) = some candidates ∧
        i.Query sampleQueryEnvReordered "w r" (max 5 10) = some candidates := by
    intro i hi
    rw [← Option.some.inj hi]
    exact ⟨["d01", "d02", "d03", "d04", "d05", "d06", "d07", "d08", "d09", "d10"].map
      (fun id => ⟨id, 1⟩), by decide!, by decide!⟩
  have h1 : (rankService.during (some rankSemantic) sampleQueryEnv).Search demoEnv "w r" 1 =
      some (rankTop10.take 1) := by decide!
  have h2 : (rankService.during (some rankSemantic) sampleQueryEnvReordered).Search
      demoEnvReordered "w r" 5 = some (rankTop10.take 5) := by decide!
  ⟨rfl, rfl, by decide, by decide, hsem, h1, h2,
    C11_prefix_for_same_candidates demoEnv demoEnvReordered rfl rfl sampleQueryEnv
      sampleQueryEnvReordered rankService (some rankSemantic) "w r" 1 5 (by decide) (by decide)
      hsem _ _ h1 h2⟩

/-! ## The cap of the fallback scan at a large `top_k` -/

/-- C22, at the failing input: the index holds 51 vectors and `top_k` is
3689348814741910324, so `0 < top_k` and the index holds at most `top_k`
documents.  The product `5*top_k` is 2^64 + 4, which is 4 as an `int`: the
fallback scan stops at 4 candidates and `Query` returns four documents of
score 0, without "z", whose cosine similarity to the query is 3/5. -/
theorem C22_scan_cap_wraps_around :
    Semantic.NewIndex 0 sampleNormFloat64 ⟨2, 1, 5⟩ = some planeIndex ∧
      planeIndex.addAll fanDocs = some fanSemantic ∧
      (0 : Int) < 3689348814741910324 ∧ fanSemantic.vectors.len = 51 ∧
      fanSemantic.vectors.len ≤ 3689348814741910324 ∧
      (5 : Int) * 3689348814741910324 = 2 ^ 64 + 4 ∧
      Semantic.wrapInt (5 * 3689348814741910324) = 4 ∧
      fanSemantic.Query fanQueryEnv "b" 3689348814741910324 =
        some [⟨"x00", 0⟩, ⟨"x01", 0⟩, ⟨"x02", 0⟩, ⟨"x03", 0⟩] ∧
      (fanSemantic.embedder.EmbedText "b" : Option (Semantic.Vector ℚ)) = some [0, 1] ∧
      fanSemantic.vectors.get? "z" = some [4, 3] ∧
      Semantic.cosineSimilarity fanQueryEnv.sqrt [0, 1] [4, 3] = 3 / 5 :=
  ⟨planeIndex_new, fanSemantic_addAll, by decide, by decide!, by decide!, by decide,
    by decide!, by decide!, by decide!, by decide!, by decide!⟩

end GoogleSearch
